import Mathlib

/-!
# leok7v/heap: a shallow embedding of `src/heap.c`

The arena allocator of `heap.c` (K&R free list, page growth, recycle bins,
page ledger and teardown) is transcribed function by function.

Conventions of the embedding.

* Pointers are byte addresses (`Nat`), `0` is `null`.  `sizeof(node_t)` is 16
  (`#pragma pack(1)`, an 8 byte pointer and an 8 byte `size_t`), so the C
  pointer expression `p + k` on `node_t*` is `p + k * 16` here.
* `size_t` arithmetic is reduced modulo `2^64` wherever the C code can wrap.
* The header of the node at address `p` is the pair `next p`, `size p` of the
  two memory maps of the state.  The sentinel `arena->base` is the first member
  of `arena_t`, hence its address is the address of the arena itself.
* The backing allocator (`that`, `that_alloc`, `that_free`) is an environment:
  the state carries the addresses it is going to hand out (`0` for a refusal,
  and a refusal once the list is used up) and a log of the calls made to it.
* Dereferencing `null`, a failing `assert` (when asserts are compiled in) and
  running out of loop fuel are reported through `Except fault`.
-/

namespace Heap

/-- Reasons for which an execution of the embedded code stops abnormally. -/
inductive fault where
  | null_deref
  | assert_failed
  | int_overflow
  | out_of_fuel
  deriving DecidableEq, Repr

deriving instance DecidableEq for Except

/-- One call made to the backing allocator. -/
inductive call where
  | alloc (bytes : Nat) (result : Nat)
  | release (p : Nat)
  deriving DecidableEq, Repr

/-- Value of `sizeof(node_t)`: the unit in which block sizes are counted. -/
def sizeof_node_t : Nat := 16

/-- Value of `sizeof(arena_t)`: the base node and eight word sized members. -/
def sizeof_arena_t : Nat := 80

/-- Value of `sizeof(node_t*)`. -/
def sizeof_ptr : Nat := 8

/-- Number of values of `size_t`. -/
def SIZE_T : Nat := 2 ^ 64

/-- Largest value of `int`, the type of the loop counter of `heap_compact`. -/
def INT_MAX : Nat := 2 ^ 31 - 1

/-- Raw memory and the backing allocator, before an arena exists. -/
structure machine where
  next : Nat → Nat
  size : Nat → Nat
  that : List Nat
  log : List call

/-- State of one arena: the members of `struct arena_s`, the node memory and
the environment.  `base` lives at address `self`; `bin i` is `bins[i]`. -/
structure arena_t where
  self : Nat
  next : Nat → Nat
  size : Nat → Nat
  free : Nat
  allocated : Nat
  parent_min_alloc_in_bytes : Nat
  recycle_smaller_then_bytes : Nat
  bins : Nat
  bin : Nat → Nat
  that : List Nat
  log : List call

/-- Store `v` at key `p` of a memory map. -/
def poke (m : Nat → Nat) (p v : Nat) : Nat → Nat :=
  fun q => if q = p then v else m q

/-- The assignment `p->next = v`. -/
def arena_t.set_next (s : arena_t) (p v : Nat) : arena_t :=
  { s with next := poke s.next p v }

/-- The assignment `p->size = v`. -/
def arena_t.set_size (s : arena_t) (p v : Nat) : arena_t :=
  { s with size := poke s.size p v }

/-- The assignment `arena->free = f`. -/
def arena_t.set_free (s : arena_t) (f : Nat) : arena_t :=
  { s with free := f }

/-- The assignment `arena->allocated = pg`. -/
def arena_t.set_allocated (s : arena_t) (pg : Nat) : arena_t :=
  { s with allocated := pg }

/-- The assignment `arena->bins[i] = v`. -/
def arena_t.set_bin (s : arena_t) (i v : Nat) : arena_t :=
  { s with bin := poke s.bin i v }

/-- Access through the pointer `p`: a fault when `p` is `null`. -/
def deref (p : Nat) : Except fault Unit :=
  if p = 0 then .error .null_deref else .ok ()

/-- Embedding of `assert`: checked only when asserts are compiled in. -/
def c_assert (asserts : Bool) (c : Bool) : Except fault Unit :=
  if asserts && !c then .error .assert_failed else .ok ()

/-- The environment after a call of the backing allocator: `rest` is what it
will still hand out, `c` the call that is logged. -/
def arena_t.called (s : arena_t) (rest : List Nat) (c : call) : arena_t :=
  { s with that := rest, log := s.log ++ [c] }

/-- Call of `arena->that_alloc(arena->that, bytes)`. -/
def that_alloc (s : arena_t) (bytes : Nat) : Nat × arena_t :=
  (s.that.headD 0, s.called s.that.tail (call.alloc bytes (s.that.headD 0)))

/-- Call of `arena->that_free(arena->that, p)`. -/
def that_free (s : arena_t) (p : Nat) : arena_t :=
  s.called s.that (call.release p)

/-- Embedding of `number_of_units`. -/
def number_of_units (bytes : Nat) : Nat :=
  ((bytes + sizeof_node_t - 1) % SIZE_T) / sizeof_node_t

/-- The search loop of `arena_free`: from the pair `f`, `n = f->next` walk the
list until the address `a` falls between `f` and `n`. -/
def arena_free_find (s : arena_t) (a : Nat) : Nat → Nat → Nat → Except fault (Nat × Nat)
  | 0, _, _ => .error .out_of_fuel
  | fuel + 1, f, n =>
    if (f < a ∧ a < n) ∨ (n ≤ f ∧ (f < a ∨ a < n)) then .ok (f, n)
    else do
      deref n
      arena_free_find s a fuel n (s.next n)

/-- Embedding of `arena_free`. -/
def arena_free (fuel : Nat) (s : arena_t) (ap : Nat) : Except fault arena_t := do
  let a := ap - sizeof_node_t
  let f0 := s.free
  deref f0
  let (f, n) ← arena_free_find s a fuel f0 (s.next f0)
  deref a
  let s1 ← (if a + s.size a * sizeof_node_t = n then do
      deref n
      pure ((s.set_size a ((s.size a + s.size n) % SIZE_T)).set_next a (s.next n))
    else pure (s.set_next a n))
  deref f
  let s2 := (if f + s1.size f * sizeof_node_t = a then
      (s1.set_size f ((s1.size f + s1.size a) % SIZE_T)).set_next f (s1.next a)
    else s1.set_next f a)
  pure (s2.set_free f)

/-- Embedding of `arena_alloc_pages`; the result is the returned pointer. -/
def arena_alloc_pages (fuel : Nat) (s : arena_t) (nu : Nat) : Except fault (Nat × arena_t) := do
  let nu := if nu < s.parent_min_alloc_in_bytes / sizeof_node_t
    then s.parent_min_alloc_in_bytes / sizeof_node_t else nu
  let (pg, s) := that_alloc s (((nu + 1) * sizeof_node_t) % SIZE_T)
  if pg = 0 then pure (0, s)
  else do
    let s := s.set_next pg s.allocated
    let s := s.set_allocated pg
    let s := s.set_size pg ((nu + 1) % SIZE_T)
    let up := pg + sizeof_node_t
    let s := s.set_size up ((nu + SIZE_T - 1) % SIZE_T)
    let s ← arena_free fuel s (up + sizeof_node_t)
    pure (s.free, s)

/-- The search loop of `arena_alloc`: `none` when growth failed, otherwise the
pair `prev`, `p` at which the loop was left. -/
def arena_alloc_search (nu : Nat) : Nat → arena_t → Nat → Nat →
    Except fault (Option (Nat × Nat) × arena_t)
  | 0, _, _, _ => .error .out_of_fuel
  | fuel + 1, s, prev, p => do
    deref p
    if s.size p < nu then
      if p = s.free then do
        let (q, s) ← arena_alloc_pages fuel s nu
        if q = 0 then pure (none, s)
        else arena_alloc_search nu fuel s q (s.next q)
      else arena_alloc_search nu fuel s p (s.next p)
    else pure (some (prev, p), s)

/-- Embedding of `arena_alloc`; the result is the returned pointer. -/
def arena_alloc (fuel : Nat) (s : arena_t) (bytes : Nat) : Except fault (Nat × arena_t) := do
  let nu := (number_of_units bytes + 1) % SIZE_T
  let prev := s.free
  deref prev
  let (r, s) ← arena_alloc_search nu fuel s prev (s.next prev)
  match r with
  | none => pure (0, s)
  | some (prev, p) =>
    if s.size p = nu then do
      deref prev
      let s := s.set_next prev (s.next p)
      let s := s.set_free prev
      let s := s.set_next p 0
      pure (p + sizeof_node_t, s)
    else do
      let s := s.set_size p ((s.size p + SIZE_T - nu) % SIZE_T)
      let p := p + s.size p * sizeof_node_t
      deref p
      let s := s.set_size p nu
      let s := s.set_free prev
      let s := s.set_next p 0
      pure (p + sizeof_node_t, s)

/-- Embedding of `_heap_alloc_usable_size` (and of `heap_alloc_usable_size`,
which only forwards to it). -/
def heap_alloc_usable_size (asserts : Bool) (s : arena_t) (a : Nat) : Except fault Nat := do
  let n := a - sizeof_node_t
  deref n
  c_assert asserts (decide (s.size n > 1))
  pure ((((s.size n + SIZE_T - 1) % SIZE_T) * sizeof_node_t) % SIZE_T)

/-- Read of `arena->bins[i]`: a fault when the array was never allocated. -/
def bins_get (s : arena_t) (i : Nat) : Except fault Nat := do
  deref s.bins
  pure (s.bin i)

/-- The inner `for (;;)` of `heap_compact`: empty `bins[i]` into the free list. -/
def heap_compact_bin (i : Nat) : Nat → arena_t → Except fault arena_t
  | 0, _ => .error .out_of_fuel
  | fuel + 1, s => do
    let n ← bins_get s i
    if n = 0 then pure s
    else do
      let s := s.set_bin i (s.next n)
      let s := s.set_next n 0
      let s ← arena_free fuel s (n + sizeof_node_t)
      heap_compact_bin i fuel s

/-- The outer loop of `heap_compact`, `k` iterations being left and the `int`
counter standing at `i`. -/
def heap_compact_loop (fuel : Nat) : Nat → Nat → arena_t → Except fault arena_t
  | 0, _, s => .ok s
  | k + 1, i, s => do
    let s ← heap_compact_bin i fuel s
    if i + 1 > INT_MAX then .error .int_overflow
    else heap_compact_loop fuel k (i + 1) s

/-- Embedding of `heap_compact`. -/
def heap_compact (fuel : Nat) (s : arena_t) : Except fault arena_t :=
  heap_compact_loop fuel s.recycle_smaller_then_bytes 0 s

/-- Embedding of `heap_alloc`; the result is the returned pointer. -/
def heap_alloc (asserts : Bool) (fuel : Nat) (s : arena_t) (size : Nat) :
    Except fault (Nat × arena_t) := do
  let bytes := (number_of_units size * sizeof_node_t) % SIZE_T
  let slow ← (if bytes ≥ s.recycle_smaller_then_bytes then pure true
    else do
      let n ← bins_get s bytes
      pure (decide (n = 0)))
  if slow then do
    let (a, s) ← arena_alloc fuel s size
    let (a, s) ← (if a = 0 then do
        let s ← heap_compact fuel s
        arena_alloc fuel s size
      else pure (a, s))
    if asserts && decide (a ≠ 0) then do
      let u ← heap_alloc_usable_size asserts s a
      c_assert asserts (decide (bytes = u))
      pure (a, s)
    else pure (a, s)
  else do
    let n ← bins_get s bytes
    deref n
    let s := s.set_bin bytes (s.next n)
    let s := s.set_next n 0
    c_assert asserts (decide ((s.size n + SIZE_T - 1) % SIZE_T = bytes / sizeof_node_t))
    pure (n + sizeof_node_t, s)

/-- Embedding of `heap_free`. -/
def heap_free (asserts : Bool) (fuel : Nat) (s : arena_t) (a : Nat) : Except fault arena_t :=
  if a ≠ 0 then do
    let bytes ← heap_alloc_usable_size asserts s a
    if bytes ≥ s.recycle_smaller_then_bytes then arena_free fuel s a
    else do
      let n := a - sizeof_node_t
      c_assert asserts (decide ((s.size n + SIZE_T - 1) % SIZE_T = bytes / sizeof_node_t)
        && decide (s.next n = 0))
      let b ← bins_get s bytes
      let s := s.set_next n b
      let s := s.set_bin bytes n
      pure s
  else pure s

/-- The inner `while` of the leak walk: follow the ledger from `ma` until it
ends or reaches the address `t`. -/
def ledger_find (s : arena_t) (t : Nat) : Nat → Nat → Except fault Nat
  | 0, _ => .error .out_of_fuel
  | fuel + 1, ma => if ma ≠ 0 ∧ ma ≠ t then ledger_find s t fuel (s.next ma) else .ok ma

/-- The `do ... while` of the leak walk of `heap_destroy` (compiled under
`DEBUG`), the flag `leaks` being threaded through. -/
def leak_walk (s : arena_t) : Nat → Nat → Bool → Except fault Bool
  | 0, _, _ => .error .out_of_fuel
  | fuel + 1, f, leaks => do
    deref f
    let leaks ← (if s.size f > 0 then do
        let ma ← ledger_find s (f - sizeof_node_t) fuel s.allocated
        if ma = 0 ∨ s.size ma ≠ (s.size f + 2) % SIZE_T then pure true else pure leaks
      else pure leaks)
    let f := s.next f
    if f ≠ s.free then leak_walk s fuel f leaks else pure leaks

/-- The page release loop of `heap_destroy`. -/
def release_pages : Nat → arena_t → Except fault arena_t
  | 0, _ => .error .out_of_fuel
  | fuel + 1, s =>
    if s.allocated ≠ 0 then
      let next := s.next s.allocated
      let s := that_free s s.allocated
      release_pages fuel (s.set_allocated next)
    else .ok s

/-- Embedding of `heap_destroy`; `debug` tells whether `DEBUG` is defined.  The
result is the returned `bool`. -/
def heap_destroy (debug : Bool) (fuel : Nat) (s : arena_t) : Except fault (Bool × arena_t) := do
  let s ← heap_compact fuel s
  let leaks ← (if debug then leak_walk s fuel s.free false else pure false)
  let s ← release_pages fuel s
  let s := that_free s s.bins
  let s := that_free s s.self
  pure (!leaks, s)

/-- The machine seen as an arena state whose control structure does not exist
yet: only the memory and the environment are meaningful. -/
def arena_of_machine (m : machine) : arena_t :=
  { self := 0, next := m.next, size := m.size, free := 0, allocated := 0,
    parent_min_alloc_in_bytes := 0, recycle_smaller_then_bytes := 0, bins := 0,
    bin := fun _ => 0, that := m.that, log := m.log }

/-- Effect of `memset(arena, 0, sizeof(arena_t))` on the structure at `arena`. -/
def arena_memset (s : arena_t) (arena : Nat) : arena_t :=
  { s with self := arena, next := poke s.next arena 0, size := poke s.size arena 0,
           free := 0, allocated := 0, parent_min_alloc_in_bytes := 0,
           recycle_smaller_then_bytes := 0, bins := 0 }

/-- The assignments of the two configuration members of the arena. -/
def arena_t.configure (s : arena_t) (pmin threshold : Nat) : arena_t :=
  { s with parent_min_alloc_in_bytes := pmin, recycle_smaller_then_bytes := threshold }

/-- The assignment `arena->bins = b`. -/
def arena_t.set_bins (s : arena_t) (b : Nat) : arena_t :=
  { s with bins := b }

/-- Effect of `memset(arena->bins, 0, ...)`. -/
def arena_t.zero_bins (s : arena_t) : arena_t :=
  { s with bin := fun _ => 0 }

/-- Embedding of `heap_create_ex`; the result is the returned pointer and the
state left behind (of which only the environment matters when it is `null`). -/
def heap_create_ex (asserts debug : Bool) (fuel : Nat) (m : machine)
    (parent_min_alloc_in_bytes recycle_smaller_then_bytes : Nat) :
    Except fault (Nat × arena_t) := do
  c_assert asserts (decide (parent_min_alloc_in_bytes ≥ 4 * 1024))
  let (arena, s) := that_alloc (arena_of_machine m) sizeof_arena_t
  deref arena
  let s := arena_memset s arena
  if arena ≠ 0 then do
    let s := s.set_free arena
    let s := s.set_next arena arena
    let s := s.configure parent_min_alloc_in_bytes recycle_smaller_then_bytes
    let s := s.set_bins 0
    if recycle_smaller_then_bytes > 1 then do
      let (b, s) := that_alloc s ((recycle_smaller_then_bytes * sizeof_ptr) % SIZE_T)
      let s := s.set_bins b
      if b ≠ 0 then pure (arena, s.zero_bins)
      else do
        let (_, s) ← heap_destroy debug fuel s
        pure (0, s)
    else pure (arena, s)
  else pure (0, s)

/-- Embedding of `heap_create`: the runtime allocator, a page size of 1MB and
a recycle threshold of 1024 bytes. -/
def heap_create (asserts debug : Bool) (fuel : Nat) (m : machine) : Except fault (Nat × arena_t) :=
  heap_create_ex asserts debug fuel m (1024 * 1024) 1024

/-- Members of the arena that the free-list operations leave alone. -/
def same_config (s s' : arena_t) : Prop :=
  s'.self = s.self ∧ s'.parent_min_alloc_in_bytes = s.parent_min_alloc_in_bytes ∧
  s'.recycle_smaller_then_bytes = s.recycle_smaller_then_bytes ∧ s'.bins = s.bins

/-- What `arena_free` leaves alone: the configuration, the bins, the ledger
head and the environment. -/
def free_frame (s s' : arena_t) : Prop :=
  same_config s s' ∧ s'.bin = s.bin ∧ s'.log = s.log ∧ s'.that = s.that ∧
    s'.allocated = s.allocated

/-! ## Concrete runs -/

/-- A machine with zeroed memory whose backing allocator hands out `that`. -/
def fresh_machine (that : List Nat) : machine :=
  { next := fun _ => 0, size := fun _ => 0, that := that, log := [] }

/-- Value returned by a run. -/
def outcome {α : Type} (r : Except fault (α × arena_t)) : Except fault α :=
  r.map Prod.fst

/-- Calls made to the backing allocator in a run. -/
def calls {α : Type} (r : Except fault (α × arena_t)) : Except fault (List call) :=
  r.map (fun x => x.2.log)

/-- State in which a run ends (the raw empty machine if it faults). -/
def final_state {α : Type} (r : Except fault (α × arena_t)) : arena_t :=
  match r with
  | .ok x => x.2
  | .error _ => arena_of_machine (fresh_machine [])

/-- An arena with 4096 byte pages and threshold `threshold`, whose control
structure is at 1000, whose bins array (if any) is at 2000 and whose backing
allocator then hands out `pages`. -/
def small_arena (asserts : Bool) (threshold : Nat) (pages : List Nat) :
    Except fault (Nat × arena_t) :=
  heap_create_ex asserts true 64 (fresh_machine (1000 :: (if threshold > 1 then [2000] else []) ++ pages))
    4096 threshold

/-- A request of `SIZE_MAX` bytes on a fresh arena: the pointer returned and
its usable size. -/
def size_max_request (asserts : Bool) : Except fault (Nat × Nat) := do
  let (_, s) ← small_arena asserts 64 [65536]
  let (p, s) ← heap_alloc asserts 64 s (2 ^ 64 - 1)
  let u ← heap_alloc_usable_size asserts s p
  pure (p, u)

/-- A request of 4097 bytes, one more than the page size, the backing allocator
having three pages to give. -/
def oversize_request : Except fault (Nat × arena_t) := do
  let (_, s) ← small_arena true 64 [65536, 131072, 196608]
  heap_alloc true 64 s 4097

/-- A request of 32 bytes on an arena of threshold 1 whose backing allocator
has no page to give. -/
def threshold_one_request (asserts : Bool) : Except fault (Nat × arena_t) := do
  let (_, s) ← small_arena asserts 1 []
  heap_alloc asserts 64 s 32

/-- The scenario of the specification: two requests of 32 bytes, the first
released and requested again, then teardown.  The result lists the three
pointers and the value of `heap_destroy`. -/
def spec_scenario (debug : Bool) : Except fault ((Nat × Nat × Nat × Bool) × arena_t) := do
  let (_, s) ← small_arena true 64 [65536]
  let (p1, s) ← heap_alloc true 64 s 32
  let (p2, s) ← heap_alloc true 64 s 32
  let s ← heap_free true 64 s p1
  let (p3, s) ← heap_alloc true 64 s 32
  let (r, s) ← heap_destroy debug 64 s
  pure ((p1, p2, p3, r), s)

/-- One request that takes the whole free block of a page, never released,
then teardown in a debug build. -/
def exact_fit_scenario : Except fault ((Nat × Bool) × arena_t) := do
  let (_, s) ← small_arena true 64 [65536]
  let (p, s) ← heap_alloc true 64 s 4064
  let (r, s) ← heap_destroy true 64 s
  pure ((p, r), s)

/-- The arena of the scenarios after one request of 32 bytes. -/
def warm_arena : arena_t :=
  final_state (do
    let (_, s) ← small_arena true 64 [65536]
    heap_alloc true 64 s 32)

/-- The state after a second request of 32 bytes on `warm_arena`. -/
def warm_arena_alloc : arena_t :=
  final_state (heap_alloc true 64 warm_arena 32)

/-- The state after that second block has been released. -/
def warm_arena_free : arena_t :=
  final_state ((heap_free true 64 warm_arena_alloc 69552).map (fun s => ((), s)))

/-! ## Sequences of calls -/

/-- A call of the public interface made by a client of one arena. -/
inductive op where
  | alloc (n : Nat)
  | release (p : Nat)
  | compact
deriving DecidableEq, Repr

/-- One call of the client: the state it leaves and the pointers the client
holds afterwards (a non-null result of `heap_alloc` is added, a pointer given
to `heap_free` is removed). -/
def step (asserts : Bool) (fuel : Nat) (s : arena_t) (live : List Nat) :
    op → Except fault (arena_t × List Nat)
  | .alloc n => do
    let (p, s) ← heap_alloc asserts fuel s n
    pure (s, if p = 0 then live else p :: live)
  | .release p => do
    let s ← heap_free asserts fuel s p
    pure (s, live.erase p)
  | .compact => do
    let s ← heap_compact fuel s
    pure (s, live)

/-- A sequence of calls, from the state `s` with the client holding `live`. -/
def run (asserts : Bool) (fuel : Nat) : arena_t → List Nat → List op →
    Except fault (arena_t × List Nat)
  | s, live, [] => .ok (s, live)
  | s, live, o :: os => do
    let (s, live) ← step asserts fuel s live o
    run asserts fuel s live os

/-- A call the client is entitled to make while holding `live`: a request of at
most `2^64 - 48` bytes, the release of null or of a pointer it holds, or a
compaction. -/
def op.admissible (live : List Nat) : op → Bool
  | .alloc n => decide (n ≤ 2 ^ 64 - 48)
  | .release p => decide (p = 0 ∨ p ∈ live)
  | .compact => true

/-- Every call of the sequence is admissible at the moment it is made. -/
def admissible (asserts : Bool) (fuel : Nat) : arena_t → List Nat → List op → Bool
  | _, _, [] => true
  | s, live, o :: os =>
    o.admissible live &&
      (match step asserts fuel s live o with
       | .ok (s, live) => admissible asserts fuel s live os
       | .error _ => true)

/-- The fresh arena of the scenarios: 4096 byte pages, threshold 64, one page
at 65536 to be had. -/
def client_start : arena_t :=
  final_state (small_arena true 64 [65536])

/-- A client session: three requests, a release into a bin, a compaction, a
large request, a release into the free list and one more request. -/
def client_ops : List op :=
  [.alloc 32, .alloc 32, .alloc 200, .release 69600, .compact, .alloc 1000, .release 69328,
   .alloc 32]

/-- The state in which the client session ends. -/
def client_end : arena_t :=
  final_state ((run true 64 client_start [] client_ops).map (fun x => (x.2, x.1)))

/-- A block of 32 bytes is requested and kept, then `2^64 - 31` bytes are
requested: the unit count of the page to get is `2^60 + 1`, its byte count
wraps to 16, and the backing allocator (threshold 0, so there are no bins)
serves those 16 bytes at 65520, right below the page at 65536.  The result
lists the two pointers returned. -/
def wrapped_request : Except fault ((Nat × Nat) × arena_t) := do
  let (_, s) ← small_arena true 0 [65536, 65520]
  let (p1, s) ← heap_alloc true 64 s 32
  let (p2, s) ← heap_alloc true 64 s (2 ^ 64 - 31)
  pure ((p1, p2), s)

/-- The state after the block of 32 bytes of `wrapped_request` has been
released: the client holds nothing. -/
def wrapped_request_freed : arena_t :=
  final_state (do
    let ((p1, _), s) ← wrapped_request
    let s ← heap_free true 64 s p1
    pure ((), s))

/-- The blocks with headers at `x` and `y` share a unit. -/
def overlaps (s : arena_t) (x y : Nat) : Prop :=
  x < y + s.size y * sizeof_node_t ∧ y < x + s.size x * sizeof_node_t

instance overlaps_decidable (s : arena_t) (x y : Nat) : Decidable (overlaps s x y) := by
  unfold overlaps; infer_instance

/-- A client session at the end of which every block has been released: two
into a bin, one into the free list, with a compaction in between. -/
def settled_ops : List op :=
  [.alloc 32, .alloc 32, .alloc 200, .release 69600, .release 69328, .compact, .release 69552]

/-- The state in which the session `settled_ops` ends. -/
def settled_end : arena_t :=
  final_state ((run true 64 client_start [] settled_ops).map (fun x => (x.2, x.1)))

/-- A request of 0 bytes on a fresh arena (4096 byte pages, threshold 64): the
pointer returned and the size of the header before it. -/
def zero_request (asserts : Bool) : Except fault ((Nat × Nat) × arena_t) := do
  let (_, s) ← small_arena asserts 64 [65536]
  let (p, s) ← heap_alloc asserts 64 s 0
  pure ((p, s.size (p - sizeof_node_t)), s)

/-- The arena `heap_create_ex` returns for 4096 byte pages and threshold 1, a
page at 65536 being available. -/
def threshold_one_arena : arena_t :=
  final_state (small_arena true 1 [65536])

/-- The fresh arena after a request of 200 bytes, which is at or above the
threshold 64 and is served at 69424. -/
def cycle_alloc : arena_t :=
  final_state (heap_alloc true 64 client_start 200)

/-- The state after that block has been released. -/
def cycle_free : arena_t :=
  final_state ((heap_free true 64 cycle_alloc 69424).map (fun s => ((), s)))

/-- The state after 200 bytes have been requested again. -/
def cycle_again : arena_t :=
  final_state (heap_alloc true 64 cycle_free 200)

/-- The state at the end of the client session after `arena_alloc` of 32 bytes,
which cuts three units from the end of the free block at 69312. -/
def carve_one : arena_t :=
  final_state (arena_alloc 64 client_end 32)

/-- The state after `arena_alloc` of 48 bytes has cut four more units from that
block. -/
def carve_two : arena_t :=
  final_state (arena_alloc 64 carve_one 48)

/-! ## The invariant of the arena -/

/-- The exit test of the search loop of `arena_free`. -/
def between (a f n : Nat) : Prop :=
  (f < a ∧ a < n) ∨ (n ≤ f ∧ (f < a ∨ a < n))

/-- In the finite set `F` ordered by address, `n` comes next after `f` on the
circle: it is the least member above `f`, or the least member of all when `f`
is the greatest. -/
def csucc (F : Finset Nat) (f n : Nat) : Prop :=
  n ∈ F ∧ ((f < n ∧ ∀ y ∈ F, f < y → n ≤ y) ∨ ((∀ y ∈ F, y ≤ f) ∧ ∀ y ∈ F, n ≤ y))

/-- Ghost description of an arena: the nodes of the free list (sentinel
included), the headers of the blocks that are off the list (handed out or held
in a bin) and the pages of the ledger, most recent first. -/
structure layout where
  F : Finset Nat
  U : Finset Nat
  P : List Nat

/-- A node is a header the arena knows of: on the free list or off it. -/
def layout.node (g : layout) (x : Nat) : Prop := x ∈ g.F ∨ x ∈ g.U

/-- The block at `x` lies in the usable part of the page `pg`: after the page
header, before the last unit, a whole number of units from the page start, and
it has at least one unit. -/
def in_page (s : arena_t) (pg x : Nat) : Prop :=
  pg + 16 ≤ x ∧ x + 16 * s.size x + 16 ≤ pg + 16 * s.size pg ∧ (x - pg) % 16 = 0 ∧
    1 ≤ s.size x

/-- The ledger: the list of pages reached from `h` through `next` until `null`. -/
def ledger (nx : Nat → Nat) : Nat → List Nat → Prop
  | h, [] => h = 0
  | h, pg :: l => h = pg ∧ pg ≠ 0 ∧ ledger nx (nx pg) l

/-- Regions granted by two calls of the backing allocator do not overlap. -/
def call.apart : call → call → Prop
  | call.alloc b p, call.alloc b' p' => p ≠ 0 → p' ≠ 0 → p + b ≤ p' ∨ p' + b' ≤ p
  | _, _ => True

/-- The backing allocator has handed out pairwise disjoint regions. -/
def regions_disjoint (log : List call) : Prop := log.Pairwise call.apart

/-- Well-formedness of an arena state with respect to a layout. -/
structure wf (s : arena_t) (g : layout) : Prop where
  self_ne : s.self ≠ 0
  self_F : s.self ∈ g.F
  self_size : s.size s.self = 0
  free_F : s.free ∈ g.F
  succ : ∀ f ∈ g.F, csucc g.F f (s.next f)
  FU : ∀ x ∈ g.F, x ∉ g.U
  paged : ∀ x, g.node x → x ≠ s.self → ∃ pg ∈ g.P, in_page s pg x
  disj : ∀ x y, g.node x → g.node y → x < y → x + 16 * s.size x ≤ y
  cover : ∀ pg ∈ g.P, ∀ u, pg + 16 ≤ u → u + 32 ≤ pg + 16 * s.size pg → (u - pg) % 16 = 0 →
    ∃ x, g.node x ∧ x ≠ s.self ∧ x ≤ u ∧ u < x + 16 * s.size x
  total : ∑ x ∈ g.F, s.size x + ∑ x ∈ g.U, s.size x = (g.P.map (fun pg => s.size pg - 2)).sum
  pg_nodup : g.P.Nodup
  pg_size : ∀ pg ∈ g.P, 3 ≤ s.size pg ∧ 16 * s.size pg < 2 ^ 64
  pg_disj : ∀ pg ∈ g.P, ∀ pg' ∈ g.P, pg < pg' → pg + 16 * s.size pg ≤ pg'
  pg_self : ∀ pg ∈ g.P, pg + 16 * s.size pg ≤ s.self ∨ s.self + 80 ≤ pg
  pg_log : ∀ pg ∈ g.P, call.alloc (16 * s.size pg) pg ∈ s.log
  self_log : call.alloc 80 s.self ∈ s.log
  chain : ledger s.next s.allocated g.P

/-- No free block ends where another node of the free list starts: neighbours
have been coalesced. -/
def coalesced (s : arena_t) (g : layout) : Prop :=
  ∀ x ∈ g.F, ∀ y ∈ g.F, x ≠ s.self → x + 16 * s.size x ≠ y

/-- The state `arena_free` leaves, the search having stopped at `f`: `n` is
the successor of `f`; sizes are added without reduction modulo `2^64`. -/
def freed (s : arena_t) (a f : Nat) : arena_t :=
  let s1 := if a + 16 * s.size a = s.next f
    then (s.set_size a (s.size a + s.size (s.next f))).set_next a (s.next (s.next f))
    else s.set_next a (s.next f)
  let s2 := if f + 16 * s1.size f = a
    then (s1.set_size f (s1.size f + s1.size a)).set_next f (s1.next a)
    else s1.set_next f a
  s2.set_free f

/-- Admissible page size of an arena: at least 4096 bytes, and small enough
for the byte size of a page to fit `size_t`. -/
def page_config (s : arena_t) : Prop :=
  4096 ≤ s.parent_min_alloc_in_bytes ∧ s.parent_min_alloc_in_bytes / 16 + 2 ≤ 2 ^ 60

/-- The recycle bins of an arena: `L` holds the headers of the blocks handed out
to the caller, `B b` lists the blocks of `bins[b]` from its head.  Every block
off the free list is in `L` or in exactly one bin, and a block of `bins[b]` has
`b / 16 + 1` units. -/
structure binned (s : arena_t) (g : layout) (L : Finset Nat) (B : Nat → List Nat) : Prop where
  live_U : ∀ x ∈ L, x ∈ g.U
  chain : ∀ b, ledger s.next (s.bin b) (B b)
  mem : ∀ b, ∀ x ∈ B b, x ∈ g.U ∧ x ∉ L ∧ 16 * s.size x = b + 16 ∧
    b < s.recycle_smaller_then_bytes
  nodup : ∀ b, (B b).Nodup
  part : ∀ x ∈ g.U, x ∈ L ∨ ∃ b, x ∈ B b

/-- The invariant of the arena: well formed, coalesced, bins in order and an
admissible page size. -/
structure inv (s : arena_t) (g : layout) (L : Finset Nat) (B : Nat → List Nat) : Prop where
  wf : wf s g
  co : coalesced s g
  bn : binned s g L B
  pc : page_config s

/-- A bound on the fuel `heap_compact` needs. -/
def layout.weight (g : layout) : Nat := 2 * g.F.card + 3 * g.U.card

/-- What the operations on the bins and the free list leave alone: the
configuration, the environment, the ledger, and the headers of the pages and
of the blocks handed out. -/
def kept (s s' : arena_t) (g g' : layout) (L : Finset Nat) : Prop :=
  same_config s s' ∧ s'.log = s.log ∧ s'.that = s.that ∧ s'.allocated = s.allocated ∧
    g'.P = g.P ∧
    (∀ x ∈ L, s'.next x = s.next x ∧ s'.size x = s.size x) ∧
    (∀ pg ∈ g.P, s'.next pg = s.next pg ∧ s'.size pg = s.size pg)

/-- Conservation of units in the state `s`, the client holding the pointers
`live`.  `F` is the set of the nodes on the circular free list (those reached
from the cursor `free` by following `next`; the sentinel has size 0), `B b` is
the chain of `bins[b]` and `P` the ledger of pages from `allocated`.  The sizes
of the blocks of the free list, of the bins and of the client add up to the
units of the pages, two units per page being overhead. -/
def conserved (s : arena_t) (live : List Nat) : Prop :=
  ∃ (F : Finset Nat) (B : Nat → List Nat) (P : List Nat),
    (∀ x, x ∈ F ↔ ∃ k, s.next^[k] s.free = x) ∧
    (∀ b, ledger s.next (s.bin b) (B b)) ∧
    ledger s.next s.allocated P ∧
    ∑ x ∈ F, s.size x
      + ∑ b ∈ Finset.range s.recycle_smaller_then_bytes, ((B b).map s.size).sum
      + (live.map (fun p => s.size (p - sizeof_node_t))).sum
      = (P.map (fun pg => s.size pg - 2)).sum

/-- The pointers `live` the client holds are, without repetition, the addresses
after the headers `L`. -/
def held (L : Finset Nat) (live : List Nat) : Prop :=
  live.Nodup ∧ ∀ p, p ∈ live ↔ ∃ hdr ∈ L, p = hdr + sizeof_node_t

instance call.apart_decidable : DecidableRel call.apart := fun a b => by
  cases a <;> cases b <;> unfold call.apart <;> infer_instance

instance regions_disjoint_decidable (log : List call) : Decidable (regions_disjoint log) := by
  unfold regions_disjoint; infer_instance

/-- The test the leak walk makes at the free-list node `f`, the ledger being
`P`: the node has units, and the address one unit below it is not a page of the
ledger or is a page whose size is not that of the node plus two. -/
def flagged (s : arena_t) (P : List Nat) (f : Nat) : Prop :=
  0 < s.size f ∧
    (f - sizeof_node_t ∉ P ∨ s.size (f - sizeof_node_t) ≠ (s.size f + 2) % SIZE_T)

/-- The address `x` lies in the page with header `pg`. -/
def within (s : arena_t) (pg x : Nat) : Prop :=
  pg < x ∧ x < pg + s.size pg * sizeof_node_t

instance between_decidable (a f n : Nat) : Decidable (between a f n) := by
  unfold between; infer_instance

instance csucc_decidable (F : Finset Nat) (f n : Nat) : Decidable (csucc F f n) := by
  unfold csucc; infer_instance

/-- The free list of `t` is that of `s`: the same nodes are reached from the
cursor, and they have the same sizes and the same successors. -/
def same_free_list (s t : arena_t) : Prop :=
  (∀ x, (∃ k, t.next^[k] t.free = x) ↔ ∃ k, s.next^[k] s.free = x) ∧
    ∀ k, t.size (s.next^[k] s.free) = s.size (s.next^[k] s.free) ∧
      t.next (s.next^[k] s.free) = s.next (s.next^[k] s.free)

/-! ## Projections of the state updates -/

@[simp] theorem arena_t.set_next_self_eq (s : arena_t) (p v : Nat) :
    (s.set_next p v).self = s.self := rfl

@[simp] theorem arena_t.set_next_next_eq (s : arena_t) (p v : Nat) :
    (s.set_next p v).next = poke s.next p v := rfl

@[simp] theorem arena_t.set_next_size_eq (s : arena_t) (p v : Nat) :
    (s.set_next p v).size = s.size := rfl

@[simp] theorem arena_t.set_next_free_eq (s : arena_t) (p v : Nat) :
    (s.set_next p v).free = s.free := rfl

@[simp] theorem arena_t.set_next_allocated_eq (s : arena_t) (p v : Nat) :
    (s.set_next p v).allocated = s.allocated := rfl

@[simp] theorem arena_t.set_next_pmin_eq (s : arena_t) (p v : Nat) :
    (s.set_next p v).parent_min_alloc_in_bytes = s.parent_min_alloc_in_bytes := rfl

@[simp] theorem arena_t.set_next_threshold_eq (s : arena_t) (p v : Nat) :
    (s.set_next p v).recycle_smaller_then_bytes = s.recycle_smaller_then_bytes := rfl

@[simp] theorem arena_t.set_next_bins_eq (s : arena_t) (p v : Nat) :
    (s.set_next p v).bins = s.bins := rfl

@[simp] theorem arena_t.set_next_bin_eq (s : arena_t) (p v : Nat) :
    (s.set_next p v).bin = s.bin := rfl

@[simp] theorem arena_t.set_next_that_eq (s : arena_t) (p v : Nat) :
    (s.set_next p v).that = s.that := rfl

@[simp] theorem arena_t.set_next_log_eq (s : arena_t) (p v : Nat) :
    (s.set_next p v).log = s.log := rfl

@[simp] theorem arena_t.set_size_self_eq (s : arena_t) (p v : Nat) :
    (s.set_size p v).self = s.self := rfl

@[simp] theorem arena_t.set_size_next_eq (s : arena_t) (p v : Nat) :
    (s.set_size p v).next = s.next := rfl

@[simp] theorem arena_t.set_size_size_eq (s : arena_t) (p v : Nat) :
    (s.set_size p v).size = poke s.size p v := rfl

@[simp] theorem arena_t.set_size_free_eq (s : arena_t) (p v : Nat) :
    (s.set_size p v).free = s.free := rfl

@[simp] theorem arena_t.set_size_allocated_eq (s : arena_t) (p v : Nat) :
    (s.set_size p v).allocated = s.allocated := rfl

@[simp] theorem arena_t.set_size_pmin_eq (s : arena_t) (p v : Nat) :
    (s.set_size p v).parent_min_alloc_in_bytes = s.parent_min_alloc_in_bytes := rfl

@[simp] theorem arena_t.set_size_threshold_eq (s : arena_t) (p v : Nat) :
    (s.set_size p v).recycle_smaller_then_bytes = s.recycle_smaller_then_bytes := rfl

@[simp] theorem arena_t.set_size_bins_eq (s : arena_t) (p v : Nat) :
    (s.set_size p v).bins = s.bins := rfl

@[simp] theorem arena_t.set_size_bin_eq (s : arena_t) (p v : Nat) :
    (s.set_size p v).bin = s.bin := rfl

@[simp] theorem arena_t.set_size_that_eq (s : arena_t) (p v : Nat) :
    (s.set_size p v).that = s.that := rfl

@[simp] theorem arena_t.set_size_log_eq (s : arena_t) (p v : Nat) :
    (s.set_size p v).log = s.log := rfl

@[simp] theorem arena_t.set_free_self_eq (s : arena_t) (f : Nat) :
    (s.set_free f).self = s.self := rfl

@[simp] theorem arena_t.set_free_next_eq (s : arena_t) (f : Nat) :
    (s.set_free f).next = s.next := rfl

@[simp] theorem arena_t.set_free_size_eq (s : arena_t) (f : Nat) :
    (s.set_free f).size = s.size := rfl

@[simp] theorem arena_t.set_free_free_eq (s : arena_t) (f : Nat) :
    (s.set_free f).free = f := rfl

@[simp] theorem arena_t.set_free_allocated_eq (s : arena_t) (f : Nat) :
    (s.set_free f).allocated = s.allocated := rfl

@[simp] theorem arena_t.set_free_pmin_eq (s : arena_t) (f : Nat) :
    (s.set_free f).parent_min_alloc_in_bytes = s.parent_min_alloc_in_bytes := rfl

@[simp] theorem arena_t.set_free_threshold_eq (s : arena_t) (f : Nat) :
    (s.set_free f).recycle_smaller_then_bytes = s.recycle_smaller_then_bytes := rfl

@[simp] theorem arena_t.set_free_bins_eq (s : arena_t) (f : Nat) :
    (s.set_free f).bins = s.bins := rfl

@[simp] theorem arena_t.set_free_bin_eq (s : arena_t) (f : Nat) :
    (s.set_free f).bin = s.bin := rfl

@[simp] theorem arena_t.set_free_that_eq (s : arena_t) (f : Nat) :
    (s.set_free f).that = s.that := rfl

@[simp] theorem arena_t.set_free_log_eq (s : arena_t) (f : Nat) :
    (s.set_free f).log = s.log := rfl

@[simp] theorem arena_t.set_allocated_self_eq (s : arena_t) (pg : Nat) :
    (s.set_allocated pg).self = s.self := rfl

@[simp] theorem arena_t.set_allocated_next_eq (s : arena_t) (pg : Nat) :
    (s.set_allocated pg).next = s.next := rfl

@[simp] theorem arena_t.set_allocated_size_eq (s : arena_t) (pg : Nat) :
    (s.set_allocated pg).size = s.size := rfl

@[simp] theorem arena_t.set_allocated_free_eq (s : arena_t) (pg : Nat) :
    (s.set_allocated pg).free = s.free := rfl

@[simp] theorem arena_t.set_allocated_allocated_eq (s : arena_t) (pg : Nat) :
    (s.set_allocated pg).allocated = pg := rfl

@[simp] theorem arena_t.set_allocated_pmin_eq (s : arena_t) (pg : Nat) :
    (s.set_allocated pg).parent_min_alloc_in_bytes = s.parent_min_alloc_in_bytes := rfl

@[simp] theorem arena_t.set_allocated_threshold_eq (s : arena_t) (pg : Nat) :
    (s.set_allocated pg).recycle_smaller_then_bytes = s.recycle_smaller_then_bytes := rfl

@[simp] theorem arena_t.set_allocated_bins_eq (s : arena_t) (pg : Nat) :
    (s.set_allocated pg).bins = s.bins := rfl

@[simp] theorem arena_t.set_allocated_bin_eq (s : arena_t) (pg : Nat) :
    (s.set_allocated pg).bin = s.bin := rfl

@[simp] theorem arena_t.set_allocated_that_eq (s : arena_t) (pg : Nat) :
    (s.set_allocated pg).that = s.that := rfl

@[simp] theorem arena_t.set_allocated_log_eq (s : arena_t) (pg : Nat) :
    (s.set_allocated pg).log = s.log := rfl

@[simp] theorem arena_t.set_bin_self_eq (s : arena_t) (i v : Nat) :
    (s.set_bin i v).self = s.self := rfl

@[simp] theorem arena_t.set_bin_next_eq (s : arena_t) (i v : Nat) :
    (s.set_bin i v).next = s.next := rfl

@[simp] theorem arena_t.set_bin_size_eq (s : arena_t) (i v : Nat) :
    (s.set_bin i v).size = s.size := rfl

@[simp] theorem arena_t.set_bin_free_eq (s : arena_t) (i v : Nat) :
    (s.set_bin i v).free = s.free := rfl

@[simp] theorem arena_t.set_bin_allocated_eq (s : arena_t) (i v : Nat) :
    (s.set_bin i v).allocated = s.allocated := rfl

@[simp] theorem arena_t.set_bin_pmin_eq (s : arena_t) (i v : Nat) :
    (s.set_bin i v).parent_min_alloc_in_bytes = s.parent_min_alloc_in_bytes := rfl

@[simp] theorem arena_t.set_bin_threshold_eq (s : arena_t) (i v : Nat) :
    (s.set_bin i v).recycle_smaller_then_bytes = s.recycle_smaller_then_bytes := rfl

@[simp] theorem arena_t.set_bin_bins_eq (s : arena_t) (i v : Nat) :
    (s.set_bin i v).bins = s.bins := rfl

@[simp] theorem arena_t.set_bin_bin_eq (s : arena_t) (i v : Nat) :
    (s.set_bin i v).bin = poke s.bin i v := rfl

@[simp] theorem arena_t.set_bin_that_eq (s : arena_t) (i v : Nat) :
    (s.set_bin i v).that = s.that := rfl

@[simp] theorem arena_t.set_bin_log_eq (s : arena_t) (i v : Nat) :
    (s.set_bin i v).log = s.log := rfl

@[simp] theorem arena_t.called_self_eq (s : arena_t) (rest : List Nat) (c : call) :
    (s.called rest c).self = s.self := rfl

@[simp] theorem arena_t.called_next_eq (s : arena_t) (rest : List Nat) (c : call) :
    (s.called rest c).next = s.next := rfl

@[simp] theorem arena_t.called_size_eq (s : arena_t) (rest : List Nat) (c : call) :
    (s.called rest c).size = s.size := rfl

@[simp] theorem arena_t.called_free_eq (s : arena_t) (rest : List Nat) (c : call) :
    (s.called rest c).free = s.free := rfl

@[simp] theorem arena_t.called_allocated_eq (s : arena_t) (rest : List Nat) (c : call) :
    (s.called rest c).allocated = s.allocated := rfl

@[simp] theorem arena_t.called_pmin_eq (s : arena_t) (rest : List Nat) (c : call) :
    (s.called rest c).parent_min_alloc_in_bytes = s.parent_min_alloc_in_bytes := rfl

@[simp] theorem arena_t.called_threshold_eq (s : arena_t) (rest : List Nat) (c : call) :
    (s.called rest c).recycle_smaller_then_bytes = s.recycle_smaller_then_bytes := rfl

@[simp] theorem arena_t.called_bins_eq (s : arena_t) (rest : List Nat) (c : call) :
    (s.called rest c).bins = s.bins := rfl

@[simp] theorem arena_t.called_bin_eq (s : arena_t) (rest : List Nat) (c : call) :
    (s.called rest c).bin = s.bin := rfl

@[simp] theorem arena_t.called_that_eq (s : arena_t) (rest : List Nat) (c : call) :
    (s.called rest c).that = rest := rfl

@[simp] theorem arena_t.called_log_eq (s : arena_t) (rest : List Nat) (c : call) :
    (s.called rest c).log = s.log ++ [c] := rfl

@[simp] theorem arena_t.configure_self_eq (s : arena_t) (pmin threshold : Nat) :
    (s.configure pmin threshold).self = s.self := rfl

@[simp] theorem arena_t.configure_next_eq (s : arena_t) (pmin threshold : Nat) :
    (s.configure pmin threshold).next = s.next := rfl

@[simp] theorem arena_t.configure_size_eq (s : arena_t) (pmin threshold : Nat) :
    (s.configure pmin threshold).size = s.size := rfl

@[simp] theorem arena_t.configure_free_eq (s : arena_t) (pmin threshold : Nat) :
    (s.configure pmin threshold).free = s.free := rfl

@[simp] theorem arena_t.configure_allocated_eq (s : arena_t) (pmin threshold : Nat) :
    (s.configure pmin threshold).allocated = s.allocated := rfl

@[simp] theorem arena_t.configure_pmin_eq (s : arena_t) (pmin threshold : Nat) :
    (s.configure pmin threshold).parent_min_alloc_in_bytes = pmin := rfl

@[simp] theorem arena_t.configure_threshold_eq (s : arena_t) (pmin threshold : Nat) :
    (s.configure pmin threshold).recycle_smaller_then_bytes = threshold := rfl

@[simp] theorem arena_t.configure_bins_eq (s : arena_t) (pmin threshold : Nat) :
    (s.configure pmin threshold).bins = s.bins := rfl

@[simp] theorem arena_t.configure_bin_eq (s : arena_t) (pmin threshold : Nat) :
    (s.configure pmin threshold).bin = s.bin := rfl

@[simp] theorem arena_t.configure_that_eq (s : arena_t) (pmin threshold : Nat) :
    (s.configure pmin threshold).that = s.that := rfl

@[simp] theorem arena_t.configure_log_eq (s : arena_t) (pmin threshold : Nat) :
    (s.configure pmin threshold).log = s.log := rfl

@[simp] theorem arena_t.set_bins_self_eq (s : arena_t) (b : Nat) :
    (s.set_bins b).self = s.self := rfl

@[simp] theorem arena_t.set_bins_next_eq (s : arena_t) (b : Nat) :
    (s.set_bins b).next = s.next := rfl

@[simp] theorem arena_t.set_bins_size_eq (s : arena_t) (b : Nat) :
    (s.set_bins b).size = s.size := rfl

@[simp] theorem arena_t.set_bins_free_eq (s : arena_t) (b : Nat) :
    (s.set_bins b).free = s.free := rfl

@[simp] theorem arena_t.set_bins_allocated_eq (s : arena_t) (b : Nat) :
    (s.set_bins b).allocated = s.allocated := rfl

@[simp] theorem arena_t.set_bins_pmin_eq (s : arena_t) (b : Nat) :
    (s.set_bins b).parent_min_alloc_in_bytes = s.parent_min_alloc_in_bytes := rfl

@[simp] theorem arena_t.set_bins_threshold_eq (s : arena_t) (b : Nat) :
    (s.set_bins b).recycle_smaller_then_bytes = s.recycle_smaller_then_bytes := rfl

@[simp] theorem arena_t.set_bins_bins_eq (s : arena_t) (b : Nat) :
    (s.set_bins b).bins = b := rfl

@[simp] theorem arena_t.set_bins_bin_eq (s : arena_t) (b : Nat) :
    (s.set_bins b).bin = s.bin := rfl

@[simp] theorem arena_t.set_bins_that_eq (s : arena_t) (b : Nat) :
    (s.set_bins b).that = s.that := rfl

@[simp] theorem arena_t.set_bins_log_eq (s : arena_t) (b : Nat) :
    (s.set_bins b).log = s.log := rfl

@[simp] theorem arena_t.zero_bins_self_eq (s : arena_t) :
    (s.zero_bins).self = s.self := rfl

@[simp] theorem arena_t.zero_bins_next_eq (s : arena_t) :
    (s.zero_bins).next = s.next := rfl

@[simp] theorem arena_t.zero_bins_size_eq (s : arena_t) :
    (s.zero_bins).size = s.size := rfl

@[simp] theorem arena_t.zero_bins_free_eq (s : arena_t) :
    (s.zero_bins).free = s.free := rfl

@[simp] theorem arena_t.zero_bins_allocated_eq (s : arena_t) :
    (s.zero_bins).allocated = s.allocated := rfl

@[simp] theorem arena_t.zero_bins_pmin_eq (s : arena_t) :
    (s.zero_bins).parent_min_alloc_in_bytes = s.parent_min_alloc_in_bytes := rfl

@[simp] theorem arena_t.zero_bins_threshold_eq (s : arena_t) :
    (s.zero_bins).recycle_smaller_then_bytes = s.recycle_smaller_then_bytes := rfl

@[simp] theorem arena_t.zero_bins_bins_eq (s : arena_t) :
    (s.zero_bins).bins = s.bins := rfl

@[simp] theorem arena_t.zero_bins_bin_eq (s : arena_t) :
    (s.zero_bins).bin = fun _ => 0 := rfl

@[simp] theorem arena_t.zero_bins_that_eq (s : arena_t) :
    (s.zero_bins).that = s.that := rfl

@[simp] theorem arena_t.zero_bins_log_eq (s : arena_t) :
    (s.zero_bins).log = s.log := rfl

@[simp] theorem arena_memset_self_eq (s : arena_t) (arena : Nat) :
    (arena_memset s arena).self = arena := rfl

@[simp] theorem arena_memset_next_eq (s : arena_t) (arena : Nat) :
    (arena_memset s arena).next = poke s.next arena 0 := rfl

@[simp] theorem arena_memset_size_eq (s : arena_t) (arena : Nat) :
    (arena_memset s arena).size = poke s.size arena 0 := rfl

@[simp] theorem arena_memset_free_eq (s : arena_t) (arena : Nat) :
    (arena_memset s arena).free = 0 := rfl

@[simp] theorem arena_memset_allocated_eq (s : arena_t) (arena : Nat) :
    (arena_memset s arena).allocated = 0 := rfl

@[simp] theorem arena_memset_pmin_eq (s : arena_t) (arena : Nat) :
    (arena_memset s arena).parent_min_alloc_in_bytes = 0 := rfl

@[simp] theorem arena_memset_threshold_eq (s : arena_t) (arena : Nat) :
    (arena_memset s arena).recycle_smaller_then_bytes = 0 := rfl

@[simp] theorem arena_memset_bins_eq (s : arena_t) (arena : Nat) :
    (arena_memset s arena).bins = 0 := rfl

@[simp] theorem arena_memset_bin_eq (s : arena_t) (arena : Nat) :
    (arena_memset s arena).bin = s.bin := rfl

@[simp] theorem arena_memset_that_eq (s : arena_t) (arena : Nat) :
    (arena_memset s arena).that = s.that := rfl

@[simp] theorem arena_memset_log_eq (s : arena_t) (arena : Nat) :
    (arena_memset s arena).log = s.log := rfl

/-! ## Running the `Except` monad -/

theorem bind_ok {α β : Type} (x : Except fault α) (f : α → Except fault β) (b : β) :
    (x >>= f) = .ok b ↔ ∃ a, x = .ok a ∧ f a = .ok b := by
  cases x <;> simp [bind, Except.bind]

theorem pure_ok {α : Type} (a b : α) : (pure a : Except fault α) = .ok b ↔ a = b := by
  simp [pure, Except.pure]

theorem deref_ok (p : Nat) (u : Unit) : deref p = .ok u ↔ p ≠ 0 := by
  unfold deref; split <;> simp_all

theorem deref_of_ne {p : Nat} (h : p ≠ 0) : deref p = .ok () := (deref_ok p ()).2 h

@[simp] theorem poke_same (m : Nat → Nat) (p v : Nat) : poke m p v p = v := by simp [poke]

theorem poke_other (m : Nat → Nat) (p v q : Nat) (h : q ≠ p) : poke m p v q = m q := by
  simp [poke, h]

theorem same_config_refl (s : arena_t) : same_config s s := ⟨rfl, rfl, rfl, rfl⟩

theorem same_config_trans {a b c : arena_t} (h1 : same_config a b) (h2 : same_config b c) :
    same_config a c := by
  obtain ⟨h11, h12, h13, h14⟩ := h1
  obtain ⟨h21, h22, h23, h24⟩ := h2
  exact ⟨h21.trans h11, h22.trans h12, h23.trans h13, h24.trans h14⟩

theorem arena_free_frame {fuel : Nat} {s s' : arena_t} {ap : Nat}
    (h : arena_free fuel s ap = .ok s') : free_frame s s' := by
  simp only [arena_free, bind_ok, pure_ok, deref_ok] at h
  obtain ⟨-, -, ⟨f, n⟩, -, -, -, s1, h1, -, -, rfl⟩ := h
  have h2 : free_frame s s1 := by
    split at h1
    · simp only [bind_ok, pure_ok, deref_ok] at h1
      obtain ⟨-, -, rfl⟩ := h1
      simp [free_frame, same_config]
    · simp only [pure_ok] at h1
      subst h1
      simp [free_frame, same_config]
  simp only [free_frame, same_config] at *
  split <;> simp [h2]

theorem arena_alloc_pages_config {fuel : Nat} {s s' : arena_t} {nu q : Nat}
    (h : arena_alloc_pages fuel s nu = .ok (q, s')) : same_config s s' ∧ s'.bin = s.bin := by
  simp only [arena_alloc_pages, that_alloc] at h
  split at h
  · simp only [pure_ok, Prod.mk.injEq] at h
    obtain ⟨-, rfl⟩ := h
    simp [same_config]
  · simp only [bind_ok, pure_ok, Prod.mk.injEq] at h
    obtain ⟨s1, h1, -, rfl⟩ := h
    have := arena_free_frame h1
    simp only [free_frame, same_config] at *
    simp only [arena_t.set_size_self_eq, arena_t.set_size_pmin_eq, arena_t.set_size_threshold_eq,
      arena_t.set_size_bins_eq, arena_t.set_size_bin_eq, arena_t.set_allocated_self_eq,
      arena_t.set_allocated_pmin_eq, arena_t.set_allocated_threshold_eq,
      arena_t.set_allocated_bins_eq, arena_t.set_allocated_bin_eq, arena_t.set_next_self_eq,
      arena_t.set_next_pmin_eq, arena_t.set_next_threshold_eq, arena_t.set_next_bins_eq,
      arena_t.set_next_bin_eq, arena_t.called_self_eq, arena_t.called_pmin_eq,
      arena_t.called_threshold_eq, arena_t.called_bins_eq, arena_t.called_bin_eq] at this
    exact ⟨this.1, this.2.1⟩

theorem arena_alloc_search_config {nu : Nat} : ∀ {fuel : Nat} {s s' : arena_t} {prev p : Nat}
    {r : Option (Nat × Nat)}, arena_alloc_search nu fuel s prev p = .ok (r, s') →
    same_config s s' ∧ s'.bin = s.bin
  | 0, _, _, _, _, _, h => by simp [arena_alloc_search] at h
  | fuel + 1, s, s', prev, p, r, h => by
    simp only [arena_alloc_search, bind_ok, deref_ok] at h
    obtain ⟨-, -, h⟩ := h
    split at h
    · split at h
      · simp only [bind_ok] at h
        obtain ⟨⟨q, s1⟩, h1, h2⟩ := h
        have c1 := arena_alloc_pages_config h1
        simp only at h2
        split at h2
        · simp only [pure_ok, Prod.mk.injEq] at h2
          obtain ⟨-, rfl⟩ := h2
          exact c1
        · have c2 := arena_alloc_search_config h2
          exact ⟨same_config_trans c1.1 c2.1, c2.2.trans c1.2⟩
      · exact arena_alloc_search_config h
    · simp only [pure_ok, Prod.mk.injEq] at h
      obtain ⟨-, rfl⟩ := h
      exact ⟨same_config_refl _, rfl⟩

theorem arena_alloc_config {fuel : Nat} {s s' : arena_t} {bytes a : Nat}
    (h : arena_alloc fuel s bytes = .ok (a, s')) : same_config s s' ∧ s'.bin = s.bin := by
  simp only [arena_alloc, bind_ok, deref_ok] at h
  obtain ⟨-, -, ⟨r, s1⟩, h1, h2⟩ := h
  have c1 := arena_alloc_search_config h1
  simp only at h2
  split at h2
  · simp only [pure_ok, Prod.mk.injEq] at h2
    obtain ⟨-, rfl⟩ := h2
    exact c1
  · split at h2
    · simp only [bind_ok, pure_ok, deref_ok, Prod.mk.injEq] at h2
      obtain ⟨-, -, -, rfl⟩ := h2
      simpa [same_config] using c1
    · simp only [bind_ok, pure_ok, deref_ok, Prod.mk.injEq] at h2
      obtain ⟨-, -, -, rfl⟩ := h2
      simpa [same_config] using c1

/-- The header of a block returned by `arena_alloc`. -/
theorem arena_alloc_header {fuel : Nat} {s s' : arena_t} {bytes a : Nat}
    (h : arena_alloc fuel s bytes = .ok (a, s')) (ha : a ≠ 0) :
    ∃ p, a = p + sizeof_node_t ∧
      s'.size p = (number_of_units bytes + 1) % SIZE_T ∧ s'.next p = 0 := by
  simp only [arena_alloc, bind_ok, deref_ok] at h
  obtain ⟨-, -, ⟨r, s1⟩, -, h2⟩ := h
  simp only at h2
  split at h2
  · simp only [pure_ok, Prod.mk.injEq] at h2
    exact absurd h2.1.symm ha
  · rename_i prev p
    split at h2
    · rename_i hsz
      simp only [bind_ok, pure_ok, deref_ok, Prod.mk.injEq] at h2
      obtain ⟨-, -, rfl, rfl⟩ := h2
      exact ⟨p, rfl, by simpa using hsz, by simp⟩
    · simp only [bind_ok, pure_ok, deref_ok, Prod.mk.injEq] at h2
      obtain ⟨-, -, rfl, rfl⟩ := h2
      exact ⟨_, rfl, by simp, by simp⟩


theorem c_assert_ok (asserts c : Bool) (u : Unit) :
    c_assert asserts c = .ok u ↔ (asserts = true → c = true) := by
  unfold c_assert; cases asserts <;> cases c <;> simp

theorem bins_get_ok (s : arena_t) (i v : Nat) :
    bins_get s i = .ok v ↔ s.bins ≠ 0 ∧ v = s.bin i := by
  simp only [bins_get, bind_ok, pure_ok, deref_ok]
  constructor
  · rintro ⟨-, h, rfl⟩; exact ⟨h, rfl⟩
  · rintro ⟨h, rfl⟩; exact ⟨(), h, rfl⟩

theorem heap_compact_bin_config {i : Nat} : ∀ {fuel : Nat} {s s' : arena_t},
    heap_compact_bin i fuel s = .ok s' → same_config s s'
  | 0, _, _, h => by simp [heap_compact_bin] at h
  | fuel + 1, s, s', h => by
    simp only [heap_compact_bin, bind_ok, bins_get_ok] at h
    obtain ⟨n, -, h⟩ := h
    split at h
    · simp only [pure_ok] at h
      subst h
      exact same_config_refl _
    · simp only [bind_ok] at h
      obtain ⟨s1, h1, h2⟩ := h
      have c1 := (arena_free_frame h1).1
      have c2 := heap_compact_bin_config h2
      have c3 := same_config_trans c1 c2
      simpa [same_config] using c3

theorem heap_compact_loop_config {fuel : Nat} : ∀ {k i : Nat} {s s' : arena_t},
    heap_compact_loop fuel k i s = .ok s' → same_config s s'
  | 0, _, _, _, h => by
    simp only [heap_compact_loop, Except.ok.injEq] at h
    subst h
    exact same_config_refl _
  | k + 1, i, s, s', h => by
    simp only [heap_compact_loop, bind_ok] at h
    obtain ⟨s1, h1, h2⟩ := h
    split at h2
    · cases h2
    · exact same_config_trans (heap_compact_bin_config h1) (heap_compact_loop_config h2)

theorem heap_compact_config {fuel : Nat} {s s' : arena_t}
    (h : heap_compact fuel s = .ok s') : same_config s s' :=
  heap_compact_loop_config h

theorem number_of_units_lt (n : Nat) : number_of_units n < 2 ^ 60 := by
  unfold number_of_units SIZE_T sizeof_node_t
  omega

/-- What a successful `heap_alloc` says about the block it returns: its header
precedes the pointer and (asserts on, or the bin head being well sized) its size
is the unit count of the request plus one. -/
theorem heap_alloc_header {asserts : Bool} {fuel : Nat} {s s1 : arena_t} {n p : Nat}
    (hbin : asserts = false → s.bin ((number_of_units n * sizeof_node_t) % SIZE_T) ≠ 0 →
      (s.size (s.bin ((number_of_units n * sizeof_node_t) % SIZE_T)) + SIZE_T - 1) % SIZE_T
        = number_of_units n)
    (h1 : heap_alloc asserts fuel s n = .ok (p, s1)) (hp : p ≠ 0) :
    same_config s s1 ∧ ∃ hdr, p = hdr + sizeof_node_t ∧
      (s1.size hdr + SIZE_T - 1) % SIZE_T = number_of_units n := by
  have hu := number_of_units_lt n
  simp only [heap_alloc, bind_ok] at h1
  obtain ⟨slow, -, h1⟩ := h1
  split at h1
  · simp only [bind_ok] at h1
    obtain ⟨⟨a, s'⟩, h2, ⟨a2, s2⟩, h3, h4⟩ := h1
    have key : same_config s s2 ∧ (a2 ≠ 0 → ∃ hdr, a2 = hdr + sizeof_node_t ∧
        s2.size hdr = (number_of_units n + 1) % SIZE_T) := by
      simp only at h3
      split at h3
      · simp only [bind_ok] at h3
        obtain ⟨s3, h5, h6⟩ := h3
        refine ⟨same_config_trans (same_config_trans (arena_alloc_config h2).1
          (heap_compact_config h5)) (arena_alloc_config h6).1, fun h0 => ?_⟩
        obtain ⟨hdr, e1, e2, -⟩ := arena_alloc_header h6 h0
        exact ⟨hdr, e1, e2⟩
      · simp only [pure_ok, Prod.mk.injEq] at h3
        obtain ⟨rfl, rfl⟩ := h3
        refine ⟨(arena_alloc_config h2).1, fun h0 => ?_⟩
        obtain ⟨hdr, e1, e2, -⟩ := arena_alloc_header h2 h0
        exact ⟨hdr, e1, e2⟩
    have fin : a2 = p ∧ s2 = s1 := by
      simp only at h4
      split at h4
      · simp only [bind_ok, pure_ok, Prod.mk.injEq] at h4
        obtain ⟨-, -, -, -, h⟩ := h4
        exact h
      · simp only [pure_ok, Prod.mk.injEq] at h4
        exact h4
    obtain ⟨rfl, rfl⟩ := fin
    obtain ⟨hdr, e1, e2⟩ := key.2 hp
    refine ⟨key.1, hdr, e1, ?_⟩
    rw [e2]
    unfold SIZE_T
    omega
  · rename_i hslow
    simp only [bind_ok, bins_get_ok, deref_ok, pure_ok, c_assert_ok, Prod.mk.injEq] at h1
    obtain ⟨hd, ⟨-, rfl⟩, -, hnz, -, has, rfl, rfl⟩ := h1
    refine ⟨by simp [same_config], _, rfl, ?_⟩
    simp only [arena_t.set_next_size_eq, arena_t.set_bin_size_eq] at has ⊢
    have hb : (number_of_units n * sizeof_node_t) % SIZE_T / sizeof_node_t = number_of_units n := by
      unfold SIZE_T sizeof_node_t
      omega
    cases asserts with
    | true =>
      have := has rfl
      simp only [decide_eq_true_eq] at this
      rw [this, hb]
    | false => exact hbin rfl hnz


theorem deref_eq (p : Nat) : deref p = if p = 0 then .error .null_deref else .ok () := rfl

theorem bins_get_of_ne {s : arena_t} (h : s.bins ≠ 0) (i : Nat) : bins_get s i = .ok (s.bin i) :=
  (bins_get_ok s i _).2 ⟨h, rfl⟩

theorem c_assert_of {asserts c : Bool} (h : asserts = true → c = true) :
    c_assert asserts c = .ok () := (c_assert_ok asserts c ()).2 h

@[simp] theorem ok_bind {α β : Type} (a : α) (f : α → Except fault β) :
    ((Except.ok a : Except fault α) >>= f) = f a := rfl

/-- The fast path of `heap_alloc`: a non-empty bin below the threshold is popped. -/
theorem heap_alloc_bin_path (asserts : Bool) (fuel : Nat) (s : arena_t) (n : Nat)
    (hT : (number_of_units n * sizeof_node_t) % SIZE_T < s.recycle_smaller_then_bytes)
    (hb : s.bins ≠ 0) (hn : s.bin ((number_of_units n * sizeof_node_t) % SIZE_T) ≠ 0)
    (hsz : asserts = true →
      (s.size (s.bin ((number_of_units n * sizeof_node_t) % SIZE_T)) + SIZE_T - 1) % SIZE_T
        = (number_of_units n * sizeof_node_t) % SIZE_T / sizeof_node_t) :
    heap_alloc asserts fuel s n =
      .ok (s.bin ((number_of_units n * sizeof_node_t) % SIZE_T) + sizeof_node_t,
        (s.set_bin ((number_of_units n * sizeof_node_t) % SIZE_T)
          (s.next (s.bin ((number_of_units n * sizeof_node_t) % SIZE_T)))).set_next
          (s.bin ((number_of_units n * sizeof_node_t) % SIZE_T)) 0) := by
  have hne : ¬ (number_of_units n * sizeof_node_t) % SIZE_T ≥ s.recycle_smaller_then_bytes := by
    omega
  have hca : c_assert asserts (decide ((s.size (s.bin ((number_of_units n * sizeof_node_t) % SIZE_T)) + SIZE_T - 1) % SIZE_T
        = (number_of_units n * sizeof_node_t) % SIZE_T / sizeof_node_t)) = .ok () :=
    c_assert_of (fun h => by simpa using hsz h)
  simp only [heap_alloc, if_neg hne, bins_get_of_ne hb, ok_bind, pure, Except.pure, hn,
    decide_False, Bool.false_eq_true, if_false, deref_of_ne hn, arena_t.set_next_size_eq,
    arena_t.set_bin_size_eq, hca]

/-! ## The log of the backing allocator only grows -/

theorem arena_alloc_pages_log {fuel : Nat} {s s' : arena_t} {nu q : Nat}
    (h : arena_alloc_pages fuel s nu = .ok (q, s')) : ∃ l, s'.log = s.log ++ l := by
  simp only [arena_alloc_pages, that_alloc] at h
  split at h
  · simp only [pure_ok, Prod.mk.injEq] at h
    obtain ⟨-, rfl⟩ := h
    exact ⟨_, rfl⟩
  · simp only [bind_ok, pure_ok, Prod.mk.injEq] at h
    obtain ⟨s1, h1, -, rfl⟩ := h
    exact ⟨_, (arena_free_frame h1).2.2.1⟩

theorem arena_alloc_search_log {nu : Nat} : ∀ {fuel : Nat} {s s' : arena_t} {prev p : Nat}
    {r : Option (Nat × Nat)}, arena_alloc_search nu fuel s prev p = .ok (r, s') →
    ∃ l, s'.log = s.log ++ l
  | 0, _, _, _, _, _, h => by simp [arena_alloc_search] at h
  | fuel + 1, s, s', prev, p, r, h => by
    simp only [arena_alloc_search, bind_ok, deref_ok] at h
    obtain ⟨-, -, h⟩ := h
    split at h
    · split at h
      · simp only [bind_ok] at h
        obtain ⟨⟨q, s1⟩, h1, h2⟩ := h
        obtain ⟨l1, e1⟩ := arena_alloc_pages_log h1
        simp only at h2
        split at h2
        · simp only [pure_ok, Prod.mk.injEq] at h2
          obtain ⟨-, rfl⟩ := h2
          exact ⟨l1, e1⟩
        · obtain ⟨l2, e2⟩ := arena_alloc_search_log h2
          exact ⟨l1 ++ l2, by rw [e2, e1, List.append_assoc]⟩
      · exact arena_alloc_search_log h
    · simp only [pure_ok, Prod.mk.injEq] at h
      obtain ⟨-, rfl⟩ := h
      exact ⟨[], by simp⟩

theorem arena_alloc_log {fuel : Nat} {s s' : arena_t} {bytes a : Nat}
    (h : arena_alloc fuel s bytes = .ok (a, s')) : ∃ l, s'.log = s.log ++ l := by
  simp only [arena_alloc, bind_ok, deref_ok] at h
  obtain ⟨-, -, ⟨r, s1⟩, h1, h2⟩ := h
  obtain ⟨l, hl⟩ := arena_alloc_search_log h1
  simp only at h2
  split at h2
  · simp only [pure_ok, Prod.mk.injEq] at h2
    obtain ⟨-, rfl⟩ := h2
    exact ⟨l, hl⟩
  · split at h2
    · simp only [bind_ok, pure_ok, deref_ok, Prod.mk.injEq] at h2
      obtain ⟨-, -, -, rfl⟩ := h2
      exact ⟨l, hl⟩
    · simp only [bind_ok, pure_ok, deref_ok, Prod.mk.injEq] at h2
      obtain ⟨-, -, -, rfl⟩ := h2
      exact ⟨l, hl⟩

theorem heap_compact_bin_log {i : Nat} : ∀ {fuel : Nat} {s s' : arena_t},
    heap_compact_bin i fuel s = .ok s' → s'.log = s.log
  | 0, _, _, h => by simp [heap_compact_bin] at h
  | fuel + 1, s, s', h => by
    simp only [heap_compact_bin, bind_ok, bins_get_ok] at h
    obtain ⟨n, -, h⟩ := h
    split at h
    · simp only [pure_ok] at h
      subst h
      rfl
    · simp only [bind_ok] at h
      obtain ⟨s1, h1, h2⟩ := h
      have c1 := (arena_free_frame h1).2.2.1
      have c2 := heap_compact_bin_log h2
      rw [c2, c1]
      rfl

theorem heap_compact_loop_log {fuel : Nat} : ∀ {k i : Nat} {s s' : arena_t},
    heap_compact_loop fuel k i s = .ok s' → s'.log = s.log
  | 0, _, _, _, h => by
    simp only [heap_compact_loop, Except.ok.injEq] at h
    subst h
    rfl
  | k + 1, i, s, s', h => by
    simp only [heap_compact_loop, bind_ok] at h
    obtain ⟨s1, h1, h2⟩ := h
    split at h2
    · cases h2
    · rw [heap_compact_loop_log h2, heap_compact_bin_log h1]

theorem heap_compact_log {fuel : Nat} {s s' : arena_t}
    (h : heap_compact fuel s = .ok s') : s'.log = s.log :=
  heap_compact_loop_log h

/-! ## Evaluations of the code on concrete runs -/

/-- C2 (failing input).  A request of `2^64 - 1` bytes on a fresh arena
(4096 byte pages, threshold 64): `number_of_units` wraps to 0, the block handed
out is a bare header of one unit and its usable size is 0 bytes; with asserts
compiled in the `assert(n->size > 1)` of `_heap_alloc_usable_size` fails. -/
theorem size_max_request_usable_zero :
    size_max_request false = .ok (69632, 0) ∧
      size_max_request true = .error .assert_failed := by
  decide!

/-- C3 (failing input).  A request of 4097 bytes with 4096 byte pages: every
page asked of the backing allocator has 259 units (4144 bytes) and donates a
block one unit short of the 258 needed, so all three pages the allocator can
give are taken, and `heap_alloc` returns `null` once it refuses. -/
theorem oversize_request_takes_every_page :
    outcome oversize_request = .ok 0 ∧
      calls oversize_request = .ok [call.alloc 80 1000, call.alloc 512 2000,
        call.alloc 4144 65536, call.alloc 4144 131072, call.alloc 4144 196608,
        call.alloc 4144 0, call.alloc 4144 0] ∧
      (final_state oversize_request).size (65536 + 16) = 257 ∧
      (final_state oversize_request).size (131072 + 16) = 257 ∧
      (final_state oversize_request).size (196608 + 16) = 257 := by
  decide!

/-- C6 (failing input).  Threshold 1 and no page to be had: after the failed
search `heap_alloc` calls `heap_compact`, which reads `bins[0]` although the
array was never allocated. -/
theorem threshold_one_request_null_deref :
    outcome (small_arena true 1 []) = .ok 1000 ∧
      (final_state (small_arena true 1 [])).bins = 0 ∧
      outcome (threshold_one_request true) = .error .null_deref ∧
      outcome (threshold_one_request false) = .error .null_deref := by
  decide!

/-- C7 (failing input).  The backing allocator refusing the control structure,
`memset` writes through `null`; refusing the bins array, `heap_destroy` runs
`heap_compact`, which reads `bins[0]` through `null`. -/
theorem heap_create_ex_refused_null_deref :
    outcome (heap_create_ex true true 64 (fresh_machine []) 4096 64) = .error .null_deref ∧
      outcome (heap_create_ex true true 64 (fresh_machine [1000]) 4096 64)
        = .error .null_deref := by
  decide!

/-- C8 (counterexample).  A request of 4064 bytes takes the whole free block of
the page; it is never released, yet the leak walk of the debug build finds
nothing and `heap_destroy` returns `true`. -/
theorem exact_fit_leak_not_flagged :
    outcome exact_fit_scenario = .ok (65568, true) := by
  decide!

/-- C10 (counterexample).  In the scenario of the specification the second
allocation is live at teardown, the leak is detected, and `heap_destroy`
returns `false`, not `true`. -/
theorem spec_scenario_destroy_false :
    outcome (spec_scenario true) = .ok (69600, 69552, 69600, false) := by
  decide!

/-! ## Recycling through the bins -/

/-- C4.  Bin reuse is LIFO and leaves the backing allocator alone: on an arena
whose threshold is above the unit-rounded size of `n` (and whose bin for that
size, if asserts are compiled out, is headed by a block of that size, which is
what the code asserts), when `heap_alloc` has returned the non-null `p` and
`heap_free` of `p` follows at once, the next `heap_alloc` of `n` bytes returns
exactly `p`, whatever its fuel, and neither the release nor that allocation
calls the backing allocator (its log and its state are unchanged). -/
theorem heap_free_then_alloc_reuses (asserts : Bool) (fuel fuel1 fuel2 : Nat) (s s1 s2 : arena_t)
    (n p : Nat)
    (hT : (number_of_units n * sizeof_node_t) % SIZE_T < s.recycle_smaller_then_bytes)
    (hbin : asserts = false → s.bin ((number_of_units n * sizeof_node_t) % SIZE_T) ≠ 0 →
      (s.size (s.bin ((number_of_units n * sizeof_node_t) % SIZE_T)) + SIZE_T - 1) % SIZE_T
        = number_of_units n)
    (h1 : heap_alloc asserts fuel s n = .ok (p, s1)) (hp : p ≠ 0)
    (h2 : heap_free asserts fuel1 s1 p = .ok s2) :
    s2.log = s1.log ∧ s2.that = s1.that ∧
      ∃ s3, heap_alloc asserts fuel2 s2 n = .ok (p, s3) ∧ s3.log = s1.log ∧ s3.that = s1.that := by
  have hu := number_of_units_lt n
  obtain ⟨hc, hdr, rfl, hsz⟩ := heap_alloc_header hbin h1 hp
  have hbytes : (number_of_units n * sizeof_node_t) % SIZE_T = number_of_units n * sizeof_node_t := by
    unfold SIZE_T sizeof_node_t; omega
  have hT1 : number_of_units n * sizeof_node_t < s1.recycle_smaller_then_bytes := by
    rw [hc.2.2.1, ← hbytes]; exact hT
  have hsub : hdr + sizeof_node_t - sizeof_node_t = hdr := by omega
  simp only [heap_free, if_pos hp, heap_alloc_usable_size, bind_ok, deref_ok, c_assert_ok,
    pure_ok, hsub, hsz] at h2
  obtain ⟨b, ⟨-, hd, -, hgt, rfl⟩, h2⟩ := h2
  rw [hbytes] at h2
  rw [if_neg (by omega)] at h2
  simp only [bind_ok, c_assert_ok, bins_get_ok, pure_ok] at h2
  obtain ⟨-, has, b, ⟨hb, rfl⟩, rfl⟩ := h2
  have key := heap_alloc_bin_path asserts fuel2
      ((s1.set_next hdr (s1.bin (number_of_units n * sizeof_node_t))).set_bin
        (number_of_units n * sizeof_node_t) hdr) n
      (by simpa only [hbytes, arena_t.set_bin_threshold_eq, arena_t.set_next_threshold_eq]
        using hT1)
      (by simpa only [arena_t.set_bin_bins_eq, arena_t.set_next_bins_eq] using hb)
      (by simpa only [hbytes, arena_t.set_bin_bin_eq, poke_same] using hd)
      (by
        intro _
        simp only [hbytes, arena_t.set_bin_bin_eq, poke_same, arena_t.set_bin_size_eq,
          arena_t.set_next_size_eq, hsz]
        unfold sizeof_node_t; omega)
  simp only [hbytes, arena_t.set_bin_bin_eq, poke_same] at key
  exact ⟨rfl, rfl, _, key, rfl, rfl⟩

/-- C4 (witness): the arena of 4096 byte pages and threshold 64 after one
request of 32 bytes; a second request returns 69552, which is released and
handed out again. -/
theorem heap_free_then_alloc_reuses_witness :
    heap_alloc true 64 warm_arena 32 = .ok (69552, warm_arena_alloc) ∧
      heap_free true 64 warm_arena_alloc 69552 = .ok warm_arena_free ∧
      warm_arena_free.log = warm_arena_alloc.log ∧
      warm_arena_free.that = warm_arena_alloc.that ∧
      ∃ s3, heap_alloc true 0 warm_arena_free 32 = .ok (69552, s3) ∧
        s3.log = warm_arena_alloc.log ∧ s3.that = warm_arena_alloc.that :=
  ⟨rfl, rfl, heap_free_then_alloc_reuses true 64 64 0 warm_arena warm_arena_alloc warm_arena_free
    32 69552 (by decide!) (by intro h; cases h) rfl (by decide) rfl⟩

/-! ## The value returned by `heap_destroy` -/

/-- C10 (amended).  `heap_destroy` returns the negation of the leak flag: it
runs `heap_compact`, then (debug build) the leak walk from the cursor, and the
value returned is `false` exactly when that walk flagged a leak and `true` when
it flagged none (always `true` in a build without `DEBUG`); in the scenario of
the specification the value is `false`. -/
theorem heap_destroy_returns_not_leaks :
    (∀ (debug : Bool) (fuel : Nat) (s s' : arena_t) (r : Bool),
      heap_destroy debug fuel s = .ok (r, s') →
      ∃ s1 leaks, heap_compact fuel s = .ok s1 ∧
        (if debug then leak_walk s1 fuel s1.free false else .ok false) = .ok leaks ∧
        r = !leaks) ∧
      outcome (spec_scenario true) = .ok (69600, 69552, 69600, false) ∧
      outcome (spec_scenario false) = .ok (69600, 69552, 69600, true) := by
  refine ⟨?_, by decide!, by decide!⟩
  intro debug fuel s s' r h
  simp only [heap_destroy, bind_ok, pure_ok, Prod.mk.injEq] at h
  obtain ⟨s1, h1, leaks, h2, s2, -, rfl, -⟩ := h
  refine ⟨s1, leaks, h1, ?_, rfl⟩
  cases debug with
  | true => simpa using h2
  | false => simpa [pure, Except.pure] using h2

/-- C10 (witness): the teardown of `warm_arena`, which holds a live block, in
a debug build. -/
theorem heap_destroy_returns_not_leaks_witness :
    outcome (heap_destroy true 64 warm_arena) = .ok false ∧
      ∃ s1 leaks, heap_compact 64 warm_arena = .ok s1 ∧
        (if true = true then leak_walk s1 64 s1.free false else .ok false) = .ok leaks ∧
        false = !leaks :=
  ⟨by decide!, heap_destroy_returns_not_leaks.1 true 64 warm_arena
    (final_state (heap_destroy true 64 warm_arena)) false rfl⟩

/-! ## The search loop of `arena_free` -/

theorem arena_free_find_succ (s : arena_t) (a fuel f n : Nat) :
    arena_free_find s a (fuel + 1) f n =
      if (f < a ∧ a < n) ∨ (n ≤ f ∧ (f < a ∨ a < n)) then .ok (f, n)
      else (deref n >>= fun _ => arena_free_find s a fuel n (s.next n)) := rfl

/-- Ascending phase: from a node below `a`, some node lying above `a`, the
loop stops at the pair that encloses `a`. -/
theorem arena_free_find_asc (s : arena_t) (F : Finset Nat) (a : Nat)
    (hs : ∀ f ∈ F, csucc F f (s.next f)) (h0 : 0 ∉ F) (ha : a ∉ F)
    (hy : ∃ y ∈ F, a < y) :
    ∀ (fuel f : Nat), f ∈ F → f < a → (F.filter (fun x => f ≤ x ∧ x < a)).card < fuel →
      ∃ g ∈ F, arena_free_find s a fuel f (s.next f) = .ok (g, s.next g) ∧
        g < a ∧ a < s.next g := by
  intro fuel
  induction fuel with
  | zero => intro f _ _ h; omega
  | succ fuel ih =>
    intro f hf hfa hc
    obtain ⟨y, hyF, hay⟩ := hy
    obtain ⟨hn, hsucc⟩ := hs f hf
    have hlt : f < s.next f ∧ ∀ y ∈ F, f < y → s.next f ≤ y := by
      rcases hsucc with h | h
      · exact h
      · have := h.1 y hyF; omega
    rw [arena_free_find_succ]
    by_cases han : a < s.next f
    · rw [if_pos (Or.inl ⟨hfa, han⟩)]
      exact ⟨f, hf, rfl, hfa, han⟩
    · have hne : s.next f ≠ a := fun h => ha (h ▸ hn)
      have hna : s.next f < a := by omega
      rw [if_neg (by omega)]
      have hnz : s.next f ≠ 0 := fun h => h0 (h ▸ hn)
      rw [deref_of_ne hnz, ok_bind]
      apply ih (s.next f) hn hna
      have hsub : (F.filter (fun x => s.next f ≤ x ∧ x < a)) ⊂
          (F.filter (fun x => f ≤ x ∧ x < a)) := by
        rw [Finset.ssubset_iff_of_subset]
        · exact ⟨f, by simp [Finset.mem_filter, hf, hfa], by simp [Finset.mem_filter]; omega⟩
        · intro x hx
          simp only [Finset.mem_filter] at hx ⊢
          exact ⟨hx.1, by omega, hx.2.2⟩
      have := Finset.card_lt_card hsub
      omega

/-- The search loop of `arena_free` ends, on a pair of neighbours of the list
that passes its exit test. -/
theorem arena_free_find_total (s : arena_t) (F : Finset Nat) (a : Nat)
    (hs : ∀ f ∈ F, csucc F f (s.next f)) (h0 : 0 ∉ F) (ha : a ∉ F) :
    ∀ (fuel f : Nat), f ∈ F → (F.filter (fun x => f ≤ x)).card + F.card < fuel →
      ∃ g ∈ F, arena_free_find s a fuel f (s.next f) = .ok (g, s.next g) ∧
        between a g (s.next g) := by
  intro fuel
  induction fuel with
  | zero => intro f _ h; omega
  | succ fuel ih =>
    intro f hf hc
    by_cases hup : f < a ∧ ∃ y ∈ F, a < y
    · have hcard : (F.filter (fun x => f ≤ x ∧ x < a)).card ≤ F.card :=
        Finset.card_le_card (Finset.filter_subset _ _)
      obtain ⟨g, hg, h1, h2, h3⟩ := arena_free_find_asc s F a hs h0 ha hup.2 (fuel + 1) f hf hup.1
        (by omega)
      exact ⟨g, hg, h1, Or.inl ⟨h2, h3⟩⟩
    · obtain ⟨hn, hsucc⟩ := hs f hf
      rw [arena_free_find_succ]
      by_cases hb : (f < a ∧ a < s.next f) ∨ (s.next f ≤ f ∧ (f < a ∨ a < s.next f))
      · rw [if_pos hb]
        exact ⟨f, hf, rfl, hb⟩
      · rw [if_neg hb]
        have hnz : s.next f ≠ 0 := fun h => h0 (h ▸ hn)
        rw [deref_of_ne hnz, ok_bind]
        have hne : s.next f ≠ a := fun h => ha (h ▸ hn)
        have hfa : f ≠ a := fun h => ha (h ▸ hf)
        rcases hsucc with h | h
        · -- `f` is not the greatest: go on upwards
          apply ih (s.next f) hn
          have hsub : (F.filter (fun x => s.next f ≤ x)) ⊂ (F.filter (fun x => f ≤ x)) := by
            rw [Finset.ssubset_iff_of_subset]
            · exact ⟨f, by simp [Finset.mem_filter, hf], by simp [Finset.mem_filter]; omega⟩
            · intro x hx
              simp only [Finset.mem_filter] at hx ⊢
              exact ⟨hx.1, by omega⟩
          have := Finset.card_lt_card hsub
          omega
        · -- `f` is the greatest and the wrap pair fails: `a` lies inside
          have hnf := h.1 (s.next f) hn
          have hmin : s.next f < a := by omega
          have hmax : a < f := by omega
          have hpos : 0 < (F.filter (fun x => f ≤ x)).card :=
            Finset.card_pos.2 ⟨f, by simp [Finset.mem_filter, hf]⟩
          have hcard : (F.filter (fun x => s.next f ≤ x ∧ x < a)).card ≤ F.card :=
            Finset.card_le_card (Finset.filter_subset _ _)
          obtain ⟨g, hg, h1, h2, h3⟩ := arena_free_find_asc s F a hs h0 ha ⟨f, hf, hmax⟩ fuel
            (s.next f) hn hmin (by omega)
          exact ⟨g, hg, h1, Or.inl ⟨h2, h3⟩⟩

/-! ## Consequences of well-formedness -/

theorem wf.node_pos {s : arena_t} {g : layout} (h : wf s g) {x : Nat} (hx : g.node x) :
    x ≠ 0 := by
  by_cases hs : x = s.self
  · rw [hs]; exact h.self_ne
  · obtain ⟨pg, -, hp, -⟩ := h.paged x hx hs
    omega

theorem wf.zero_not_F {s : arena_t} {g : layout} (h : wf s g) : 0 ∉ g.F :=
  fun h0 => h.node_pos (Or.inl h0) rfl

theorem wf.self_not_U {s : arena_t} {g : layout} (h : wf s g) : s.self ∉ g.U :=
  h.FU _ h.self_F

/-- Two pages of the ledger that share an address are the same page. -/
theorem wf.page_eq {s : arena_t} {g : layout} (h : wf s g) {pg pg' z : Nat}
    (hp : pg ∈ g.P) (hp' : pg' ∈ g.P) (h1 : pg ≤ z) (h2 : z < pg + 16 * s.size pg)
    (h3 : pg' ≤ z) (h4 : z < pg' + 16 * s.size pg') : pg = pg' := by
  by_contra hne
  rcases Nat.lt_or_gt_of_ne hne with hlt | hlt
  · have := h.pg_disj pg hp pg' hp' hlt; omega
  · have := h.pg_disj pg' hp' pg hp hlt; omega

/-- A page header is not a node. -/
theorem wf.page_not_node {s : arena_t} {g : layout} (h : wf s g) {pg : Nat} (hp : pg ∈ g.P) :
    ¬ g.node pg ∧ pg ≠ s.self := by
  have hsz := (h.pg_size pg hp).1
  have hself : pg ≠ s.self := by
    intro he
    have := h.pg_self pg hp
    omega
  refine ⟨fun hn => ?_, hself⟩
  obtain ⟨pg', hp', h1, h2, -, -⟩ := h.paged pg hn hself
  have := h.page_eq hp hp' (z := pg) (by omega) (by omega) (by omega) (by omega)
  omega

/-- A block ends before the sentinel or starts after the control structure. -/
theorem wf.block_self {s : arena_t} {g : layout} (h : wf s g) {x : Nat} (hx : g.node x)
    (hs : x ≠ s.self) : x + 16 * s.size x + 16 ≤ s.self ∨ s.self + 80 ≤ x := by
  obtain ⟨pg, hp, h1, h2, -, -⟩ := h.paged x hx hs
  have := h.pg_self pg hp
  omega

/-- Two blocks of which one ends where the other starts lie in the same page. -/
theorem wf.adjacent_page {s : arena_t} {g : layout} (h : wf s g) {x y pg : Nat}
    (hy : g.node y) (hys : y ≠ s.self) (hp : pg ∈ g.P) (hx : in_page s pg x)
    (hxy : x + 16 * s.size x = y) : in_page s pg y := by
  obtain ⟨pg', hp', hy'⟩ := h.paged y hy hys
  obtain ⟨h1, h2, h3, h4⟩ := hx
  obtain ⟨h5, h6, h7, h8⟩ := hy'
  have := h.page_eq hp hp' (z := y) (by omega) (by omega) (by omega) (by omega)
  subst this
  exact ⟨h5, h6, h7, h8⟩

/-- Sizes of blocks stay far below the range of `size_t`. -/
theorem wf.size_lt {s : arena_t} {g : layout} (h : wf s g) {x : Nat} (hx : g.node x) :
    16 * s.size x < 2 ^ 64 := by
  by_cases hs : x = s.self
  · rw [hs, h.self_size]; norm_num
  · obtain ⟨pg, hp, h1, h2, -, -⟩ := h.paged x hx hs
    have := (h.pg_size pg hp).2
    omega

/-- The pair at which the search of `arena_free` stops, in terms of the order
of the list: either `a` lies between two neighbours, or the pair is the wrap of
the circle and `a` lies outside of the list. -/
theorem between_position {F : Finset Nat} {a f n : Nat} (hs : csucc F f n)
    (hb : between a f n) :
    (f < a ∧ a < n ∧ ∀ y ∈ F, y ≤ f ∨ n ≤ y) ∨
      ((∀ y ∈ F, y ≤ f) ∧ (∀ y ∈ F, n ≤ y) ∧ (f < a ∨ a < n)) := by
  obtain ⟨hn, hsucc⟩ := hs
  rcases hb with ⟨h1, h2⟩ | ⟨h1, h2⟩
  · left
    refine ⟨h1, h2, fun y hy => ?_⟩
    rcases hsucc with h | h
    · by_cases hfy : f < y
      · exact Or.inr (h.2 y hy hfy)
      · left; omega
    · have := h.1 n hn; omega
  · right
    rcases hsucc with h | h
    · omega
    · exact ⟨h.1, h.2, h2⟩

/-! ## A block joins the free list -/

theorem ledger_congr {nx nx' : Nat → Nat} : ∀ {P : List Nat} {h : Nat},
    (∀ pg ∈ P, nx' pg = nx pg) → ledger nx h P → ledger nx' h P
  | [], _, _, hl => hl
  | pg :: l, h, he, hl => by
    obtain ⟨h1, h2, h3⟩ := hl
    refine ⟨h1, h2, ?_⟩
    rw [he pg (List.mem_cons_self _ _)]
    exact ledger_congr (fun q hq => he q (List.mem_cons_of_mem _ hq)) h3

theorem in_page_congr {s s1 : arena_t} {pg x : Nat} (h1 : s1.size pg = s.size pg)
    (h2 : s1.size x = s.size x) : in_page s1 pg x ↔ in_page s pg x := by
  unfold in_page; rw [h1, h2]

/-- The successor relation after `a` has been linked between `f` and its
successor `n`. -/
theorem csucc_insert {F : Finset Nat} {nx nx1 : Nat → Nat} {a f : Nat}
    (hs : ∀ x ∈ F, csucc F x (nx x)) (ha : a ∉ F) (hf : f ∈ F) (hb : between a f (nx f))
    (hnx : ∀ x, nx1 x = if x = f then a else if x = a then nx f else nx x) :
    ∀ x ∈ insert a F, csucc (insert a F) x (nx1 x) := by
  have hfa : f ≠ a := fun h => ha (h ▸ hf)
  have hn := (hs f hf).1
  have hna : nx f ≠ a := fun h => ha (h ▸ hn)
  have hpos := between_position (hs f hf) hb
  intro x hx
  rw [hnx x]
  rcases Finset.mem_insert.1 hx with rfl | hxF
  · -- the new node: its successor is `n`
    rw [if_neg (Ne.symm hfa), if_pos rfl]
    refine ⟨Finset.mem_insert_of_mem hn, ?_⟩
    rcases hpos with ⟨h1, h2, h3⟩ | ⟨h1, h2, h3⟩
    · left
      refine ⟨h2, fun y hy hxy => ?_⟩
      rcases Finset.mem_insert.1 hy with rfl | hyF
      · omega
      · have := h3 y hyF; omega
    · rcases h3 with h3 | h3
      · right
        have hnf := h1 _ hn
        refine ⟨fun y hy => ?_, fun y hy => ?_⟩
        · rcases Finset.mem_insert.1 hy with rfl | hyF
          · exact le_refl _
          · have := h1 y hyF; omega
        · rcases Finset.mem_insert.1 hy with rfl | hyF
          · omega
          · exact h2 y hyF
      · left
        refine ⟨h3, fun y hy hxy => ?_⟩
        rcases Finset.mem_insert.1 hy with rfl | hyF
        · omega
        · exact h2 y hyF
  · by_cases hxf : x = f
    · -- the predecessor: its successor is `a`
      subst hxf
      rw [if_pos rfl]
      refine ⟨Finset.mem_insert_self _ _, ?_⟩
      rcases hpos with ⟨h1, h2, h3⟩ | ⟨h1, h2, h3⟩
      · left
        refine ⟨h1, fun y hy hxy => ?_⟩
        rcases Finset.mem_insert.1 hy with rfl | hyF
        · exact le_refl _
        · have := h3 y hyF; omega
      · rcases h3 with h3 | h3
        · left
          refine ⟨h3, fun y hy hxy => ?_⟩
          rcases Finset.mem_insert.1 hy with rfl | hyF
          · exact le_refl _
          · have := h1 y hyF; omega
        · right
          have hnf := h1 _ hn
          refine ⟨fun y hy => ?_, fun y hy => ?_⟩
          · rcases Finset.mem_insert.1 hy with rfl | hyF
            · omega
            · exact h1 y hyF
          · rcases Finset.mem_insert.1 hy with rfl | hyF
            · exact le_refl _
            · have := h2 y hyF; omega
    · -- any other node keeps its successor
      have hxa : x ≠ a := fun h => ha (h ▸ hxF)
      rw [if_neg hxf, if_neg hxa]
      obtain ⟨hm, hsx⟩ := hs x hxF
      refine ⟨Finset.mem_insert_of_mem hm, ?_⟩
      rcases hsx with ⟨g1, g2⟩ | ⟨g1, g2⟩
      · left
        refine ⟨g1, fun y hy hxy => ?_⟩
        rcases Finset.mem_insert.1 hy with rfl | hyF
        · -- `x < a`: then `x` lies below `f`, whose predecessors stay below `a`
          rcases hpos with ⟨h1, h2, h3⟩ | ⟨h1, h2, h3⟩
          · have := h3 x hxF
            have := g2 f hf (by omega)
            omega
          · have := h1 x hxF
            have := h2 x hxF
            rcases h3 with h3 | h3
            · have := g2 f hf (by omega)
              omega
            · omega
        · exact g2 y hyF hxy
      · right
        rcases hpos with ⟨h1, h2, h3⟩ | ⟨h1, h2, h3⟩
        · have := g1 _ hn
          have := g2 f hf
          refine ⟨fun y hy => ?_, fun y hy => ?_⟩
          · rcases Finset.mem_insert.1 hy with rfl | hyF
            · omega
            · exact g1 y hyF
          · rcases Finset.mem_insert.1 hy with rfl | hyF
            · omega
            · exact g2 y hyF
        · have := g1 f hf
          have := h1 x hxF
          omega

theorem node_insert_erase {g : layout} {a : Nat} (ha : a ∈ g.U) (x : Nat) :
    layout.node ⟨insert a g.F, g.U.erase a, g.P⟩ x ↔ g.node x := by
  unfold layout.node
  simp only [Finset.mem_insert, Finset.mem_erase]
  constructor
  · rintro ((rfl | h) | ⟨-, h⟩)
    · exact Or.inr ha
    · exact Or.inl h
    · exact Or.inr h
  · rintro (h | h)
    · exact Or.inl (Or.inr h)
    · by_cases hx : x = a
      · exact Or.inl (Or.inl hx)
      · exact Or.inr ⟨hx, h⟩

/-- Linking the block `a`, until now off the list, between `f` and its
successor keeps the state well formed. -/
theorem wf_insert {s : arena_t} {g : layout} (h : wf s g) {a f : Nat} (ha : a ∈ g.U)
    (hf : f ∈ g.F) (hb : between a f (s.next f)) {s1 : arena_t}
    (hnx : ∀ x, s1.next x = if x = f then a else if x = a then s.next f else s.next x)
    (hsz : s1.size = s.size) (hfree : s1.free = f) (hself : s1.self = s.self)
    (hlog : s1.log = s.log) (hal : s1.allocated = s.allocated) :
    wf s1 ⟨insert a g.F, g.U.erase a, g.P⟩ := by
  have haF : a ∉ g.F := fun h' => h.FU a h' ha
  have hnode := node_insert_erase (g := g) ha
  constructor
  · rw [hself]; exact h.self_ne
  · rw [hself]; exact Finset.mem_insert_of_mem h.self_F
  · rw [hself, hsz]; exact h.self_size
  · rw [hfree]; exact Finset.mem_insert_of_mem hf
  · exact csucc_insert h.succ haF hf hb hnx
  · intro x hx hx'
    rcases Finset.mem_insert.1 hx with rfl | hxF
    · exact Finset.not_mem_erase _ _ hx'
    · exact h.FU x hxF (Finset.mem_of_mem_erase hx')
  · intro x hx hs
    rw [hself] at hs
    obtain ⟨pg, hp, hin⟩ := h.paged x ((hnode x).1 hx) hs
    exact ⟨pg, hp, (in_page_congr (by rw [hsz]) (by rw [hsz])).2 hin⟩
  · intro x y hx hy hxy
    rw [hsz]
    exact h.disj x y ((hnode x).1 hx) ((hnode y).1 hy) hxy
  · intro pg hp u h1 h2 h3
    rw [hsz] at h2
    obtain ⟨x, hx, hxs, h4, h5⟩ := h.cover pg hp u h1 h2 h3
    exact ⟨x, (hnode x).2 hx, by rw [hself]; exact hxs, h4, by rw [hsz]; exact h5⟩
  · rw [hsz]
    show ∑ x ∈ insert a g.F, s.size x + ∑ x ∈ g.U.erase a, s.size x = _
    rw [Finset.sum_insert haF, ← h.total, ← Finset.add_sum_erase g.U s.size ha]
    omega
  · exact h.pg_nodup
  · intro pg hp; rw [hsz]; exact h.pg_size pg hp
  · intro pg hp pg' hp' hlt; rw [hsz]; exact h.pg_disj pg hp pg' hp' hlt
  · intro pg hp; rw [hsz, hself]; exact h.pg_self pg hp
  · intro pg hp; rw [hsz, hlog]; exact h.pg_log pg hp
  · rw [hlog, hself]; exact h.self_log
  · rw [hal]
    refine ledger_congr (fun pg hp => ?_) h.chain
    have hn := (h.page_not_node hp).1
    have h1 : pg ≠ f := fun he => hn (Or.inl (he ▸ hf))
    have h2 : pg ≠ a := fun he => hn (Or.inr (he ▸ ha))
    rw [hnx pg, if_neg h1, if_neg h2]

/-! ## Two neighbouring free blocks become one -/

/-- The successor relation after the node `y`, successor of `x`, has been
spliced out. -/
theorem csucc_merge {F : Finset Nat} {nx nx2 : Nat → Nat} {x y : Nat}
    (hs : ∀ z ∈ F, csucc F z (nx z)) (hx : x ∈ F) (hy : y ∈ F) (hxy : x < y) (hn : nx x = y)
    (hnx : ∀ z, nx2 z = if z = x then nx y else nx z) :
    ∀ z ∈ F.erase y, csucc (F.erase y) z (nx2 z) := by
  have hleast : ∀ w ∈ F, x < w → y ≤ w := by
    rcases (hs x hx).2 with h | h
    · rw [hn] at h; exact h.2
    · have := h.1 y hy; omega
  intro z hz
  obtain ⟨hzy, hzF⟩ := Finset.mem_erase.1 hz
  rw [hnx z]
  by_cases hzx : z = x
  · subst hzx
    rw [if_pos rfl]
    obtain ⟨hm, hsy⟩ := hs y hy
    rcases hsy with ⟨g1, g2⟩ | ⟨g1, g2⟩
    · refine ⟨Finset.mem_erase.2 ⟨by omega, hm⟩, Or.inl ⟨by omega, fun w hw hzw => ?_⟩⟩
      obtain ⟨hwy, hwF⟩ := Finset.mem_erase.1 hw
      have := hleast w hwF hzw
      exact g2 w hwF (by omega)
    · have hmin := g2 z hzF
      refine ⟨Finset.mem_erase.2 ⟨by omega, hm⟩, Or.inr ⟨fun w hw => ?_, fun w hw => ?_⟩⟩
      · obtain ⟨hwy, hwF⟩ := Finset.mem_erase.1 hw
        by_contra hlt
        have := hleast w hwF (by omega)
        have := g1 w hwF
        omega
      · exact g2 w (Finset.mem_of_mem_erase hw)
  · rw [if_neg hzx]
    obtain ⟨hm, hsz⟩ := hs z hzF
    have hne : nx z ≠ y := by
      intro he
      rw [he] at hsz
      rcases hsz with ⟨g1, g2⟩ | ⟨g1, g2⟩
      · rcases Nat.lt_or_gt_of_ne hzx with hlt | hlt
        · have := g2 x hx hlt; omega
        · have := hleast z hzF hlt; omega
      · have := g2 x hx; omega
    refine ⟨Finset.mem_erase.2 ⟨hne, hm⟩, ?_⟩
    rcases hsz with ⟨g1, g2⟩ | ⟨g1, g2⟩
    · exact Or.inl ⟨g1, fun w hw hzw => g2 w (Finset.mem_of_mem_erase hw) hzw⟩
    · exact Or.inr ⟨fun w hw => g1 w (Finset.mem_of_mem_erase hw),
        fun w hw => g2 w (Finset.mem_of_mem_erase hw)⟩

theorem node_erase_F {g : layout} {y : Nat} (hy : y ∉ g.U) (z : Nat) :
    layout.node ⟨g.F.erase y, g.U, g.P⟩ z ↔ g.node z ∧ z ≠ y := by
  unfold layout.node
  simp only [Finset.mem_erase]
  constructor
  · rintro (⟨h1, h2⟩ | h)
    · exact ⟨Or.inl h2, h1⟩
    · exact ⟨Or.inr h, fun he => hy (he ▸ h)⟩
  · rintro ⟨h1 | h1, h2⟩
    · exact Or.inl ⟨h2, h1⟩
    · exact Or.inr h1

/-- The free block `x` absorbs its successor `y`, which starts where `x` ends:
the state stays well formed, `y` having left the list. -/
theorem wf_merge {s : arena_t} {g : layout} (h : wf s g) {x y : Nat} (hx : x ∈ g.F)
    (hy : y ∈ g.F) (hxs : x ≠ s.self) (hys : y ≠ s.self) (hn : s.next x = y)
    (hadj : x + 16 * s.size x = y) (hfy : s.free ≠ y) {s2 : arena_t}
    (hnx : ∀ z, s2.next z = if z = x then s.next y else s.next z)
    (hsz : ∀ z, s2.size z = if z = x then s.size x + s.size y else s.size z)
    (hfree : s2.free = s.free) (hself : s2.self = s.self)
    (hlog : s2.log = s.log) (hal : s2.allocated = s.allocated) :
    wf s2 ⟨g.F.erase y, g.U, g.P⟩ := by
  have hyU : y ∉ g.U := h.FU y hy
  have hxU : x ∉ g.U := h.FU x hx
  have hnode := node_erase_F (g := g) hyU
  obtain ⟨pgx, hpx, hinx⟩ := h.paged x (Or.inl hx) hxs
  have hiny := h.adjacent_page (Or.inl hy) hys hpx hinx hadj
  have hxy : x < y := by have := hinx.2.2.2; omega
  have hpg : ∀ pg ∈ g.P, s2.size pg = s.size pg := by
    intro pg hp
    have hne : pg ≠ x := fun he => (h.page_not_node hp).1 (Or.inl (he ▸ hx))
    rw [hsz pg, if_neg hne]
  constructor
  · rw [hself]; exact h.self_ne
  · rw [hself]; exact Finset.mem_erase.2 ⟨Ne.symm hys, h.self_F⟩
  · rw [hself, hsz, if_neg (Ne.symm hxs)]; exact h.self_size
  · rw [hfree]; exact Finset.mem_erase.2 ⟨hfy, h.free_F⟩
  · exact csucc_merge h.succ hx hy hxy hn hnx
  · intro z hz
    exact h.FU z (Finset.mem_of_mem_erase hz)
  · intro z hz hs
    rw [hself] at hs
    obtain ⟨hz1, hz2⟩ := (hnode z).1 hz
    by_cases hzx : z = x
    · subst hzx
      refine ⟨pgx, hpx, ?_⟩
      unfold in_page at hinx hiny ⊢
      rw [hpg pgx hpx, hsz z, if_pos rfl]
      omega
    · obtain ⟨pg, hp, hin⟩ := h.paged z hz1 hs
      refine ⟨pg, hp, ?_⟩
      unfold in_page at hin ⊢
      rw [hpg pg hp, hsz z, if_neg hzx]
      exact hin
  · intro z w hz hw hzw
    obtain ⟨hz1, hz2⟩ := (hnode z).1 hz
    obtain ⟨hw1, hw2⟩ := (hnode w).1 hw
    rw [hsz z]
    by_cases hzx : z = x
    · subst hzx
      rw [if_pos rfl]
      have := h.disj z w hz1 hw1 hzw
      have := h.disj y w (Or.inl hy) hw1 (by omega)
      omega
    · rw [if_neg hzx]
      exact h.disj z w hz1 hw1 hzw
  · intro pg hp u h1 h2 h3
    rw [hpg pg hp] at h2
    obtain ⟨v, hv, hvs, h4, h5⟩ := h.cover pg hp u h1 h2 h3
    by_cases hvy : v = y
    · subst hvy
      refine ⟨x, (hnode x).2 ⟨Or.inl hx, by omega⟩, by rw [hself]; exact hxs, by omega, ?_⟩
      rw [hsz x, if_pos rfl]; omega
    · refine ⟨v, (hnode v).2 ⟨hv, hvy⟩, by rw [hself]; exact hvs, h4, ?_⟩
      rw [hsz v]
      split
      · rename_i hvx; subst hvx; omega
      · exact h5
  · show ∑ z ∈ g.F.erase y, s2.size z + ∑ z ∈ g.U, s2.size z = _
    have hU : ∑ z ∈ g.U, s2.size z = ∑ z ∈ g.U, s.size z := by
      refine Finset.sum_congr rfl (fun z hz => ?_)
      have hne : z ≠ x := fun he => hxU (he ▸ hz)
      rw [hsz z, if_neg hne]
    have hxF : x ∈ g.F.erase y := Finset.mem_erase.2 ⟨by omega, hx⟩
    have hF2 : ∑ z ∈ (g.F.erase y).erase x, s2.size z = ∑ z ∈ (g.F.erase y).erase x, s.size z := by
      refine Finset.sum_congr rfl (fun z hz => ?_)
      rw [hsz z, if_neg (Finset.mem_erase.1 hz).1]
    have e1 := Finset.add_sum_erase (g.F.erase y) s2.size hxF
    have e2 := Finset.add_sum_erase (g.F.erase y) s.size hxF
    have e3 := Finset.add_sum_erase g.F s.size hy
    have e4 : s2.size x = s.size x + s.size y := by rw [hsz x, if_pos rfl]
    have e5 : (g.P.map (fun pg => s2.size pg - 2)) = (g.P.map (fun pg => s.size pg - 2)) :=
      List.map_congr_left (fun pg hp => by rw [hpg pg hp])
    rw [e5, ← h.total, hU]
    omega
  · exact h.pg_nodup
  · intro pg hp; rw [hpg pg hp]; exact h.pg_size pg hp
  · intro pg hp pg' hp' hlt; rw [hpg pg hp]; exact h.pg_disj pg hp pg' hp' hlt
  · intro pg hp; rw [hpg pg hp, hself]; exact h.pg_self pg hp
  · intro pg hp; rw [hpg pg hp, hlog]; exact h.pg_log pg hp
  · rw [hlog, hself]; exact h.self_log
  · rw [hal]
    refine ledger_congr (fun pg hp => ?_) h.chain
    have hne : pg ≠ x := fun he => (h.page_not_node hp).1 (Or.inl (he ▸ hx))
    rw [hnx pg, if_neg hne]

/-! ## `arena_free` keeps the arena well formed -/

theorem freed_self (s : arena_t) (a f : Nat) : (freed s a f).self = s.self := by
  simp only [freed]; split_ifs <;> rfl

theorem freed_free (s : arena_t) (a f : Nat) : (freed s a f).free = f := rfl

theorem freed_frame (s : arena_t) (a f : Nat) : free_frame s (freed s a f) := by
  simp only [freed, free_frame, same_config]; split_ifs <;> simp

/-- A block that does not reach the successor of `f` does not reach any other
node of the list either. -/
theorem no_touch_above {s : arena_t} {g : layout} (h : wf s g) {a f : Nat} (ha : a ∈ g.U)
    (hf : f ∈ g.F) (hb : between a f (s.next f)) :
    ∀ y ∈ g.F, y ≠ s.next f → a + 16 * s.size a ≠ y := by
  intro y hy hyn he
  have hn := (h.succ f hf).1
  have hd := h.disj a (s.next f) (Or.inr ha) (Or.inl hn)
  rcases between_position (h.succ f hf) hb with ⟨h1, h2, h3⟩ | ⟨h1, h2, h3⟩
  · have := h3 y hy; omega
  · have := h1 y hy
    have := h2 y hy
    omega

/-- No node of the list other than `f` ends where the block `a` starts. -/
theorem no_touch_below {s : arena_t} {g : layout} (h : wf s g) {a f : Nat} (ha : a ∈ g.U)
    (hf : f ∈ g.F) (hb : between a f (s.next f)) :
    ∀ x ∈ g.F, x ≠ f → x + 16 * s.size x ≠ a := by
  intro x hx hxf he
  have hxa : x ≠ a := fun h' => h.FU a (h' ▸ hx) ha
  have hd := h.disj x f (Or.inl hx) (Or.inl hf)
  rcases between_position (h.succ f hf) hb with ⟨h1, h2, h3⟩ | ⟨h1, h2, h3⟩
  · have := h3 x hx; omega
  · have := h1 x hx
    have := h2 x hx
    omega

/-- The state left by `arena_free` is well formed and coalesced: the block `a`
has joined the free list, merged with the neighbours it touches. -/
theorem wf_freed {s : arena_t} {g : layout} (h : wf s g) (hc : coalesced s g) {a f : Nat}
    (ha : a ∈ g.U) (hf : f ∈ g.F) (hb : between a f (s.next f)) :
    ∃ g', wf (freed s a f) g' ∧ coalesced (freed s a f) g' ∧ g'.U = g.U.erase a ∧
      g'.P = g.P ∧ g'.F ⊆ insert a g.F := by
  have haF : a ∉ g.F := fun h' => h.FU a h' ha
  have hn := (h.succ f hf).1
  have hfa : f ≠ a := fun h' => haF (h' ▸ hf)
  have hna : s.next f ≠ a := fun h' => haF (h' ▸ hn)
  have has : a ≠ s.self := fun h' => h.self_not_U (h' ▸ ha)
  obtain ⟨pga, hpa, hina⟩ := h.paged a (Or.inr ha) has
  have hsa := hina.2.2.2
  have hpos := between_position (h.succ f hf) hb
  have habove := no_touch_above h ha hf hb
  have hbelow := no_touch_below h ha hf hb
  -- the block linked in, no merge yet
  have w1 : wf (((s.set_next a (s.next f)).set_next f a).set_free f)
      ⟨insert a g.F, g.U.erase a, g.P⟩ :=
    wf_insert h ha hf hb
      (by intro x; simp only [arena_t.set_free_next_eq, arena_t.set_next_next_eq, poke])
      rfl rfl rfl rfl rfl
  by_cases hup : a + 16 * s.size a = s.next f
  · -- the successor is absorbed
    have hns : s.next f ≠ s.self := by
      have := h.block_self (Or.inr ha) has; omega
    have hfn : f ≠ s.next f := by
      intro he
      rcases hpos with ⟨h1, h2, h3⟩ | ⟨h1, h2, h3⟩
      · omega
      · have := h1 _ h.self_F
        have := h2 _ h.self_F
        omega
    have hinn := h.adjacent_page (Or.inl hn) hns hpa hina hup
    have w2 : wf ((((s.set_next a (s.next f)).set_next f a).set_free f).set_size a
        (s.size a + s.size (s.next f)) |>.set_next a (s.next (s.next f)))
        ⟨(insert a g.F).erase (s.next f), g.U.erase a, g.P⟩ :=
      wf_merge w1 (x := a) (y := s.next f) (Finset.mem_insert_self _ _)
        (Finset.mem_insert_of_mem hn) has hns
        (by simp [poke, hfa.symm])
        hup (by exact hfn)
        (by intro z; simp only [arena_t.set_free_next_eq, arena_t.set_next_next_eq,
              arena_t.set_size_next_eq, poke]
            try (split_ifs <;> first | rfl | omega))
        (by intro z; simp [poke])
        rfl rfl rfl rfl
    by_cases hlo : f + 16 * s.size f = a
    · have hfs : f ≠ s.self := by
        intro he; rw [he, h.self_size] at hlo; omega
      have hsz : ∀ z, (freed s a f).size z = if z = f then s.size f + (s.size a + s.size (s.next f))
          else if z = a then s.size a + s.size (s.next f) else s.size z := by
        intro z; simp only [freed, if_pos hup, arena_t.set_free_size_eq,
          arena_t.set_next_size_eq, arena_t.set_size_size_eq, poke, if_neg hfa, if_pos hlo]
        split_ifs <;> rfl
      have w3 : wf (freed s a f) ⟨((insert a g.F).erase (s.next f)).erase a, g.U.erase a, g.P⟩ :=
        wf_merge w2 (x := f) (y := a)
          (Finset.mem_erase.2 ⟨hfn, Finset.mem_insert_of_mem hf⟩)
          (Finset.mem_erase.2 ⟨Ne.symm hna, Finset.mem_insert_self _ _⟩) hfs has
          (by simp [poke, hfa])
          (by simp [poke, hfa, hlo])
          (by exact hfa)
          (by intro z; simp only [freed, if_pos hup, arena_t.set_free_next_eq,
                arena_t.set_next_next_eq, arena_t.set_size_next_eq, arena_t.set_next_size_eq,
                arena_t.set_size_size_eq, poke, if_neg hfa, if_pos hlo]
              split_ifs <;> rfl)
          (by intro z; rw [hsz z]
              simp only [arena_t.set_free_size_eq, arena_t.set_next_size_eq,
                arena_t.set_size_size_eq, poke, if_neg hfa]
              split_ifs <;> rfl)
          (by simp [freed])
          (by simp [freed, hup, hlo, poke, hfa])
          (by simp [freed, hup, hlo, poke, hfa])
          (by simp [freed, hup, hlo, poke, hfa])
      refine ⟨_, w3, ?_, rfl, rfl, ?_⟩
      · intro x hx y hy hxs he
        simp only [Finset.mem_erase, Finset.mem_insert] at hx hy
        obtain ⟨hxa, hxn, hx'⟩ := hx
        obtain ⟨hya, hyn, hy'⟩ := hy
        have hxF : x ∈ g.F := hx'.resolve_left hxa
        have hyF : y ∈ g.F := hy'.resolve_left hya
        have hxs' : x ≠ s.self := by rw [freed_self] at hxs; exact hxs
        rw [hsz x] at he
        by_cases hxf : x = f
        · rw [if_pos hxf] at he
          exact hc _ hn y hyF hns (by omega)
        · rw [if_neg hxf, if_neg hxa] at he
          exact hc x hxF y hyF hxs' he
      · intro z hz
        exact Finset.mem_of_mem_erase (Finset.mem_of_mem_erase hz)
    · have hsz : ∀ z, (freed s a f).size z = if z = a then s.size a + s.size (s.next f)
          else s.size z := by
        intro z; simp only [freed, if_pos hup, arena_t.set_free_size_eq,
          arena_t.set_next_size_eq, arena_t.set_size_size_eq, poke, if_neg hfa, if_neg hlo]
      have w3 : wf (freed s a f) ⟨(insert a g.F).erase (s.next f), g.U.erase a, g.P⟩ :=
        wf_merge w1 (x := a) (y := s.next f) (Finset.mem_insert_self _ _)
          (Finset.mem_insert_of_mem hn) has hns
          (by simp [poke, hfa.symm])
          hup (by exact hfn)
          (by intro z; simp only [freed, if_pos hup, arena_t.set_free_next_eq,
                arena_t.set_next_next_eq, arena_t.set_size_next_eq, arena_t.set_next_size_eq,
                arena_t.set_size_size_eq, poke, if_neg hfa, if_neg hlo]
              try (split_ifs <;> first | rfl | omega))
          (by intro z; rw [hsz z]; simp [poke])
          (by simp [freed])
          (by simp [freed, hup, hlo, poke, hfa])
          (by simp [freed, hup, hlo, poke, hfa])
          (by simp [freed, hup, hlo, poke, hfa])
      refine ⟨_, w3, ?_, rfl, rfl, ?_⟩
      · intro x hx y hy hxs he
        simp only [Finset.mem_erase, Finset.mem_insert] at hx hy
        obtain ⟨hxn, hx'⟩ := hx
        obtain ⟨hyn, hy'⟩ := hy
        have hxs' : x ≠ s.self := by rw [freed_self] at hxs; exact hxs
        rw [hsz x] at he
        by_cases hxa : x = a
        · rw [if_pos hxa] at he
          rcases hy' with hya | hyF
          · omega
          · exact hc _ hn y hyF hns (by omega)
        · rw [if_neg hxa] at he
          have hxF : x ∈ g.F := hx'.resolve_left hxa
          rcases hy' with hya | hyF
          · by_cases hxf : x = f
            · subst hxf; subst hya; exact hlo he
            · subst hya; exact hbelow x hxF hxf he
          · exact hc x hxF y hyF hxs' he
      · intro z hz
        exact Finset.mem_of_mem_erase hz
  · by_cases hlo : f + 16 * s.size f = a
    · have hfs : f ≠ s.self := by
        intro he; rw [he, h.self_size] at hlo; omega
      have hsz : ∀ z, (freed s a f).size z = if z = f then s.size f + s.size a
          else s.size z := by
        intro z; simp only [freed, if_neg hup, arena_t.set_free_size_eq,
          arena_t.set_next_size_eq, arena_t.set_size_size_eq, poke, if_pos hlo]
      have w3 : wf (freed s a f) ⟨(insert a g.F).erase a, g.U.erase a, g.P⟩ :=
        wf_merge w1 (x := f) (y := a) (Finset.mem_insert_of_mem hf)
          (Finset.mem_insert_self _ _) hfs has
          (by simp [poke])
          (by exact hlo) (by exact hfa)
          (by intro z; simp only [freed, if_neg hup, arena_t.set_free_next_eq,
                arena_t.set_next_next_eq, arena_t.set_size_next_eq, arena_t.set_next_size_eq,
                arena_t.set_size_size_eq, poke, if_pos hlo]
              try (split_ifs <;> first | rfl | omega))
          (by intro z; rw [hsz z]; simp [poke])
          (by simp [freed])
          (by simp [freed, hup, hlo, poke, hfa])
          (by simp [freed, hup, hlo, poke, hfa])
          (by simp [freed, hup, hlo, poke, hfa])
      refine ⟨_, w3, ?_, rfl, rfl, ?_⟩
      · intro x hx y hy hxs he
        simp only [Finset.mem_erase, Finset.mem_insert] at hx hy
        obtain ⟨hxa, hx'⟩ := hx
        obtain ⟨hya, hy'⟩ := hy
        have hxF : x ∈ g.F := hx'.resolve_left hxa
        have hyF : y ∈ g.F := hy'.resolve_left hya
        have hxs' : x ≠ s.self := by rw [freed_self] at hxs; exact hxs
        rw [hsz x] at he
        by_cases hxf : x = f
        · rw [if_pos hxf] at he
          by_cases hyn : y = s.next f
          · omega
          · exact habove y hyF hyn (by omega)
        · rw [if_neg hxf] at he
          exact hc x hxF y hyF hxs' he
      · intro z hz
        exact Finset.mem_of_mem_erase hz
    · have hfr : freed s a f = ((s.set_next a (s.next f)).set_next f a).set_free f := by
        simp only [freed, if_neg hup, arena_t.set_next_size_eq, if_neg hlo]
      rw [hfr]
      refine ⟨_, w1, ?_, rfl, rfl, fun z hz => hz⟩
      intro x hx y hy hxs he
      simp only [Finset.mem_insert] at hx hy
      have hxs' : x ≠ s.self := by simpa using hxs
      simp only [arena_t.set_free_size_eq, arena_t.set_next_size_eq] at he
      rcases hx with hxa | hxF
      · subst hxa
        rcases hy with hya | hyF
        · omega
        · by_cases hyn : y = s.next f
          · subst hyn; exact hup he
          · exact habove y hyF hyn he
      · rcases hy with hya | hyF
        · subst hya
          by_cases hxf : x = f
          · subst hxf; exact hlo he
          · exact hbelow x hxF hxf he
        · exact hc x hxF y hyF hxs' he

theorem ptr_add (x k : Nat) : x + k * sizeof_node_t = x + 16 * k := by
  unfold sizeof_node_t; omega

theorem pure_eq_ok {α : Type} (a : α) : (pure a : Except fault α) = .ok a := rfl

/-- `arena_free` of a block that is off the list returns, with fuel above twice
the length of the list, and leaves the state `freed`. -/
theorem arena_free_eq {s : arena_t} {g : layout} (h : wf s g) {a : Nat} (ha : a ∈ g.U)
    {fuel : Nat} (hfuel : 2 * g.F.card < fuel) :
    ∃ f ∈ g.F, between a f (s.next f) ∧
      arena_free fuel s (a + sizeof_node_t) = .ok (freed s a f) := by
  have haF : a ∉ g.F := fun h' => h.FU a h' ha
  have hcard : (g.F.filter (fun x => s.free ≤ x)).card ≤ g.F.card :=
    Finset.card_le_card (Finset.filter_subset _ _)
  obtain ⟨f, hfF, hfind, hb⟩ := arena_free_find_total s g.F a h.succ h.zero_not_F haF fuel
    s.free h.free_F (by omega)
  refine ⟨f, hfF, hb, ?_⟩
  have hn := (h.succ f hfF).1
  have hfa : f ≠ a := fun h' => haF (h' ▸ hfF)
  have has : a ≠ s.self := fun h' => h.self_not_U (h' ▸ ha)
  have hsub : a + sizeof_node_t - sizeof_node_t = a := by omega
  have hsa := h.size_lt (Or.inr ha)
  have hsf := h.size_lt (Or.inl hfF)
  have hsn := h.size_lt (Or.inl hn)
  simp only [arena_free, hsub, deref_of_ne (h.node_pos (Or.inl h.free_F)), ok_bind, hfind,
    deref_of_ne (h.node_pos (Or.inr ha)), deref_of_ne (h.node_pos (Or.inl hfF)), ptr_add,
    pure_eq_ok]
  by_cases hup : a + 16 * s.size a = s.next f
  · have e1 : (s.size a + s.size (s.next f)) % SIZE_T = s.size a + s.size (s.next f) := by
      unfold SIZE_T; omega
    simp only [if_pos hup, deref_of_ne (h.node_pos (Or.inl hn)), ok_bind, e1, freed]
    by_cases hlo : f + 16 * s.size f = a
    · have e2 : (s.size f + (s.size a + s.size (s.next f))) % SIZE_T
          = s.size f + (s.size a + s.size (s.next f)) := by
        have hns : s.next f ≠ s.self := by
          have := h.block_self (Or.inr ha) has; omega
        have hfs : f ≠ s.self := by
          intro he; rw [he, h.self_size] at hlo; omega
        obtain ⟨pg, hp, hinf⟩ := h.paged f (Or.inl hfF) hfs
        have hina := h.adjacent_page (Or.inr ha) has hp hinf hlo
        have hinn := h.adjacent_page (Or.inl hn) hns hp hina hup
        have := (h.pg_size pg hp).2
        obtain ⟨-, h3, -, -⟩ := hinn
        unfold SIZE_T; omega
      simp only [arena_t.set_next_size_eq, arena_t.set_size_size_eq, poke, if_neg hfa,
        if_pos hlo, if_true, e2]
    · simp only [arena_t.set_next_size_eq, arena_t.set_size_size_eq, poke, if_neg hfa,
        if_neg hlo]
  · simp only [if_neg hup, ok_bind, freed, arena_t.set_next_size_eq]
    by_cases hlo : f + 16 * s.size f = a
    · have e2 : (s.size f + s.size a) % SIZE_T = s.size f + s.size a := by
        unfold SIZE_T; omega
      simp only [if_pos hlo, e2]
    · simp only [if_neg hlo]

/-- Total correctness of `arena_free` on a well formed, coalesced arena: with
enough fuel the call returns, the block has left `U`, and the state is again
well formed and coalesced; headers of the other blocks off the list and of the
pages are untouched. -/
theorem arena_free_spec {s : arena_t} {g : layout} (h : wf s g) (hc : coalesced s g) {a : Nat}
    (ha : a ∈ g.U) {fuel : Nat} (hfuel : 2 * g.F.card < fuel) :
    ∃ s' g', arena_free fuel s (a + sizeof_node_t) = .ok s' ∧ wf s' g' ∧ coalesced s' g' ∧
      g'.U = g.U.erase a ∧ g'.P = g.P ∧ g'.F ⊆ insert a g.F ∧ free_frame s s' ∧
      (∀ x, x ∉ insert a g.F → s'.next x = s.next x ∧ s'.size x = s.size x) := by
  obtain ⟨f, hfF, hb, he⟩ := arena_free_eq h ha hfuel
  obtain ⟨g', w, c, hU, hP, hF⟩ := wf_freed h hc ha hfF hb
  refine ⟨_, g', he, w, c, hU, hP, hF, freed_frame s a f, fun x hx => ?_⟩
  have hxa : x ≠ a := fun h' => hx (h' ▸ Finset.mem_insert_self _ _)
  have hxf : x ≠ f := fun h' => hx (h' ▸ Finset.mem_insert_of_mem hfF)
  simp only [freed]
  split_ifs <;> simp [poke, hxa, hxf]

/-! ## More fuel does not change a result -/

theorem arena_free_find_mono (s : arena_t) (a : Nat) : ∀ (fuel fuel' f n : Nat) (r : Nat × Nat),
    fuel ≤ fuel' → arena_free_find s a fuel f n = .ok r → arena_free_find s a fuel' f n = .ok r
  | 0, _, _, _, _, _, h => by simp [arena_free_find] at h
  | fuel + 1, 0, _, _, _, hle, _ => by omega
  | fuel + 1, fuel' + 1, f, n, r, hle, h => by
    rw [arena_free_find_succ] at h ⊢
    split
    · rename_i hc; rw [if_pos hc] at h; exact h
    · rename_i hc
      rw [if_neg hc] at h
      simp only [bind_ok, deref_ok] at h ⊢
      obtain ⟨u, hu, h⟩ := h
      exact ⟨u, hu, arena_free_find_mono s a fuel fuel' n _ r (by omega) h⟩

theorem arena_free_mono {fuel fuel' : Nat} {s s' : arena_t} {ap : Nat} (hle : fuel ≤ fuel')
    (h : arena_free fuel s ap = .ok s') : arena_free fuel' s ap = .ok s' := by
  simp only [arena_free, bind_ok] at h ⊢
  obtain ⟨u, hu, r, hr, h⟩ := h
  exact ⟨u, hu, r, arena_free_find_mono s _ fuel fuel' _ _ r hle hr, h⟩

/-- Partial correctness of `arena_free`, whatever the fuel: if the call returns,
the block has joined the free list and the state is well formed and coalesced. -/
theorem arena_free_sound {s : arena_t} {g : layout} (h : wf s g) (hc : coalesced s g) {a : Nat}
    (ha : a ∈ g.U) {fuel : Nat} {s' : arena_t}
    (hr : arena_free fuel s (a + sizeof_node_t) = .ok s') :
    ∃ g', wf s' g' ∧ coalesced s' g' ∧
      g'.U = g.U.erase a ∧ g'.P = g.P ∧ g'.F ⊆ insert a g.F ∧ free_frame s s' ∧
      (∀ x, x ∉ insert a g.F → s'.next x = s.next x ∧ s'.size x = s.size x) := by
  obtain ⟨s'', g', h1, h2⟩ := arena_free_spec h hc ha
    (by omega : 2 * g.F.card < max fuel (2 * g.F.card + 1))
  have h3 := arena_free_mono (le_max_left fuel (2 * g.F.card + 1)) hr
  rw [h1] at h3
  cases h3
  exact ⟨g', h2⟩

/-! ## A page joins the ledger -/

theorem ledger_ne_zero {nx : Nat → Nat} : ∀ {P : List Nat} {h : Nat},
    ledger nx h P → ∀ pg ∈ P, pg ≠ 0
  | [], _, _, pg, hp => by simp at hp
  | q :: l, h, hl, pg, hp => by
    obtain ⟨-, h2, h3⟩ := hl
    rcases List.mem_cons.1 hp with rfl | hp'
    · exact h2
    · exact ledger_ne_zero h3 pg hp'

theorem wf.page_pos {s : arena_t} {g : layout} (h : wf s g) {pg : Nat} (hp : pg ∈ g.P) :
    pg ≠ 0 := ledger_ne_zero h.chain pg hp

/-- A page fresh from the backing allocator, its header linked into the ledger
and its usable part formatted as one block that is still off the free list. -/
theorem wf_add_page {s : arena_t} {g : layout} (h : wf s g) (hc : coalesced s g) {pg k : Nat}
    (hpg : pg ≠ 0) (hk : 2 ≤ k) (hk2 : 16 * (k + 1) < 2 ^ 64)
    (hfresh : ∀ c ∈ s.log, call.apart c (call.alloc (16 * (k + 1)) pg)) {s1 : arena_t}
    (hnx : ∀ z, s1.next z = if z = pg then s.allocated else s.next z)
    (hsz : ∀ z, s1.size z = if z = pg + 16 then k - 1 else if z = pg then k + 1 else s.size z)
    (hal : s1.allocated = pg) (hfree : s1.free = s.free) (hself : s1.self = s.self)
    (hlog : s1.log = s.log ++ [call.alloc (16 * (k + 1)) pg]) :
    wf s1 ⟨g.F, insert (pg + 16) g.U, pg :: g.P⟩ ∧
      coalesced s1 ⟨g.F, insert (pg + 16) g.U, pg :: g.P⟩ ∧ pg + 16 ∉ g.U := by
  have hA : ∀ q ∈ g.P, q + 16 * s.size q ≤ pg ∨ pg + 16 * (k + 1) ≤ q := by
    intro q hq
    exact hfresh _ (h.pg_log q hq) (h.page_pos hq) hpg
  have hB : s.self + 80 ≤ pg ∨ pg + 16 * (k + 1) ≤ s.self :=
    hfresh _ h.self_log h.self_ne hpg
  have hC : ∀ x, g.node x → x + 16 * s.size x < pg ∨ pg + 16 * (k + 1) ≤ x := by
    intro x hx
    by_cases hs : x = s.self
    · rw [hs, h.self_size]; omega
    · obtain ⟨q, hq, h1, h2, -, -⟩ := h.paged x hx hs
      have := hA q hq
      have := (h.pg_size q hq).1
      omega
  have hszn : ∀ x, g.node x → s1.size x = s.size x := by
    intro x hx
    have := hC x hx
    have h1 : x ≠ pg + 16 := by omega
    have h2 : x ≠ pg := by omega
    rw [hsz x, if_neg h1, if_neg h2]
  have hszp : ∀ q ∈ g.P, s1.size q = s.size q := by
    intro q hq
    have := hA q hq
    have := (h.pg_size q hq).1
    have h1 : q ≠ pg + 16 := by omega
    have h2 : q ≠ pg := by omega
    rw [hsz q, if_neg h1, if_neg h2]
  have hnxn : ∀ x, g.node x → s1.next x = s.next x := by
    intro x hx
    have := hC x hx
    have h1 : x ≠ pg := by omega
    rw [hnx x, if_neg h1]
  have hupU : pg + 16 ∉ g.U := fun hu => by
    have := hC _ (Or.inr hu); omega
  have hupF : pg + 16 ∉ g.F := fun hu => by
    have := hC _ (Or.inl hu); omega
  have hpgP : pg ∉ g.P := fun hp => by
    have := hA pg hp
    have := (h.pg_size pg hp).1
    omega
  have hup : s1.size (pg + 16) = k - 1 := by rw [hsz, if_pos rfl]
  have hpgs : s1.size pg = k + 1 := by
    have h1 : pg ≠ pg + 16 := by omega
    rw [hsz, if_neg h1, if_pos rfl]
  have hnode : ∀ x, layout.node ⟨g.F, insert (pg + 16) g.U, pg :: g.P⟩ x ↔
      x = pg + 16 ∨ g.node x := by
    intro x
    simp only [layout.node, Finset.mem_insert]
    tauto
  refine ⟨?_, ?_, hupU⟩
  · constructor
    · rw [hself]; exact h.self_ne
    · rw [hself]; exact h.self_F
    · rw [hself, hszn _ (Or.inl h.self_F)]; exact h.self_size
    · rw [hfree]; exact h.free_F
    · intro f hf
      rw [hnxn f (Or.inl hf)]
      exact h.succ f hf
    · intro x hx hx'
      rcases Finset.mem_insert.1 hx' with rfl | hxU
      · exact hupF hx
      · exact h.FU x hx hxU
    · intro x hx hs
      rw [hself] at hs
      rcases (hnode x).1 hx with rfl | hx'
      · refine ⟨pg, List.mem_cons_self _ _, ?_⟩
        unfold in_page
        rw [hup, hpgs]
        omega
      · obtain ⟨q, hq, hin⟩ := h.paged x hx' hs
        exact ⟨q, List.mem_cons_of_mem _ hq, (in_page_congr (hszp q hq) (hszn x hx')).2 hin⟩
    · intro x y hx hy hxy
      rcases (hnode x).1 hx with rfl | hx'
      · rcases (hnode y).1 hy with rfl | hy'
        · omega
        · have := hC y hy'
          rw [hup]; omega
      · rw [hszn x hx']
        rcases (hnode y).1 hy with rfl | hy'
        · have := hC x hx'; omega
        · exact h.disj x y hx' hy' hxy
    · intro q hq u h1 h2 h3
      rcases List.mem_cons.1 hq with rfl | hq'
      · rw [hpgs] at h2
        refine ⟨q + 16, (hnode _).2 (Or.inl rfl), ?_, h1, ?_⟩
        · rw [hself]; omega
        · rw [hup]; omega
      · rw [hszp q hq'] at h2
        obtain ⟨x, hx, hxs, h4, h5⟩ := h.cover q hq' u h1 h2 h3
        exact ⟨x, (hnode x).2 (Or.inr hx), by rw [hself]; exact hxs, h4,
          by rw [hszn x hx]; exact h5⟩
    · show ∑ x ∈ g.F, s1.size x + ∑ x ∈ insert (pg + 16) g.U, s1.size x
        = ((pg :: g.P).map (fun q => s1.size q - 2)).sum
      have e1 : ∑ x ∈ g.F, s1.size x = ∑ x ∈ g.F, s.size x :=
        Finset.sum_congr rfl (fun x hx => hszn x (Or.inl hx))
      have e2 : ∑ x ∈ g.U, s1.size x = ∑ x ∈ g.U, s.size x :=
        Finset.sum_congr rfl (fun x hx => hszn x (Or.inr hx))
      have e3 : (g.P.map (fun q => s1.size q - 2)) = (g.P.map (fun q => s.size q - 2)) :=
        List.map_congr_left (fun q hq => by rw [hszp q hq])
      rw [Finset.sum_insert hupU, List.map_cons, List.sum_cons, e1, e2, e3, hup, hpgs,
        ← h.total]
      omega
    · exact List.nodup_cons.2 ⟨hpgP, h.pg_nodup⟩
    · intro q hq
      rcases List.mem_cons.1 hq with rfl | hq'
      · rw [hpgs]; omega
      · rw [hszp q hq']; exact h.pg_size q hq'
    · intro q hq q' hq' hlt
      rcases List.mem_cons.1 hq with rfl | hq1
      · rcases List.mem_cons.1 hq' with rfl | hq2
        · omega
        · have := hA q' hq2
          have := (h.pg_size q' hq2).1
          rw [hpgs]; omega
      · rw [hszp q hq1]
        rcases List.mem_cons.1 hq' with rfl | hq2
        · have := hA q hq1
          omega
        · exact h.pg_disj q hq1 q' hq2 hlt
    · intro q hq
      rw [hself]
      rcases List.mem_cons.1 hq with rfl | hq1
      · rw [hpgs]; omega
      · rw [hszp q hq1]; exact h.pg_self q hq1
    · intro q hq
      rw [hlog]
      rcases List.mem_cons.1 hq with rfl | hq1
      · rw [hpgs]; exact List.mem_append_right _ (List.mem_singleton.2 rfl)
      · rw [hszp q hq1]; exact List.mem_append_left _ (h.pg_log q hq1)
    · rw [hlog, hself]; exact List.mem_append_left _ h.self_log
    · rw [hal]
      refine ⟨rfl, hpg, ?_⟩
      rw [hnx pg, if_pos rfl]
      refine ledger_congr (fun q hq => ?_) h.chain
      have hne : q ≠ pg := fun he => hpgP (he ▸ hq)
      rw [hnx q, if_neg hne]
  · intro x hx y hy hxs he
    rw [hself] at hxs
    rw [hszn x (Or.inl hx)] at he
    exact hc x hx y hy hxs he

/-! ## `arena_alloc_pages` keeps the arena well formed -/

/-- Well-formedness only reads the headers of nodes and pages, the cursor, the
ledger head and the log. -/
theorem wf_congr {s s1 : arena_t} {g : layout} (h : wf s g)
    (hnF : ∀ x ∈ g.F, s1.next x = s.next x) (hnP : ∀ pg ∈ g.P, s1.next pg = s.next pg)
    (hsN : ∀ x, g.node x → s1.size x = s.size x) (hsP : ∀ pg ∈ g.P, s1.size pg = s.size pg)
    (hfree : s1.free = s.free) (hself : s1.self = s.self) (hal : s1.allocated = s.allocated)
    (hlog : ∀ c ∈ s.log, c ∈ s1.log) : wf s1 g := by
  constructor
  · rw [hself]; exact h.self_ne
  · rw [hself]; exact h.self_F
  · rw [hself, hsN _ (Or.inl h.self_F)]; exact h.self_size
  · rw [hfree]; exact h.free_F
  · intro f hf; rw [hnF f hf]; exact h.succ f hf
  · exact h.FU
  · intro x hx hs
    rw [hself] at hs
    obtain ⟨pg, hp, hin⟩ := h.paged x hx hs
    exact ⟨pg, hp, (in_page_congr (hsP pg hp) (hsN x hx)).2 hin⟩
  · intro x y hx hy hxy; rw [hsN x hx]; exact h.disj x y hx hy hxy
  · intro pg hp u h1 h2 h3
    rw [hsP pg hp] at h2
    obtain ⟨x, hx, hxs, h4, h5⟩ := h.cover pg hp u h1 h2 h3
    exact ⟨x, hx, by rw [hself]; exact hxs, h4, by rw [hsN x hx]; exact h5⟩
  · have e1 : ∑ x ∈ g.F, s1.size x = ∑ x ∈ g.F, s.size x :=
      Finset.sum_congr rfl (fun x hx => hsN x (Or.inl hx))
    have e2 : ∑ x ∈ g.U, s1.size x = ∑ x ∈ g.U, s.size x :=
      Finset.sum_congr rfl (fun x hx => hsN x (Or.inr hx))
    have e3 : (g.P.map (fun q => s1.size q - 2)) = (g.P.map (fun q => s.size q - 2)) :=
      List.map_congr_left (fun q hq => by rw [hsP q hq])
    rw [e1, e2, e3]; exact h.total
  · exact h.pg_nodup
  · intro pg hp; rw [hsP pg hp]; exact h.pg_size pg hp
  · intro pg hp pg' hp' hlt; rw [hsP pg hp]; exact h.pg_disj pg hp pg' hp' hlt
  · intro pg hp; rw [hsP pg hp, hself]; exact h.pg_self pg hp
  · intro pg hp; rw [hsP pg hp]; exact hlog _ (h.pg_log pg hp)
  · rw [hself]; exact hlog _ h.self_log
  · rw [hal]; exact ledger_congr hnP h.chain

theorem coalesced_congr {s s1 : arena_t} {g : layout} (hc : coalesced s g)
    (hsF : ∀ x ∈ g.F, s1.size x = s.size x) (hself : s1.self = s.self) : coalesced s1 g := by
  intro x hx y hy hxs he
  rw [hself] at hxs
  rw [hsF x hx] at he
  exact hc x hx y hy hxs he

theorem regions_disjoint_prefix {l l' : List call} (h : regions_disjoint (l ++ l')) :
    regions_disjoint l := (List.pairwise_append.1 h).1

theorem regions_disjoint_last {l : List call} {c : call} (h : regions_disjoint (l ++ [c])) :
    ∀ d ∈ l, call.apart d c :=
  fun d hd => (List.pairwise_append.1 h).2.2 d hd c (List.mem_singleton.2 rfl)

/-- Partial correctness of `arena_alloc_pages`: the state stays well formed and
coalesced, the blocks off the list are untouched, and a page that was granted
leaves the cursor on the node returned. -/
theorem arena_alloc_pages_sound {s : arena_t} {g : layout} (h : wf s g) (hc : coalesced s g)
    (hp : page_config s) {nu fuel q : Nat} {s' : arena_t} (hnu : nu + 2 ≤ 2 ^ 60)
    (hr : arena_alloc_pages fuel s nu = .ok (q, s')) (hlog : regions_disjoint s'.log) :
    ∃ g', wf s' g' ∧ coalesced s' g' ∧ g'.U = g.U ∧ (q ≠ 0 → q = s'.free) ∧
      same_config s s' ∧ s'.bin = s.bin ∧
      (∀ x ∈ g.U, s'.next x = s.next x ∧ s'.size x = s.size x) ∧
      (∃ l, s'.log = s.log ++ l) := by
  obtain ⟨hp1, hp2⟩ := hp
  simp only [arena_alloc_pages, that_alloc] at hr
  generalize hk : (if nu < s.parent_min_alloc_in_bytes / sizeof_node_t
    then s.parent_min_alloc_in_bytes / sizeof_node_t else nu) = k at hr
  have hk1 : 256 ≤ k ∧ k + 2 ≤ 2 ^ 60 := by
    rw [← hk]; unfold sizeof_node_t; split <;> omega
  have hB : (k + 1) * sizeof_node_t % SIZE_T = 16 * (k + 1) := by
    unfold sizeof_node_t SIZE_T; omega
  have hs1 : (k + 1) % SIZE_T = k + 1 := by unfold SIZE_T; omega
  have hs2 : (k + SIZE_T - 1) % SIZE_T = k - 1 := by unfold SIZE_T; omega
  rw [hB, hs1, hs2] at hr
  generalize hpg : s.that.headD 0 = pg at hr
  split at hr
  · -- the backing allocator refused
    simp only [pure_ok, Prod.mk.injEq] at hr
    obtain ⟨rfl, rfl⟩ := hr
    refine ⟨g, ?_, ?_, rfl, fun h0 => absurd rfl h0, ?_, rfl, fun x _ => ⟨rfl, rfl⟩, ⟨_, rfl⟩⟩
    · exact wf_congr h (fun _ _ => rfl) (fun _ _ => rfl) (fun _ _ => rfl) (fun _ _ => rfl) rfl
        rfl rfl (fun c hc' => List.mem_append_left _ hc')
    · exact coalesced_congr hc (fun _ _ => rfl) rfl
    · exact ⟨rfl, rfl, rfl, rfl⟩
  · rename_i hpg0
    simp only [bind_ok, pure_ok, Prod.mk.injEq] at hr
    obtain ⟨s2, hfr, rfl, rfl⟩ := hr
    have hfrm := arena_free_frame hfr
    have hlog4 : s2.log = s.log ++ [call.alloc (16 * (k + 1)) pg] := by
      rw [hfrm.2.2.1]; rfl
    rw [hlog4] at hlog
    obtain ⟨w4, c4, hupU⟩ := wf_add_page h hc (k := k) hpg0 (by omega) (by omega)
      (regions_disjoint_last hlog)
      (show ∀ z, (((((s.called s.that.tail (call.alloc (16 * (k + 1)) pg)).set_next pg
        (s.called s.that.tail (call.alloc (16 * (k + 1)) pg)).allocated).set_allocated
          pg).set_size pg (k + 1)).set_size (pg + sizeof_node_t) (k - 1)).next z = _
        from by intro z; simp [poke])
      (by intro z; simp only [arena_t.set_size_size_eq, arena_t.set_allocated_size_eq,
            arena_t.set_next_size_eq, arena_t.called_size_eq, poke, sizeof_node_t])
      rfl rfl rfl rfl
    have hup : pg + sizeof_node_t = pg + 16 := rfl
    rw [hup] at hfr
    obtain ⟨g', w, c, hU, -, -, hff, hfx⟩ := arena_free_sound w4 c4
      (a := pg + 16) (Finset.mem_insert_self _ _) hfr
    refine ⟨g', w, c, ?_, fun _ => rfl, ?_, ?_, ?_, ⟨_, hlog4⟩⟩
    · rw [hU]; exact Finset.erase_insert hupU
    · simpa [same_config] using hff.1
    · simpa using hff.2.1
    · intro x hx
      have hxF : x ∉ g.F := fun hf => h.FU x hf hx
      have hxup : x ≠ pg + 16 := fun he => hupU (he ▸ hx)
      have hxpg : x ≠ pg := by
        intro he
        have h1 := w4.page_not_node (List.mem_cons_self pg g.P)
        exact h1.1 (Or.inr (Finset.mem_insert_of_mem (he ▸ hx)))
      obtain ⟨e1, e2⟩ := hfx x (by
        simp only [Finset.mem_insert]; push_neg; exact ⟨hxup, hxF⟩)
      rw [e1, e2]
      simp [poke, hxup, hxpg, sizeof_node_t]

/-! ## A block leaves the free list -/

/-- The successor relation after the node `y`, successor of `x ≠ y`, has been
spliced out, wherever the pair sits on the circle. -/
theorem csucc_erase {F : Finset Nat} {nx nx2 : Nat → Nat} {x y : Nat}
    (hs : ∀ z ∈ F, csucc F z (nx z)) (hx : x ∈ F) (hy : y ∈ F) (hxy : x ≠ y) (hn : nx x = y)
    (hnx : ∀ z ∈ F, z ≠ y → nx2 z = if z = x then nx y else nx z) :
    ∀ z ∈ F.erase y, csucc (F.erase y) z (nx2 z) := by
  intro z hz
  obtain ⟨hzy, hzF⟩ := Finset.mem_erase.1 hz
  rw [hnx z hzF hzy]
  have hsx := (hs x hx).2
  rw [hn] at hsx
  obtain ⟨hm, hsy⟩ := hs y hy
  by_cases hzx : z = x
  · subst hzx
    rw [if_pos rfl]
    rcases hsx with ⟨a1, a2⟩ | ⟨a1, a2⟩
    · -- `y` is the least node above `z`
      rcases hsy with ⟨g1, g2⟩ | ⟨g1, g2⟩
      · refine ⟨Finset.mem_erase.2 ⟨by omega, hm⟩, Or.inl ⟨by omega, fun w hw hzw => ?_⟩⟩
        obtain ⟨hwy, hwF⟩ := Finset.mem_erase.1 hw
        have := a2 w hwF hzw
        exact g2 w hwF (by omega)
      · have hmin := g2 z hzF
        refine ⟨Finset.mem_erase.2 ⟨by omega, hm⟩, Or.inr ⟨fun w hw => ?_, fun w hw => ?_⟩⟩
        · obtain ⟨hwy, hwF⟩ := Finset.mem_erase.1 hw
          by_contra hlt
          have := a2 w hwF (by omega)
          have := g1 w hwF
          omega
        · exact g2 w (Finset.mem_of_mem_erase hw)
    · -- `z` is the greatest node and `y` the least
      have hyz := a2 z hzF
      rcases hsy with ⟨g1, g2⟩ | ⟨g1, g2⟩
      · refine ⟨Finset.mem_erase.2 ⟨by omega, hm⟩, Or.inr ⟨fun w hw => ?_, fun w hw => ?_⟩⟩
        · exact a1 w (Finset.mem_of_mem_erase hw)
        · obtain ⟨hwy, hwF⟩ := Finset.mem_erase.1 hw
          have := a2 w hwF
          exact g2 w hwF (by omega)
      · have := g1 z hzF
        omega
  · rw [if_neg hzx]
    obtain ⟨hmz, hsz⟩ := hs z hzF
    have hne : nx z ≠ y := by
      intro he
      rw [he] at hsz
      rcases hsx with ⟨a1, a2⟩ | ⟨a1, a2⟩
      · rcases hsz with ⟨g1, g2⟩ | ⟨g1, g2⟩
        · rcases Nat.lt_or_gt_of_ne hzx with hlt | hlt
          · have := g2 x hx hlt; omega
          · have := a2 z hzF hlt; omega
        · have := g2 x hx; omega
      · rcases hsz with ⟨g1, g2⟩ | ⟨g1, g2⟩
        · have := a2 z hzF; omega
        · have := g1 x hx
          have := a1 z hzF
          omega
    refine ⟨Finset.mem_erase.2 ⟨hne, hmz⟩, ?_⟩
    rcases hsz with ⟨g1, g2⟩ | ⟨g1, g2⟩
    · exact Or.inl ⟨g1, fun w hw hzw => g2 w (Finset.mem_of_mem_erase hw) hzw⟩
    · exact Or.inr ⟨fun w hw => g1 w (Finset.mem_of_mem_erase hw),
        fun w hw => g2 w (Finset.mem_of_mem_erase hw)⟩

theorem node_erase_insert {g : layout} {p : Nat} (hp : p ∈ g.F) (x : Nat) :
    layout.node ⟨g.F.erase p, insert p g.U, g.P⟩ x ↔ g.node x := by
  unfold layout.node
  simp only [Finset.mem_insert, Finset.mem_erase]
  constructor
  · rintro (⟨-, h⟩ | rfl | h)
    · exact Or.inl h
    · exact Or.inl hp
    · exact Or.inr h
  · rintro (h | h)
    · by_cases hx : x = p
      · exact Or.inr (Or.inl hx)
      · exact Or.inl ⟨hx, h⟩
    · exact Or.inr (Or.inr h)

/-- Exact fit: the free block `p`, successor of `prev`, is unlinked and handed
out; the cursor is left on `prev`. -/
theorem wf_unlink {s : arena_t} {g : layout} (h : wf s g) (hc : coalesced s g) {prev p : Nat}
    (hprev : prev ∈ g.F) (hp : p ∈ g.F) (hps : p ≠ s.self) (hn : s.next prev = p)
    {s1 : arena_t}
    (hnx : ∀ z, s1.next z = if z = p then 0 else if z = prev then s.next p else s.next z)
    (hsz : s1.size = s.size) (hfree : s1.free = prev) (hself : s1.self = s.self)
    (hlog : s1.log = s.log) (hal : s1.allocated = s.allocated) :
    wf s1 ⟨g.F.erase p, insert p g.U, g.P⟩ ∧ coalesced s1 ⟨g.F.erase p, insert p g.U, g.P⟩ := by
  have hpp : prev ≠ p := by
    intro he
    rw [he] at hn
    have hs := (h.succ p hp).2
    rw [hn] at hs
    rcases hs with ⟨g1, -⟩ | ⟨g1, g2⟩
    · omega
    · have := g1 _ h.self_F
      have := g2 _ h.self_F
      omega
  have hpU : p ∉ g.U := h.FU p hp
  have hnode := node_erase_insert (g := g) hp
  refine ⟨?_, ?_⟩
  · constructor
    · rw [hself]; exact h.self_ne
    · rw [hself]; exact Finset.mem_erase.2 ⟨Ne.symm hps, h.self_F⟩
    · rw [hself, hsz]; exact h.self_size
    · rw [hfree]; exact Finset.mem_erase.2 ⟨hpp, hprev⟩
    · refine csucc_erase h.succ hprev hp hpp hn (fun z _ hzp => ?_)
      rw [hnx z, if_neg hzp]
    · intro x hx hx'
      obtain ⟨hxp, hxF⟩ := Finset.mem_erase.1 hx
      rcases Finset.mem_insert.1 hx' with he | hxU
      · exact hxp he
      · exact h.FU x hxF hxU
    · intro x hx hs
      rw [hself] at hs
      obtain ⟨pg, hpg, hin⟩ := h.paged x ((hnode x).1 hx) hs
      exact ⟨pg, hpg, (in_page_congr (by rw [hsz]) (by rw [hsz])).2 hin⟩
    · intro x y hx hy hxy
      rw [hsz]
      exact h.disj x y ((hnode x).1 hx) ((hnode y).1 hy) hxy
    · intro pg hpg u h1 h2 h3
      rw [hsz] at h2
      obtain ⟨x, hx, hxs, h4, h5⟩ := h.cover pg hpg u h1 h2 h3
      exact ⟨x, (hnode x).2 hx, by rw [hself]; exact hxs, h4, by rw [hsz]; exact h5⟩
    · rw [hsz]
      show ∑ x ∈ g.F.erase p, s.size x + ∑ x ∈ insert p g.U, s.size x = _
      rw [Finset.sum_insert hpU, ← h.total, ← Finset.add_sum_erase g.F s.size hp]
      omega
    · exact h.pg_nodup
    · intro pg hpg; rw [hsz]; exact h.pg_size pg hpg
    · intro pg hpg pg' hpg' hlt; rw [hsz]; exact h.pg_disj pg hpg pg' hpg' hlt
    · intro pg hpg; rw [hsz, hself]; exact h.pg_self pg hpg
    · intro pg hpg; rw [hsz, hlog]; exact h.pg_log pg hpg
    · rw [hlog, hself]; exact h.self_log
    · rw [hal]
      refine ledger_congr (fun pg hpg => ?_) h.chain
      have hn' := (h.page_not_node hpg).1
      have h1 : pg ≠ p := fun he => hn' (Or.inl (he ▸ hp))
      have h2 : pg ≠ prev := fun he => hn' (Or.inl (he ▸ hprev))
      rw [hnx pg, if_neg h1, if_neg h2]
  · intro x hx y hy hxs he
    rw [hself] at hxs
    rw [hsz] at he
    exact hc x (Finset.mem_of_mem_erase hx) y (Finset.mem_of_mem_erase hy) hxs he

/-! ## The tail of a free block is carved off -/

/-- Larger block: `p` keeps its place with `nu` units less, and the block of
`nu` units at its former end is handed out; the cursor is left on `prev`. -/
theorem wf_split {s : arena_t} {g : layout} (h : wf s g) (hc : coalesced s g) {p nu prev : Nat}
    (hp : p ∈ g.F) (hps : p ≠ s.self) (hnu : 1 ≤ nu) (hlt : nu < s.size p) (hprev : prev ∈ g.F)
    {s1 : arena_t}
    (hsz : ∀ z, s1.size z = if z = p + 16 * (s.size p - nu) then nu
      else if z = p then s.size p - nu else s.size z)
    (hnx : ∀ z, s1.next z = if z = p + 16 * (s.size p - nu) then 0 else s.next z)
    (hfree : s1.free = prev) (hself : s1.self = s.self)
    (hlog : s1.log = s.log) (hal : s1.allocated = s.allocated) :
    wf s1 ⟨g.F, insert (p + 16 * (s.size p - nu)) g.U, g.P⟩ ∧
      coalesced s1 ⟨g.F, insert (p + 16 * (s.size p - nu)) g.U, g.P⟩ ∧
      p + 16 * (s.size p - nu) ∉ g.U := by
  obtain ⟨pgp, hpgp, hinp⟩ := h.paged p (Or.inl hp) hps
  obtain ⟨i1, i2, i3, i4⟩ := hinp
  generalize hq : p + 16 * (s.size p - nu) = q at *
  have hq1 : p < q := by omega
  have hq2 : q + 16 * nu = p + 16 * s.size p := by omega
  have hqn : ∀ y, g.node y → y ≠ q := by
    intro y hy he
    subst he
    have := h.disj p y (Or.inl hp) hy hq1
    omega
  have hqs : q ≠ s.self := by
    have := h.block_self (Or.inl hp) hps; omega
  have hqP : ∀ pg ∈ g.P, pg ≠ q := by
    intro pg hpg he
    subst he
    have := (h.pg_size pg hpg).1
    have := h.page_eq hpg hpgp (z := pg) (by omega) (by omega) (by omega) (by omega)
    omega
  have hpP : ∀ pg ∈ g.P, pg ≠ p := fun pg hpg he =>
    (h.page_not_node hpg).1 (Or.inl (he ▸ hp))
  have hszn : ∀ x, g.node x → x ≠ p → s1.size x = s.size x := by
    intro x hx hxp
    rw [hsz x, if_neg (hqn x hx), if_neg hxp]
  have hszp : s1.size p = s.size p - nu := by
    have h1 : p ≠ q := by omega
    rw [hsz p, if_neg h1, if_pos rfl]
  have hszq : s1.size q = nu := by rw [hsz q, if_pos rfl]
  have hszP : ∀ pg ∈ g.P, s1.size pg = s.size pg := by
    intro pg hpg
    rw [hsz pg, if_neg (hqP pg hpg), if_neg (hpP pg hpg)]
  have hnode : ∀ x, layout.node ⟨g.F, insert q g.U, g.P⟩ x ↔ x = q ∨ g.node x := by
    intro x
    simp only [layout.node, Finset.mem_insert]
    tauto
  have hqU : q ∉ g.U := fun hu => hqn q (Or.inr hu) rfl
  have hqF : q ∉ g.F := fun hu => hqn q (Or.inl hu) rfl
  refine ⟨?_, ?_, hqU⟩
  · constructor
    · rw [hself]; exact h.self_ne
    · rw [hself]; exact h.self_F
    · rw [hself, hszn _ (Or.inl h.self_F) (Ne.symm hps)]; exact h.self_size
    · rw [hfree]; exact hprev
    · intro f hf
      rw [hnx f, if_neg (hqn f (Or.inl hf))]
      exact h.succ f hf
    · intro x hx hx'
      rcases Finset.mem_insert.1 hx' with rfl | hxU
      · exact hqF hx
      · exact h.FU x hx hxU
    · intro x hx hs
      rw [hself] at hs
      rcases (hnode x).1 hx with rfl | hx'
      · refine ⟨pgp, hpgp, ?_⟩
        unfold in_page
        rw [hszq, hszP pgp hpgp]
        omega
      · by_cases hxp : x = p
        · subst hxp
          refine ⟨pgp, hpgp, ?_⟩
          unfold in_page
          rw [hszp, hszP pgp hpgp]
          omega
        · obtain ⟨pg, hpg, hin⟩ := h.paged x hx' hs
          exact ⟨pg, hpg, (in_page_congr (hszP pg hpg) (hszn x hx' hxp)).2 hin⟩
    · intro x y hx hy hxy
      rcases (hnode x).1 hx with rfl | hx'
      · rcases (hnode y).1 hy with rfl | hy'
        · omega
        · have := h.disj p y (Or.inl hp) hy' (by omega)
          rw [hszq]; omega
      · by_cases hxp : x = p
        · subst hxp
          rw [hszp]
          rcases (hnode y).1 hy with rfl | hy'
          · omega
          · have := h.disj x y hx' hy' hxy
            omega
        · rw [hszn x hx' hxp]
          rcases (hnode y).1 hy with rfl | hy'
          · rcases Nat.lt_or_gt_of_ne hxp with hlt' | hlt'
            · have := h.disj x p hx' (Or.inl hp) hlt'; omega
            · have := h.disj p x (Or.inl hp) hx' hlt'; omega
          · exact h.disj x y hx' hy' hxy
    · intro pg hpg u h1 h2 h3
      rw [hszP pg hpg] at h2
      obtain ⟨x, hx, hxs, h4, h5⟩ := h.cover pg hpg u h1 h2 h3
      by_cases hxp : x = p
      · subst hxp
        by_cases huq : u < q
        · exact ⟨x, (hnode x).2 (Or.inr hx), by rw [hself]; exact hxs, h4,
            by rw [hszp]; omega⟩
        · exact ⟨q, (hnode q).2 (Or.inl rfl), by rw [hself]; exact hqs, by omega,
            by rw [hszq]; omega⟩
      · exact ⟨x, (hnode x).2 (Or.inr hx), by rw [hself]; exact hxs, h4,
          by rw [hszn x hx hxp]; exact h5⟩
    · show ∑ x ∈ g.F, s1.size x + ∑ x ∈ insert q g.U, s1.size x
        = (g.P.map (fun pg => s1.size pg - 2)).sum
      have e1 : ∑ x ∈ g.F.erase p, s1.size x = ∑ x ∈ g.F.erase p, s.size x :=
        Finset.sum_congr rfl (fun x hx =>
          hszn x (Or.inl (Finset.mem_of_mem_erase hx)) (Finset.mem_erase.1 hx).1)
      have e2 : ∑ x ∈ g.U, s1.size x = ∑ x ∈ g.U, s.size x :=
        Finset.sum_congr rfl (fun x hx =>
          hszn x (Or.inr hx) (fun he => h.FU p hp (he ▸ hx)))
      have e3 : (g.P.map (fun pg => s1.size pg - 2)) = (g.P.map (fun pg => s.size pg - 2)) :=
        List.map_congr_left (fun pg hpg => by rw [hszP pg hpg])
      have e4 := Finset.add_sum_erase g.F s1.size hp
      have e5 := Finset.add_sum_erase g.F s.size hp
      rw [Finset.sum_insert hqU, e2, e3, hszq, ← h.total]
      omega
    · exact h.pg_nodup
    · intro pg hpg; rw [hszP pg hpg]; exact h.pg_size pg hpg
    · intro pg hpg pg' hpg' hlt'; rw [hszP pg hpg]; exact h.pg_disj pg hpg pg' hpg' hlt'
    · intro pg hpg; rw [hszP pg hpg, hself]; exact h.pg_self pg hpg
    · intro pg hpg; rw [hszP pg hpg, hlog]; exact h.pg_log pg hpg
    · rw [hlog, hself]; exact h.self_log
    · rw [hal]
      refine ledger_congr (fun pg hpg => ?_) h.chain
      rw [hnx pg, if_neg (hqP pg hpg)]
  · intro x hx y hy hxs he
    rw [hself] at hxs
    by_cases hxp : x = p
    · subst hxp
      rw [hszp] at he
      exact hqF (by rw [← he] at hy; convert hy using 1; omega)
    · rw [hszn x (Or.inl hx) hxp] at he
      exact hc x hx y hy hxs he

/-! ## `arena_alloc` keeps the arena well formed -/

theorem arena_alloc_search_succ (nu fuel : Nat) (s : arena_t) (prev p : Nat) :
    arena_alloc_search nu (fuel + 1) s prev p =
      (deref p >>= fun _ =>
        if s.size p < nu then
          if p = s.free then
            (arena_alloc_pages fuel s nu >>= fun x =>
              if x.1 = 0 then pure (none, x.2)
              else arena_alloc_search nu fuel x.2 x.1 (x.2.next x.1))
          else arena_alloc_search nu fuel s p (s.next p)
        else pure (some (prev, p), s)) := rfl

theorem page_config_congr {s s' : arena_t} (hc : same_config s s') (hp : page_config s) :
    page_config s' := by
  unfold page_config at *
  rw [hc.2.1]; exact hp

/-- Partial correctness of the search loop of `arena_alloc`: whatever growth
took place, the state is well formed and coalesced, the blocks off the list
are untouched, and the pair returned is a node of the list and its successor,
which is large enough. -/
theorem arena_alloc_search_sound {nu : Nat} (hnu : nu + 2 ≤ 2 ^ 60) :
    ∀ (fuel : Nat) {s : arena_t} {g : layout} {prev p : Nat} {r : Option (Nat × Nat)}
      {s' : arena_t}, wf s g → coalesced s g → page_config s → prev ∈ g.F → p = s.next prev →
      arena_alloc_search nu fuel s prev p = .ok (r, s') → regions_disjoint s'.log →
      ∃ g', wf s' g' ∧ coalesced s' g' ∧ g'.U = g.U ∧ same_config s s' ∧ s'.bin = s.bin ∧
        (∀ x ∈ g.U, s'.next x = s.next x ∧ s'.size x = s.size x) ∧
        (∃ l, s'.log = s.log ++ l) ∧
        (∀ prev' p', r = some (prev', p') →
          prev' ∈ g'.F ∧ p' = s'.next prev' ∧ nu ≤ s'.size p') := by
  intro fuel
  induction fuel with
  | zero => intro s g prev p r s' _ _ _ _ _ hr; simp [arena_alloc_search] at hr
  | succ fuel ih =>
    intro s g prev p r s' h hc hp hprev hpn hr hlog
    rw [arena_alloc_search_succ] at hr
    simp only [bind_ok, deref_ok] at hr
    obtain ⟨-, -, hr⟩ := hr
    have hpF : p ∈ g.F := by rw [hpn]; exact (h.succ prev hprev).1
    split at hr
    · split at hr
      · simp only [bind_ok] at hr
        obtain ⟨⟨q, s1⟩, hpg, hr⟩ := hr
        simp only at hr
        split at hr
        · simp only [pure_ok, Prod.mk.injEq] at hr
          obtain ⟨rfl, rfl⟩ := hr
          obtain ⟨g1, w1, c1, hU1, -, hcf1, hb1, hx1, hl1⟩ :=
            arena_alloc_pages_sound h hc hp hnu hpg hlog
          exact ⟨g1, w1, c1, hU1, hcf1, hb1, hx1, hl1, fun _ _ he => by cases he⟩
        · rename_i hq0
          obtain ⟨l2, hl2⟩ : ∃ l, s'.log = s1.log ++ l := by
            have := (arena_alloc_search_config hr)
            exact arena_alloc_search_log hr
          have hlog1 : regions_disjoint s1.log := by
            rw [hl2] at hlog; exact regions_disjoint_prefix hlog
          obtain ⟨g1, w1, c1, hU1, hq1, hcf1, hb1, hx1, l1, hl1⟩ :=
            arena_alloc_pages_sound h hc hp hnu hpg hlog1
          have hqF : q ∈ g1.F := by rw [hq1 hq0]; exact w1.free_F
          obtain ⟨g2, w2, c2, hU2, hcf2, hb2, hx2, -, hr2⟩ :=
            ih w1 c1 (page_config_congr hcf1 hp) hqF rfl hr hlog
          refine ⟨g2, w2, c2, hU2.trans hU1, same_config_trans hcf1 hcf2, hb2.trans hb1,
            fun x hx => ?_, ⟨l1 ++ l2, by rw [hl2, hl1, List.append_assoc]⟩, hr2⟩
          obtain ⟨e1, e2⟩ := hx1 x hx
          obtain ⟨e3, e4⟩ := hx2 x (hU1 ▸ hx)
          exact ⟨e3.trans e1, e4.trans e2⟩
      · exact ih h hc hp hpF rfl hr hlog
    · rename_i hsz
      simp only [pure_ok, Prod.mk.injEq] at hr
      obtain ⟨rfl, rfl⟩ := hr
      refine ⟨g, h, hc, rfl, same_config_refl _, rfl, fun _ _ => ⟨rfl, rfl⟩, ⟨[], by simp⟩, ?_⟩
      intro prev' p' he
      simp only [Option.some.injEq, Prod.mk.injEq] at he
      obtain ⟨rfl, rfl⟩ := he
      exact ⟨hprev, hpn, by omega⟩

theorem number_of_units_le {bytes : Nat} (hb : bytes ≤ 2 ^ 64 - 48) :
    number_of_units bytes + 3 ≤ 2 ^ 60 ∧ bytes ≤ 16 * number_of_units bytes := by
  unfold number_of_units SIZE_T sizeof_node_t
  omega

/-- Partial correctness of `arena_alloc` for requests whose unit count does not
overflow: the state stays well formed and coalesced; a non-null result is the
address after the header of a block that was not handed out before, whose size
is the unit count of the request plus one and whose `next` is `null`. -/
theorem arena_alloc_sound {s : arena_t} {g : layout} (h : wf s g) (hc : coalesced s g)
    (hp : page_config s) {bytes fuel a : Nat} {s' : arena_t} (hb : bytes ≤ 2 ^ 64 - 48)
    (hr : arena_alloc fuel s bytes = .ok (a, s')) (hlog : regions_disjoint s'.log) :
    ∃ g', wf s' g' ∧ coalesced s' g' ∧ same_config s s' ∧ s'.bin = s.bin ∧
      (∀ x ∈ g.U, s'.next x = s.next x ∧ s'.size x = s.size x) ∧
      (∃ l, s'.log = s.log ++ l) ∧
      (a = 0 → g'.U = g.U) ∧
      (a ≠ 0 → ∃ hdr, a = hdr + sizeof_node_t ∧ hdr ∉ g.U ∧ g'.U = insert hdr g.U ∧
        s'.size hdr = number_of_units bytes + 1 ∧ s'.next hdr = 0) := by
  obtain ⟨hu1, hu2⟩ := number_of_units_le hb
  have hnu : (number_of_units bytes + 1) % SIZE_T = number_of_units bytes + 1 := by
    unfold SIZE_T; omega
  simp only [arena_alloc, hnu, bind_ok, deref_ok] at hr
  obtain ⟨-, -, ⟨r, s1⟩, hsr, hr⟩ := hr
  simp only at hr
  have hlog' : ∃ l, s'.log = s1.log ++ l := by
    split at hr
    · simp only [pure_ok, Prod.mk.injEq] at hr
      obtain ⟨-, rfl⟩ := hr
      exact ⟨[], by simp⟩
    · split at hr
      · simp only [bind_ok, pure_ok, deref_ok, Prod.mk.injEq] at hr
        obtain ⟨-, -, -, rfl⟩ := hr
        exact ⟨[], by simp⟩
      · simp only [bind_ok, pure_ok, deref_ok, Prod.mk.injEq] at hr
        obtain ⟨-, -, -, rfl⟩ := hr
        exact ⟨[], by simp⟩
  obtain ⟨l', hl'⟩ := hlog'
  have hlog1 : regions_disjoint s1.log := by
    rw [hl'] at hlog; exact regions_disjoint_prefix hlog
  obtain ⟨g1, w1, c1, hU1, hcf1, hb1, hx1, ⟨l1, hl1⟩, hr1⟩ :=
    arena_alloc_search_sound (by omega : number_of_units bytes + 1 + 2 ≤ 2 ^ 60) fuel h hc hp
      h.free_F rfl hsr hlog1
  split at hr
  · simp only [pure_ok, Prod.mk.injEq] at hr
    obtain ⟨rfl, rfl⟩ := hr
    exact ⟨g1, w1, c1, hcf1, hb1, hx1, ⟨l1, hl1⟩, fun _ => hU1, fun h0 => absurd rfl h0⟩
  · rename_i prev p
    obtain ⟨hprev, hpn, hsz⟩ := hr1 prev p rfl
    have hpF : p ∈ g1.F := by rw [hpn]; exact (w1.succ prev hprev).1
    have hps : p ≠ s1.self := by
      intro he; rw [he, w1.self_size] at hsz; omega
    have hpU : p ∉ g1.U := w1.FU p hpF
    have hprevU : prev ∉ g1.U := w1.FU prev hprev
    split at hr
    · rename_i hex
      simp only [bind_ok, pure_ok, deref_ok, Prod.mk.injEq] at hr
      obtain ⟨-, -, rfl, rfl⟩ := hr
      obtain ⟨w2, c2⟩ := wf_unlink w1 c1 hprev hpF hps hpn.symm
        (show ∀ z, (((s1.set_next prev (s1.next p)).set_free prev).set_next p 0).next z = _
          from by intro z; simp only [arena_t.set_next_next_eq, arena_t.set_free_next_eq, poke])
        rfl rfl rfl rfl rfl
      refine ⟨_, w2, c2, by simpa [same_config] using hcf1, by simpa using hb1, ?_,
        ⟨l1, by simpa using hl1⟩, fun h0 => by simp [sizeof_node_t] at h0, fun _ => ?_⟩
      · intro x hx
        have hx1' := hU1 ▸ hx
        have h1 : x ≠ p := fun he => hpU (he ▸ hx1')
        have h2 : x ≠ prev := fun he => hprevU (he ▸ hx1')
        obtain ⟨e1, e2⟩ := hx1 x hx
        exact ⟨by simp [poke, h1, h2, e1], by simp [e2]⟩
      · exact ⟨p, rfl, hU1 ▸ hpU, by rw [← hU1], by simpa using hex, by simp⟩
    · rename_i hex
      have hlt : number_of_units bytes + 1 < s1.size p := by omega
      have hsp := w1.size_lt (Or.inl hpF)
      have hm : (s1.size p + SIZE_T - (number_of_units bytes + 1)) % SIZE_T
          = s1.size p - (number_of_units bytes + 1) := by
        unfold SIZE_T; omega
      simp only [bind_ok, pure_ok, deref_ok, Prod.mk.injEq, hm, arena_t.set_size_size_eq,
        poke_same, ptr_add] at hr
      obtain ⟨-, -, rfl, rfl⟩ := hr
      obtain ⟨w2, c2, hqU⟩ := wf_split w1 c1 hpF hps
        (by omega : 1 ≤ number_of_units bytes + 1) hlt hprev
        (show ∀ z, ((((s1.set_size p (s1.size p - (number_of_units bytes + 1))).set_size
          (p + 16 * (s1.size p - (number_of_units bytes + 1)))
          (number_of_units bytes + 1)).set_free prev).set_next
          (p + 16 * (s1.size p - (number_of_units bytes + 1))) 0).size z = _
          from by intro z; simp only [arena_t.set_next_size_eq, arena_t.set_free_size_eq,
              arena_t.set_size_size_eq, poke])
        (by intro z; simp only [arena_t.set_next_next_eq, arena_t.set_free_next_eq,
              arena_t.set_size_next_eq, poke])
        rfl rfl rfl rfl
      refine ⟨_, w2, c2, by simpa [same_config] using hcf1, by simpa using hb1, ?_,
        ⟨l1, by simpa using hl1⟩, fun h0 => by simp [sizeof_node_t] at h0, fun _ => ?_⟩
      · intro x hx
        have hx1' := hU1 ▸ hx
        have h1 : x ≠ p := fun he => hpU (he ▸ hx1')
        have h2 : x ≠ p + 16 * (s1.size p - (number_of_units bytes + 1)) :=
          fun he => hqU (he ▸ hx1')
        obtain ⟨e1, e2⟩ := hx1 x hx
        exact ⟨by simp [poke, h2, e1], by simp [poke, h1, h2, e2]⟩
      · exact ⟨_, rfl, hU1 ▸ hqU, by rw [← hU1], by simp, by simp⟩

/-! ## The recycle bins -/

theorem ledger_nil {nx : Nat → Nat} {l : List Nat} (h : ledger nx 0 l) : l = [] := by
  cases l with
  | nil => rfl
  | cons pg l => exact absurd h.1.symm h.2.1

theorem ledger_cons {nx : Nat → Nat} {h : Nat} {l : List Nat} (hl : ledger nx h l) (h0 : h ≠ 0) :
    ∃ rest, l = h :: rest ∧ ledger nx (nx h) rest := by
  cases l with
  | nil => exact absurd hl h0
  | cons pg l =>
    obtain ⟨h1, -, h3⟩ := hl
    subst h1
    exact ⟨l, rfl, h3⟩

/-- The bins after the head `n` of `bins[i]` has been popped and has left the
blocks off the list, the other headers off the list being untouched. -/
theorem binned_pop {s s' : arena_t} {g g' : layout} {L L' : Finset Nat} {B : Nat → List Nat}
    {i n : Nat} {rest : List Nat} (hb : binned s g L B) (hi : B i = n :: rest)
    (hL : ∀ x, x ∈ L' ↔ x ∈ L ∨ (x = n ∧ n ∈ g'.U))
    (hU : ∀ x, x ∈ g'.U ↔ (x ∈ g.U ∧ x ≠ n) ∨ (x = n ∧ n ∈ L'))
    (hbin : ∀ b, s'.bin b = if b = i then s.next n else s.bin b)
    (hT : s'.recycle_smaller_then_bytes = s.recycle_smaller_then_bytes)
    (hx : ∀ x ∈ g.U, x ≠ n → s'.next x = s.next x ∧ s'.size x = s.size x) :
    binned s' g' L' (Function.update B i rest) := by
  have hn := hb.mem i n (by rw [hi]; exact List.mem_cons_self _ _)
  have hnd := hb.nodup i
  rw [hi] at hnd
  obtain ⟨hnr, hrn⟩ := List.nodup_cons.1 hnd
  have hmem : ∀ b, ∀ x ∈ Function.update B i rest b, x ∈ B b ∧ x ≠ n := by
    intro b x hxb
    by_cases hbi : b = i
    · subst hbi
      rw [Function.update_same] at hxb
      exact ⟨by rw [hi]; exact List.mem_cons_of_mem _ hxb, fun he => hnr (he ▸ hxb)⟩
    · rw [Function.update_noteq hbi] at hxb
      refine ⟨hxb, fun he => ?_⟩
      subst he
      have h1 := (hb.mem b x hxb).2.2.1
      have h2 := hn.2.2.1
      omega
  constructor
  · intro x hxL
    rcases (hL x).1 hxL with h1 | ⟨rfl, h2⟩
    · exact (hU x).2 (Or.inl ⟨hb.live_U x h1, fun he => hn.2.1 (he ▸ h1)⟩)
    · exact h2
  · intro b
    have hc := hb.chain b
    by_cases hbi : b = i
    · subst hbi
      rw [Function.update_same, hbin, if_pos rfl]
      rw [hi] at hc
      refine ledger_congr (fun x hxr => ?_) hc.2.2
      have hxU := (hb.mem b x (by rw [hi]; exact List.mem_cons_of_mem _ hxr)).1
      exact (hx x hxU (fun he => hnr (he ▸ hxr))).1
    · rw [Function.update_noteq hbi, hbin, if_neg hbi]
      refine ledger_congr (fun x hxb => ?_) hc
      have hxn : x ≠ n := (hmem b x (by rw [Function.update_noteq hbi]; exact hxb)).2
      exact (hx x (hb.mem b x hxb).1 hxn).1
  · intro b x hxb
    obtain ⟨h1, h2⟩ := hmem b x hxb
    obtain ⟨m1, m2, m3, m4⟩ := hb.mem b x h1
    refine ⟨(hU x).2 (Or.inl ⟨m1, h2⟩), fun hl => ?_, ?_, by rw [hT]; exact m4⟩
    · rcases (hL x).1 hl with h3 | ⟨h3, -⟩
      · exact m2 h3
      · exact h2 h3
    · rw [(hx x m1 h2).2]; exact m3
  · intro b
    by_cases hbi : b = i
    · subst hbi; rw [Function.update_same]; exact hrn
    · rw [Function.update_noteq hbi]; exact hb.nodup b
  · intro x hxU
    rcases (hU x).1 hxU with ⟨h1, h2⟩ | ⟨rfl, h2⟩
    · rcases hb.part x h1 with h3 | ⟨b, h3⟩
      · exact Or.inl ((hL x).2 (Or.inl h3))
      · right
        refine ⟨b, ?_⟩
        by_cases hbi : b = i
        · subst hbi
          rw [Function.update_same]
          rw [hi] at h3
          exact (List.mem_cons.1 h3).resolve_left h2
        · rw [Function.update_noteq hbi]; exact h3
    · exact Or.inl h2

/-- The bins do not see a change that leaves alone the headers of the blocks
off the list, the bins array and the threshold. -/
theorem binned_frame {s s' : arena_t} {g g' : layout} {L : Finset Nat} {B : Nat → List Nat}
    (hb : binned s g L B) (hU : g'.U = g.U) (hbin : s'.bin = s.bin)
    (hT : s'.recycle_smaller_then_bytes = s.recycle_smaller_then_bytes)
    (hx : ∀ x ∈ g.U, s'.next x = s.next x ∧ s'.size x = s.size x) : binned s' g' L B := by
  constructor
  · intro x hxL; rw [hU]; exact hb.live_U x hxL
  · intro b
    rw [hbin]
    exact ledger_congr (fun x hxb => (hx x (hb.mem b x hxb).1).1) (hb.chain b)
  · intro b x hxb
    obtain ⟨m1, m2, m3, m4⟩ := hb.mem b x hxb
    exact ⟨hU ▸ m1, m2, by rw [(hx x m1).2]; exact m3, by rw [hT]; exact m4⟩
  · exact hb.nodup
  · intro x hxU; rw [hU] at hxU; exact hb.part x hxU

/-- A block fresh from the free list is handed out. -/
theorem binned_insert {s s' : arena_t} {g g' : layout} {L : Finset Nat} {B : Nat → List Nat}
    {hdr : Nat} (hb : binned s g L B) (hn : hdr ∉ g.U) (hU : g'.U = insert hdr g.U)
    (hbin : s'.bin = s.bin)
    (hT : s'.recycle_smaller_then_bytes = s.recycle_smaller_then_bytes)
    (hx : ∀ x ∈ g.U, s'.next x = s.next x ∧ s'.size x = s.size x) :
    binned s' g' (insert hdr L) B := by
  constructor
  · intro x hxL
    rw [hU]
    rcases Finset.mem_insert.1 hxL with rfl | h1
    · exact Finset.mem_insert_self _ _
    · exact Finset.mem_insert_of_mem (hb.live_U x h1)
  · intro b
    rw [hbin]
    exact ledger_congr (fun x hxb => (hx x (hb.mem b x hxb).1).1) (hb.chain b)
  · intro b x hxb
    obtain ⟨m1, m2, m3, m4⟩ := hb.mem b x hxb
    refine ⟨by rw [hU]; exact Finset.mem_insert_of_mem m1, fun hl => ?_,
      by rw [(hx x m1).2]; exact m3, by rw [hT]; exact m4⟩
    rcases Finset.mem_insert.1 hl with rfl | h1
    · exact hn m1
    · exact m2 h1
  · exact hb.nodup
  · intro x hxU
    rw [hU] at hxU
    rcases Finset.mem_insert.1 hxU with rfl | h1
    · exact Or.inl (Finset.mem_insert_self _ _)
    · rcases hb.part x h1 with h2 | h2
      · exact Or.inl (Finset.mem_insert_of_mem h2)
      · exact Or.inr h2

/-- A block handed out goes back to the free list. -/
theorem binned_erase {s s' : arena_t} {g g' : layout} {L : Finset Nat} {B : Nat → List Nat}
    {hdr : Nat} (hb : binned s g L B) (hl : hdr ∈ L) (hU : g'.U = g.U.erase hdr)
    (hbin : s'.bin = s.bin)
    (hT : s'.recycle_smaller_then_bytes = s.recycle_smaller_then_bytes)
    (hx : ∀ x ∈ g.U, x ≠ hdr → s'.next x = s.next x ∧ s'.size x = s.size x) :
    binned s' g' (L.erase hdr) B := by
  have hne : ∀ b, ∀ x ∈ B b, x ≠ hdr := fun b x hxb he => (hb.mem b x hxb).2.1 (he ▸ hl)
  constructor
  · intro x hxL
    obtain ⟨h1, h2⟩ := Finset.mem_erase.1 hxL
    rw [hU]
    exact Finset.mem_erase.2 ⟨h1, hb.live_U x h2⟩
  · intro b
    rw [hbin]
    exact ledger_congr (fun x hxb => (hx x (hb.mem b x hxb).1 (hne b x hxb)).1) (hb.chain b)
  · intro b x hxb
    obtain ⟨m1, m2, m3, m4⟩ := hb.mem b x hxb
    exact ⟨by rw [hU]; exact Finset.mem_erase.2 ⟨hne b x hxb, m1⟩,
      fun h1 => m2 (Finset.mem_of_mem_erase h1),
      by rw [(hx x m1 (hne b x hxb)).2]; exact m3, by rw [hT]; exact m4⟩
  · exact hb.nodup
  · intro x hxU
    rw [hU] at hxU
    obtain ⟨h1, h2⟩ := Finset.mem_erase.1 hxU
    rcases hb.part x h2 with h3 | h3
    · exact Or.inl (Finset.mem_erase.2 ⟨h1, h3⟩)
    · exact Or.inr h3

/-- A block handed out is pushed on the bin of its size. -/
theorem binned_push {s s' : arena_t} {g : layout} {L : Finset Nat} {B : Nat → List Nat}
    {hdr i : Nat} (hb : binned s g L B) (hl : hdr ∈ L) (h0 : hdr ≠ 0)
    (hsz : 16 * s.size hdr = i + 16) (hi : i < s.recycle_smaller_then_bytes)
    (hnx : ∀ x, s'.next x = if x = hdr then s.bin i else s.next x)
    (hsize : s'.size = s.size)
    (hbin : ∀ b, s'.bin b = if b = i then hdr else s.bin b)
    (hT : s'.recycle_smaller_then_bytes = s.recycle_smaller_then_bytes) :
    binned s' g (L.erase hdr) (Function.update B i (hdr :: B i)) := by
  have hne : ∀ b, ∀ x ∈ B b, x ≠ hdr := fun b x hxb he => (hb.mem b x hxb).2.1 (he ▸ hl)
  constructor
  · intro x hxL
    exact hb.live_U x (Finset.mem_of_mem_erase hxL)
  · intro b
    by_cases hbi : b = i
    · subst hbi
      rw [Function.update_same, hbin, if_pos rfl]
      refine ⟨rfl, h0, ?_⟩
      rw [hnx hdr, if_pos rfl]
      refine ledger_congr (fun x hxb => ?_) (hb.chain b)
      rw [hnx x, if_neg (hne b x hxb)]
    · rw [Function.update_noteq hbi, hbin, if_neg hbi]
      refine ledger_congr (fun x hxb => ?_) (hb.chain b)
      rw [hnx x, if_neg (hne b x hxb)]
  · intro b x hxb
    by_cases hbi : b = i
    · subst hbi
      rw [Function.update_same] at hxb
      rcases List.mem_cons.1 hxb with rfl | h1
      · exact ⟨hb.live_U x hl, Finset.not_mem_erase _ _, by rw [hsize]; exact hsz,
          by rw [hT]; exact hi⟩
      · obtain ⟨m1, m2, m3, m4⟩ := hb.mem b x h1
        exact ⟨m1, fun h2 => m2 (Finset.mem_of_mem_erase h2), by rw [hsize]; exact m3,
          by rw [hT]; exact m4⟩
    · rw [Function.update_noteq hbi] at hxb
      obtain ⟨m1, m2, m3, m4⟩ := hb.mem b x hxb
      exact ⟨m1, fun h2 => m2 (Finset.mem_of_mem_erase h2), by rw [hsize]; exact m3,
        by rw [hT]; exact m4⟩
  · intro b
    by_cases hbi : b = i
    · subst hbi
      rw [Function.update_same]
      exact List.nodup_cons.2 ⟨fun h1 => hne b hdr h1 rfl, hb.nodup b⟩
    · rw [Function.update_noteq hbi]; exact hb.nodup b
  · intro x hxU
    by_cases hxh : x = hdr
    · right
      exact ⟨i, by rw [Function.update_same, hxh]; exact List.mem_cons_self _ _⟩
    · rcases hb.part x hxU with h1 | ⟨b, h1⟩
      · exact Or.inl (Finset.mem_erase.2 ⟨hxh, h1⟩)
      · right
        refine ⟨b, ?_⟩
        by_cases hbi : b = i
        · subst hbi; rw [Function.update_same]; exact List.mem_cons_of_mem _ h1
        · rw [Function.update_noteq hbi]; exact h1

/-! ## `heap_free` keeps the invariant -/

theorem wf.used_size {s : arena_t} {g : layout} (h : wf s g) {x : Nat} (hx : x ∈ g.U) :
    1 ≤ s.size x ∧ 16 * s.size x < 2 ^ 64 := by
  have hs : x ≠ s.self := fun he => h.self_not_U (he ▸ hx)
  obtain ⟨pg, hp, -, -, -, h4⟩ := h.paged x (Or.inr hx) hs
  exact ⟨h4, h.size_lt (Or.inr hx)⟩

/-- Partial correctness of `heap_free` on a pointer the caller holds: its block
leaves the blocks handed out, into a bin or into the free list, the invariant
holds again, and the backing allocator is not called. -/
theorem heap_free_sound {s : arena_t} {g : layout} {L : Finset Nat} {B : Nat → List Nat}
    (hi : inv s g L B) {hdr : Nat} (hl : hdr ∈ L) {asserts : Bool} {fuel : Nat} {s' : arena_t}
    (hr : heap_free asserts fuel s (hdr + sizeof_node_t) = .ok s') :
    ∃ g' B', inv s' g' (L.erase hdr) B' ∧ s'.log = s.log ∧ same_config s s' := by
  obtain ⟨w, c, bn, pc⟩ := hi
  have hU := bn.live_U hdr hl
  obtain ⟨hs1, hs2⟩ := w.used_size hU
  have h0 : hdr ≠ 0 := w.node_pos (Or.inr hU)
  have ha : hdr + sizeof_node_t ≠ 0 := by unfold sizeof_node_t; omega
  have hsub : hdr + sizeof_node_t - sizeof_node_t = hdr := by omega
  have hbytes : (s.size hdr + SIZE_T - 1) % SIZE_T * sizeof_node_t % SIZE_T
      = 16 * s.size hdr - 16 := by
    unfold SIZE_T sizeof_node_t; omega
  simp only [heap_free, if_pos ha, heap_alloc_usable_size, hsub, bind_ok, deref_ok, c_assert_ok,
    pure_ok, hbytes] at hr
  obtain ⟨bytes, ⟨-, -, -, -, rfl⟩, hr⟩ := hr
  split at hr
  · obtain ⟨g', w', c', hU', -, -, hff, hx⟩ := arena_free_sound w c hU hr
    refine ⟨g', B, ⟨w', c', ?_, page_config_congr hff.1 pc⟩, hff.2.2.1, hff.1⟩
    refine binned_erase bn hl hU' hff.2.1 hff.1.2.2.1 (fun x hxU hxh => ?_)
    refine hx x ?_
    simp only [Finset.mem_insert]
    push_neg
    exact ⟨hxh, fun hf => w.FU x hf hxU⟩
  · rename_i hlt
    simp only [bind_ok, c_assert_ok, bins_get_ok, pure_ok] at hr
    obtain ⟨-, -, b, ⟨-, rfl⟩, rfl⟩ := hr
    have hF : hdr ∉ g.F := fun hf => w.FU hdr hf hU
    have hP := fun hp => (w.page_not_node hp).1 (Or.inr hU)
    refine ⟨g, Function.update B (16 * s.size hdr - 16) (hdr :: B (16 * s.size hdr - 16)),
      ⟨?_, ?_, ?_, pc⟩, rfl, ⟨rfl, rfl, rfl, rfl⟩⟩
    · refine wf_congr w (fun x hx => ?_) (fun pg hp => ?_) (fun _ _ => rfl) (fun _ _ => rfl)
        rfl rfl rfl (fun _ hc' => hc')
      · have hne : x ≠ hdr := fun he => hF (he ▸ hx)
        simp [poke, hne]
      · have hne : pg ≠ hdr := fun he => hP (he ▸ hp)
        simp [poke, hne]
    · exact coalesced_congr c (fun _ _ => rfl) rfl
    · exact binned_push bn hl h0 (i := 16 * s.size hdr - 16) (by omega) (by omega)
        (by intro x; simp [poke]) rfl (by intro b; simp [poke]) rfl

/-! ## `heap_compact` empties the bins -/

theorem kept_refl (s : arena_t) (g : layout) (L : Finset Nat) : kept s s g g L :=
  ⟨same_config_refl s, rfl, rfl, rfl, rfl, fun _ _ => ⟨rfl, rfl⟩, fun _ _ => ⟨rfl, rfl⟩⟩

theorem kept_trans {s s1 s2 : arena_t} {g g1 g2 : layout} {L : Finset Nat}
    (h1 : kept s s1 g g1 L) (h2 : kept s1 s2 g1 g2 L) : kept s s2 g g2 L := by
  obtain ⟨a1, a2, a3, a4, a5, a6, a7⟩ := h1
  obtain ⟨b1, b2, b3, b4, b5, b6, b7⟩ := h2
  refine ⟨same_config_trans a1 b1, b2.trans a2, b3.trans a3, b4.trans a4, b5.trans a5,
    fun x hx => ?_, fun pg hp => ?_⟩
  · exact ⟨(b6 x hx).1.trans (a6 x hx).1, (b6 x hx).2.trans (a6 x hx).2⟩
  · have hp1 : pg ∈ g1.P := a5 ▸ hp
    exact ⟨(b7 pg hp1).1.trans (a7 pg hp).1, (b7 pg hp1).2.trans (a7 pg hp).2⟩

theorem heap_compact_bin_succ (i fuel : Nat) (s : arena_t) :
    heap_compact_bin i (fuel + 1) s =
      (bins_get s i >>= fun n =>
        if n = 0 then pure s
        else (arena_free fuel ((s.set_bin i (s.next n)).set_next n 0) (n + sizeof_node_t)
          >>= fun s => heap_compact_bin i fuel s)) := rfl

/-- One step of the inner loop of `heap_compact`: the head of `bins[i]` is
popped and given to `arena_free`. -/
theorem compact_step {s : arena_t} {g : layout} {L : Finset Nat} {B : Nat → List Nat}
    (hi : inv s g L B) {i n : Nat} (hn : s.bin i = n) (hn0 : n ≠ 0) :
    ∃ rest, B i = n :: rest ∧ n ∈ g.U ∧
      wf ((s.set_bin i (s.next n)).set_next n 0) g ∧
      coalesced ((s.set_bin i (s.next n)).set_next n 0) g ∧
      ∀ fuel s2 g2, arena_free fuel ((s.set_bin i (s.next n)).set_next n 0)
          (n + sizeof_node_t) = .ok s2 →
        wf s2 g2 → coalesced s2 g2 → g2.U = g.U.erase n → g2.P = g.P →
        g2.F ⊆ insert n g.F →
        (∀ x, x ∉ insert n g.F → s2.next x = ((s.set_bin i (s.next n)).set_next n 0).next x ∧
          s2.size x = ((s.set_bin i (s.next n)).set_next n 0).size x) →
        inv s2 g2 L (Function.update B i rest) ∧ kept s s2 g g2 L ∧ g2.weight + 1 ≤ g.weight := by
  obtain ⟨w, c, bn, pc⟩ := hi
  have hch := bn.chain i
  rw [hn] at hch
  obtain ⟨rest, hB, -⟩ := ledger_cons hch hn0
  have hm := bn.mem i n (by rw [hB]; exact List.mem_cons_self _ _)
  have hU := hm.1
  have hF : n ∉ g.F := fun hf => w.FU n hf hU
  have hP := fun {pg} (hp : pg ∈ g.P) (he : pg = n) => (w.page_not_node hp).1 (Or.inr (he ▸ hU))
  refine ⟨rest, hB, hU, ?_, coalesced_congr c (fun _ _ => rfl) rfl, ?_⟩
  · refine wf_congr w (fun x hx => ?_) (fun pg hp => ?_) (fun _ _ => rfl) (fun _ _ => rfl)
      rfl rfl rfl (fun _ hc' => hc')
    · have hne : x ≠ n := fun he => hF (he ▸ hx)
      simp [poke, hne]
    · have hne : pg ≠ n := hP hp
      simp [poke, hne]
  · intro fuel s2 g2 hfr w2 c2 hU2 hP2 hF2 hx
    have hff := arena_free_frame hfr
    have hcf : same_config s s2 := by simpa [same_config] using hff.1
    refine ⟨⟨w2, c2, ?_, page_config_congr hcf pc⟩, ?_, ?_⟩
    · refine binned_pop bn hB (fun x => ?_) (fun x => ?_) (fun b => ?_) hcf.2.2.1
        (fun x hxU hxn => ?_)
      · rw [hU2]; simp
      · rw [hU2]
        simp only [Finset.mem_erase]
        constructor
        · rintro ⟨h1, h2⟩; exact Or.inl ⟨h2, h1⟩
        · rintro (⟨h1, h2⟩ | ⟨-, h2⟩)
          · exact ⟨h2, h1⟩
          · exact absurd h2 hm.2.1
      · rw [hff.2.1]; simp [poke]
      · obtain ⟨e1, e2⟩ := hx x (by
          simp only [Finset.mem_insert]; push_neg
          exact ⟨hxn, fun hf => w.FU x hf hxU⟩)
        rw [e1, e2]
        simp [poke, hxn]
    · refine ⟨hcf, by simpa using hff.2.2.1, by simpa using hff.2.2.2.1,
        by simpa using hff.2.2.2.2, hP2, fun x hxL => ?_, fun pg hp => ?_⟩
      · have hxU := bn.live_U x hxL
        have hxn : x ≠ n := fun he => hm.2.1 (he ▸ hxL)
        obtain ⟨e1, e2⟩ := hx x (by
          simp only [Finset.mem_insert]; push_neg
          exact ⟨hxn, fun hf => w.FU x hf hxU⟩)
        rw [e1, e2]
        simp [poke, hxn]
      · have hxn : pg ≠ n := hP hp
        obtain ⟨e1, e2⟩ := hx pg (by
          simp only [Finset.mem_insert]; push_neg
          exact ⟨hxn, fun hf => (w.page_not_node hp).1 (Or.inl hf)⟩)
        rw [e1, e2]
        simp [poke, hxn]
    · have h1 : g2.F.card ≤ g.F.card + 1 :=
        (Finset.card_le_card hF2).trans (Finset.card_insert_le _ _)
      have h2 : g2.U.card + 1 = g.U.card := by
        rw [hU2]; exact Finset.card_erase_add_one hU
      unfold layout.weight
      omega

/-- The inner loop of `heap_compact`: if it returns, `bins[i]` is empty and
the invariant holds; and it does return once the fuel exceeds the weight of the
layout, the bins array being allocated. -/
theorem heap_compact_bin_spec (i : Nat) : ∀ (fuel : Nat) {s : arena_t} {g : layout}
    {L : Finset Nat} {B : Nat → List Nat}, inv s g L B →
    (∀ s', heap_compact_bin i fuel s = .ok s' →
      ∃ g', inv s' g' L (Function.update B i []) ∧ kept s s' g g' L ∧ g'.weight ≤ g.weight) ∧
    (s.bins ≠ 0 → g.weight < fuel → ∃ s', heap_compact_bin i fuel s = .ok s') := by
  intro fuel
  induction fuel with
  | zero =>
    intro s g L B _
    exact ⟨fun s' h => by simp [heap_compact_bin] at h, fun _ h => by omega⟩
  | succ fuel ih =>
    intro s g L B hi
    rw [heap_compact_bin_succ]
    by_cases hn0 : s.bin i = 0
    · have hB : B i = [] := ledger_nil (hn0 ▸ hi.bn.chain i)
      have hBu : Function.update B i [] = B := by rw [← hB]; exact Function.update_eq_self i B
      refine ⟨fun s' h => ?_, fun hb _ => ⟨s, ?_⟩⟩
      · simp only [bind_ok, bins_get_ok] at h
        obtain ⟨n, ⟨-, rfl⟩, h⟩ := h
        rw [if_pos hn0, pure_ok] at h
        subst h
        exact ⟨g, by rw [hBu]; exact hi, kept_refl _ _ _, le_refl _⟩
      · rw [bins_get_of_ne hb, ok_bind, if_pos hn0]; rfl
    · obtain ⟨rest, hB, hU, w1, c1, hstep⟩ := compact_step hi rfl hn0
      have hupd : Function.update (Function.update B i rest) i [] = Function.update B i [] :=
        Function.update_idem _ _ _
      refine ⟨fun s' h => ?_, fun hb hfuel => ?_⟩
      · simp only [bind_ok, bins_get_ok] at h
        obtain ⟨n, ⟨-, rfl⟩, h⟩ := h
        rw [if_neg hn0] at h
        simp only [bind_ok] at h
        obtain ⟨s2, hfr, h2⟩ := h
        obtain ⟨g2, w2, c2, hU2, hP2, hF2, -, hx2⟩ := arena_free_sound w1 c1 hU hfr
        obtain ⟨i2, k2, wt2⟩ := hstep fuel s2 g2 hfr w2 c2 hU2 hP2 hF2 hx2
        obtain ⟨g', i3, k3, wt3⟩ := (ih i2).1 s' h2
        exact ⟨g', by rw [← hupd]; exact i3, kept_trans k2 k3, by omega⟩
      · have hw : 2 * g.F.card < fuel := by
          have : 1 ≤ g.U.card := Finset.card_pos.2 ⟨_, hU⟩
          unfold layout.weight at hfuel; omega
        obtain ⟨s2, g2, hfr, w2, c2, hU2, hP2, hF2, -, hx2⟩ := arena_free_spec w1 c1 hU hw
        obtain ⟨i2, k2, wt2⟩ := hstep fuel s2 g2 hfr w2 c2 hU2 hP2 hF2 hx2
        obtain ⟨s', h'⟩ := (ih i2).2 (by rw [k2.1.2.2.2]; exact hb) (by omega)
        refine ⟨s', ?_⟩
        rw [bins_get_of_ne hb, ok_bind, if_neg hn0, hfr, ok_bind]
        exact h'

theorem heap_compact_loop_succ (fuel k i : Nat) (s : arena_t) :
    heap_compact_loop fuel (k + 1) i s =
      (heap_compact_bin i fuel s >>= fun s =>
        if i + 1 > INT_MAX then .error .int_overflow
        else heap_compact_loop fuel k (i + 1) s) := rfl

/-- The outer loop of `heap_compact` over the bins `i`, ..., `i + k - 1`. -/
theorem heap_compact_loop_spec (fuel : Nat) : ∀ (k i : Nat) {s : arena_t} {g : layout}
    {L : Finset Nat} {B : Nat → List Nat}, inv s g L B →
    (∀ s', heap_compact_loop fuel k i s = .ok s' →
      ∃ g' B', inv s' g' L B' ∧ kept s s' g g' L ∧ g'.weight ≤ g.weight ∧
        (∀ b, B' b = if i ≤ b ∧ b < i + k then [] else B b)) ∧
    ((k ≠ 0 → s.bins ≠ 0) → (k ≠ 0 → i + k ≤ INT_MAX) → g.weight < fuel →
      ∃ s', heap_compact_loop fuel k i s = .ok s') := by
  intro k
  induction k with
  | zero =>
    intro i s g L B hi
    refine ⟨fun s' h => ?_, fun _ _ _ => ⟨s, rfl⟩⟩
    simp only [heap_compact_loop, Except.ok.injEq] at h
    subst h
    refine ⟨g, B, hi, kept_refl _ _ _, le_refl _, fun b => ?_⟩
    rw [if_neg (by omega)]
  | succ k ih =>
    intro i s g L B hi
    rw [heap_compact_loop_succ]
    obtain ⟨hp, ht⟩ := heap_compact_bin_spec i fuel hi
    refine ⟨fun s' h => ?_, fun hb hint hfuel => ?_⟩
    · simp only [bind_ok] at h
      obtain ⟨s1, h1, h2⟩ := h
      split at h2
      · cases h2
      · obtain ⟨g1, i1, k1, w1⟩ := hp s1 h1
        obtain ⟨g', B', i2, k2, w2, hB⟩ := (ih (i + 1) i1).1 s' h2
        refine ⟨g', B', i2, kept_trans k1 k2, by omega, fun b => ?_⟩
        rw [hB b]
        by_cases hbi : b = i
        · subst hbi
          rw [if_neg (by omega), Function.update_same, if_pos (by omega)]
        · rw [Function.update_noteq hbi]
          by_cases hc : i + 1 ≤ b ∧ b < i + 1 + k
          · rw [if_pos hc, if_pos (by omega)]
          · rw [if_neg hc, if_neg (by omega)]
    · have hb0 := hb (Nat.succ_ne_zero k)
      have hint0 := hint (Nat.succ_ne_zero k)
      obtain ⟨s1, h1⟩ := ht hb0 hfuel
      obtain ⟨g1, i1, k1, w1⟩ := hp s1 h1
      obtain ⟨s', h'⟩ := (ih (i + 1) i1).2 (fun _ => by rw [k1.1.2.2.2]; exact hb0)
        (fun _ => by omega) (by omega)
      refine ⟨s', ?_⟩
      rw [h1, ok_bind, if_neg (by omega)]
      exact h'

/-- Partial correctness of `heap_compact`: if it returns, every bin is empty,
the blocks off the free list are exactly those handed out, and the invariant
holds. -/
theorem heap_compact_sound {s : arena_t} {g : layout} {L : Finset Nat} {B : Nat → List Nat}
    (hi : inv s g L B) {fuel : Nat} {s' : arena_t} (hr : heap_compact fuel s = .ok s') :
    ∃ g', inv s' g' L (fun _ => []) ∧ kept s s' g g' L ∧ g'.weight ≤ g.weight ∧ g'.U = L := by
  obtain ⟨g', B', i1, k1, w1, hB⟩ := (heap_compact_loop_spec fuel _ 0 hi).1 s' hr
  have hB' : B' = fun _ => [] := by
    funext b
    rw [hB b]
    split
    · rfl
    · rename_i hc
      refine List.eq_nil_iff_forall_not_mem.2 (fun x hx => ?_)
      have := (hi.bn.mem b x hx).2.2.2
      omega
  subst hB'
  refine ⟨g', i1, k1, w1, Finset.ext (fun x => ⟨fun hx => ?_, fun hx => i1.bn.live_U x hx⟩)⟩
  rcases i1.bn.part x hx with h1 | ⟨b, h1⟩
  · exact h1
  · simp at h1

/-- Termination of `heap_compact`: it returns when the bins array exists (or
the threshold is 0), the threshold fits the `int` counter and the fuel exceeds
the weight of the layout. -/
theorem heap_compact_total {s : arena_t} {g : layout} {L : Finset Nat} {B : Nat → List Nat}
    (hi : inv s g L B) {fuel : Nat} (hb : s.recycle_smaller_then_bytes ≠ 0 → s.bins ≠ 0)
    (hint : s.recycle_smaller_then_bytes ≤ INT_MAX) (hfuel : g.weight < fuel) :
    ∃ s', heap_compact fuel s = .ok s' :=
  (heap_compact_loop_spec fuel _ 0 hi).2 hb (fun _ => by omega) hfuel

/-! ## `heap_alloc` keeps the invariant -/

/-- The slow path of `heap_alloc` through `arena_alloc`. -/
theorem arena_alloc_inv {s : arena_t} {g : layout} {L : Finset Nat} {B : Nat → List Nat}
    (hi : inv s g L B) {n fuel a : Nat} {s' : arena_t} (hn : n ≤ 2 ^ 64 - 48)
    (hr : arena_alloc fuel s n = .ok (a, s')) (hlog : regions_disjoint s'.log) :
    ∃ g', same_config s s' ∧ (∃ l, s'.log = s.log ++ l) ∧
      (a = 0 → inv s' g' L B) ∧
      (a ≠ 0 → ∃ hdr, a = hdr + sizeof_node_t ∧ hdr ∉ L ∧ inv s' g' (insert hdr L) B ∧
        s'.size hdr = number_of_units n + 1 ∧ s'.next hdr = 0) := by
  obtain ⟨w, c, bn, pc⟩ := hi
  obtain ⟨g', w', c', hcf, hbin, hx, hl, h0, h1⟩ := arena_alloc_sound w c pc hn hr hlog
  refine ⟨g', hcf, hl, fun ha => ?_, fun ha => ?_⟩
  · exact ⟨w', c', binned_frame bn (h0 ha) hbin hcf.2.2.1 hx, page_config_congr hcf pc⟩
  · obtain ⟨hdr, e1, e2, e3, e4, e5⟩ := h1 ha
    exact ⟨hdr, e1, fun hl' => e2 (bn.live_U hdr hl'),
      ⟨w', c', binned_insert bn e2 e3 hbin hcf.2.2.1 hx, page_config_congr hcf pc⟩, e4, e5⟩

/-- Partial correctness of `heap_alloc` for requests whose unit count does not
overflow: the invariant holds again, and a non-null result is the address after
the header of a block the caller did not hold, of the unit count of the request
plus one. -/
theorem heap_alloc_sound {s : arena_t} {g : layout} {L : Finset Nat} {B : Nat → List Nat}
    (hi : inv s g L B) {n fuel p : Nat} {asserts : Bool} {s' : arena_t} (hn : n ≤ 2 ^ 64 - 48)
    (hr : heap_alloc asserts fuel s n = .ok (p, s')) (hlog : regions_disjoint s'.log) :
    ∃ g' B', same_config s s' ∧ (∃ l, s'.log = s.log ++ l) ∧
      (p = 0 → inv s' g' L B') ∧
      (p ≠ 0 → ∃ hdr, p = hdr + sizeof_node_t ∧ hdr ∉ L ∧ inv s' g' (insert hdr L) B' ∧
        s'.size hdr = number_of_units n + 1) := by
  obtain ⟨hu1, hu2⟩ := number_of_units_le hn
  have hbytes : number_of_units n * sizeof_node_t % SIZE_T = 16 * number_of_units n := by
    unfold SIZE_T sizeof_node_t; omega
  simp only [heap_alloc, hbytes, bind_ok] at hr
  obtain ⟨slow, hslow, hr⟩ := hr
  split at hr
  · -- through the free list
    simp only [bind_ok] at hr
    obtain ⟨⟨a, s1⟩, h1, ⟨a2, s2⟩, h2, h3⟩ := hr
    have hfin : a2 = p ∧ s2 = s' := by
      simp only at h3
      split at h3
      · simp only [bind_ok, pure_ok, Prod.mk.injEq] at h3
        obtain ⟨-, -, -, -, h⟩ := h3
        exact h
      · simp only [pure_ok, Prod.mk.injEq] at h3
        exact h3
    obtain ⟨rfl, rfl⟩ := hfin
    simp only at h2
    split at h2
    · rename_i ha0
      simp only [bind_ok] at h2
      obtain ⟨s3, h4, h5⟩ := h2
      obtain ⟨l5, hl5⟩ := arena_alloc_log h5
      have hlog3 : regions_disjoint s3.log := by
        rw [hl5] at hlog; exact regions_disjoint_prefix hlog
      have hlog1 : regions_disjoint s1.log := by
        rw [← heap_compact_log h4]; exact hlog3
      obtain ⟨g1, hcf1, ⟨l1, hl1⟩, hi1, -⟩ := arena_alloc_inv hi hn h1 hlog1
      obtain ⟨g3, i3, k3, -, -⟩ := heap_compact_sound (hi1 ha0) h4
      obtain ⟨g2, hcf2, ⟨l2, hl2⟩, hi2, hi2'⟩ := arena_alloc_inv i3 hn h5 hlog
      refine ⟨g2, fun _ => [], same_config_trans (same_config_trans hcf1 k3.1) hcf2,
        ⟨l1 ++ l2, by rw [hl2, k3.2.1, hl1, List.append_assoc]⟩, hi2, fun hp => ?_⟩
      obtain ⟨hdr, e1, e2, e3, e4, -⟩ := hi2' hp
      exact ⟨hdr, e1, e2, e3, e4⟩
    · rename_i ha0
      simp only [pure_ok, Prod.mk.injEq] at h2
      obtain ⟨rfl, rfl⟩ := h2
      obtain ⟨g1, hcf1, hl1, hi1, hi1'⟩ := arena_alloc_inv hi hn h1 hlog
      refine ⟨g1, B, hcf1, hl1, hi1, fun hp => ?_⟩
      obtain ⟨hdr, e1, e2, e3, e4, -⟩ := hi1' hp
      exact ⟨hdr, e1, e2, e3, e4⟩
  · -- out of the bin
    rename_i hns
    split at hslow
    · simp only [pure_ok] at hslow
      exact absurd hslow.symm hns
    · rename_i hT
      simp only [bind_ok, bins_get_ok, pure_ok, deref_ok, c_assert_ok, Prod.mk.injEq] at hslow hr
      clear hslow
      obtain ⟨n0, ⟨hb0, rfl⟩, -, hnz, -, -, rfl, rfl⟩ := hr
      obtain ⟨w, c, bn, pc⟩ := hi
      obtain ⟨rest, hB, -⟩ := ledger_cons (bn.chain _) hnz
      have hm := bn.mem _ _ (by rw [hB]; exact List.mem_cons_self _ _)
      have hU := hm.1
      have hF : s.bin (16 * number_of_units n) ∉ g.F := fun hf => w.FU _ hf hU
      refine ⟨g, Function.update B (16 * number_of_units n) rest, ⟨rfl, rfl, rfl, rfl⟩,
        ⟨[], by simp⟩, fun h0 => by simp [sizeof_node_t] at h0, fun _ => ?_⟩
      refine ⟨_, rfl, hm.2.1, ⟨?_, coalesced_congr c (fun _ _ => rfl) rfl, ?_, pc⟩, ?_⟩
      · refine wf_congr w (fun x hx => ?_) (fun pg hp => ?_) (fun _ _ => rfl) (fun _ _ => rfl)
          rfl rfl rfl (fun _ hc' => hc')
        · have hne : x ≠ s.bin (16 * number_of_units n) := fun he => hF (he ▸ hx)
          simp [poke, hne]
        · have hne : pg ≠ s.bin (16 * number_of_units n) :=
            fun he => (w.page_not_node hp).1 (Or.inr (he ▸ hU))
          simp [poke, hne]
      · refine binned_pop bn hB (fun x => ?_) (fun x => ?_) (fun b => ?_) rfl
          (fun x _ hxn => ?_)
        · simp only [Finset.mem_insert]
          constructor
          · rintro (h1 | h1)
            · exact Or.inr ⟨h1, hU⟩
            · exact Or.inl h1
          · rintro (h1 | ⟨h1, -⟩)
            · exact Or.inr h1
            · exact Or.inl h1
        · constructor
          · intro h1
            by_cases hxn : x = s.bin (16 * number_of_units n)
            · exact Or.inr ⟨hxn, Finset.mem_insert_self _ _⟩
            · exact Or.inl ⟨h1, hxn⟩
          · rintro (⟨h1, -⟩ | ⟨h1, -⟩)
            · exact h1
            · rw [h1]; exact hU
        · simp [poke]
        · simp [poke, hxn]
      · have := hm.2.2.1
        simp only [arena_t.set_next_size_eq, arena_t.set_bin_size_eq]
        omega

/-! ## The log along a sequence of calls -/

theorem heap_free_log {asserts : Bool} {fuel : Nat} {s s' : arena_t} {a : Nat}
    (h : heap_free asserts fuel s a = .ok s') : s'.log = s.log := by
  unfold heap_free at h
  split at h
  · simp only [bind_ok] at h
    obtain ⟨bytes, -, h⟩ := h
    split at h
    · exact (arena_free_frame h).2.2.1
    · simp only [bind_ok, pure_ok, bins_get_ok, c_assert_ok] at h
      obtain ⟨-, -, b, -, rfl⟩ := h
      rfl
  · simp only [pure_ok] at h
    subst h
    rfl

theorem heap_alloc_log {asserts : Bool} {fuel : Nat} {s s' : arena_t} {n p : Nat}
    (h : heap_alloc asserts fuel s n = .ok (p, s')) : ∃ l, s'.log = s.log ++ l := by
  simp only [heap_alloc, bind_ok] at h
  obtain ⟨slow, -, h⟩ := h
  split at h
  · simp only [bind_ok] at h
    obtain ⟨⟨a, s1⟩, h1, ⟨a2, s2⟩, h2, h3⟩ := h
    have hfin : s2 = s' := by
      simp only at h3
      split at h3
      · simp only [bind_ok, pure_ok, Prod.mk.injEq] at h3
        obtain ⟨-, -, -, -, -, h⟩ := h3
        exact h
      · simp only [pure_ok, Prod.mk.injEq] at h3
        exact h3.2
    subst hfin
    obtain ⟨l1, hl1⟩ := arena_alloc_log h1
    simp only at h2
    split at h2
    · simp only [bind_ok] at h2
      obtain ⟨s3, h4, h5⟩ := h2
      obtain ⟨l5, hl5⟩ := arena_alloc_log h5
      exact ⟨l1 ++ l5, by rw [hl5, heap_compact_log h4, hl1, List.append_assoc]⟩
    · simp only [pure_ok, Prod.mk.injEq] at h2
      obtain ⟨-, rfl⟩ := h2
      exact ⟨l1, hl1⟩
  · simp only [bind_ok, bins_get_ok, pure_ok, deref_ok, c_assert_ok, Prod.mk.injEq] at h
    obtain ⟨n0, -, -, -, -, -, -, rfl⟩ := h
    exact ⟨[], by simp⟩

theorem step_log {asserts : Bool} {fuel : Nat} {s s' : arena_t} {live live' : List Nat} {o : op}
    (h : step asserts fuel s live o = .ok (s', live')) : ∃ l, s'.log = s.log ++ l := by
  cases o with
  | alloc n =>
    simp only [step, bind_ok, pure_ok, Prod.mk.injEq] at h
    obtain ⟨⟨p, s1⟩, h1, rfl, -⟩ := h
    exact heap_alloc_log h1
  | release p =>
    simp only [step, bind_ok, pure_ok, Prod.mk.injEq] at h
    obtain ⟨s1, h1, rfl, -⟩ := h
    exact ⟨[], by simp [heap_free_log h1]⟩
  | compact =>
    simp only [step, bind_ok, pure_ok, Prod.mk.injEq] at h
    obtain ⟨s1, h1, rfl, -⟩ := h
    exact ⟨[], by simp [heap_compact_log h1]⟩

theorem run_log {asserts : Bool} {fuel : Nat} : ∀ {ops : List op} {s s' : arena_t}
    {live live' : List Nat}, run asserts fuel s live ops = .ok (s', live') →
    ∃ l, s'.log = s.log ++ l
  | [], s, s', live, live', h => by
    simp only [run, Except.ok.injEq, Prod.mk.injEq] at h
    obtain ⟨rfl, -⟩ := h
    exact ⟨[], by simp⟩
  | o :: os, s, s', live, live', h => by
    simp only [run, bind_ok] at h
    obtain ⟨⟨s1, live1⟩, h1, h2⟩ := h
    obtain ⟨l1, hl1⟩ := step_log h1
    obtain ⟨l2, hl2⟩ := run_log h2
    exact ⟨l1 ++ l2, by rw [hl2, hl1, List.append_assoc]⟩

/-! ## The state `heap_create_ex` returns -/

/-- The arena `heap_create_ex` returns satisfies the invariant: the free list is
the sentinel alone, there is no page, no block and no bin. -/
theorem heap_create_ex_inv {asserts debug : Bool} {fuel : Nat} {m : machine} {pmin T h : Nat}
    {s : arena_t} (hr : heap_create_ex asserts debug fuel m pmin T = .ok (h, s)) (hh : h ≠ 0)
    (hp : 4096 ≤ pmin) (hp2 : pmin < 2 ^ 64 - 16) :
    inv s ⟨{h}, ∅, []⟩ ∅ (fun _ => []) ∧ s.self = h ∧
      s.recycle_smaller_then_bytes = T ∧ (1 < T → s.bins ≠ 0) := by
  simp only [heap_create_ex, bind_ok, c_assert_ok, that_alloc, deref_ok] at hr
  obtain ⟨-, -, -, hne, hr⟩ := hr
  rw [if_pos hne] at hr
  have hfin : s.self = h ∧ s.free = h ∧ s.next h = h ∧ s.size h = 0 ∧ s.allocated = 0 ∧
      s.parent_min_alloc_in_bytes = pmin ∧ s.recycle_smaller_then_bytes = T ∧
      s.bin = (fun _ => 0) ∧ call.alloc 80 h ∈ s.log ∧ (1 < T → s.bins ≠ 0) := by
    split at hr
    · rename_i hT
      split at hr
      · rename_i hb
        simp only [pure_ok, Prod.mk.injEq] at hr
        obtain ⟨rfl, rfl⟩ := hr
        refine ⟨rfl, rfl, ?_, ?_, rfl, rfl, rfl, rfl, ?_, fun _ => hb⟩
        · simp [arena_t.zero_bins, arena_t.set_bins, arena_t.called, arena_t.configure,
            arena_memset, arena_of_machine, poke]
        · simp [arena_t.zero_bins, arena_t.set_bins, arena_t.called, arena_t.configure,
            arena_memset, arena_of_machine, poke]
        · simp [arena_t.zero_bins, arena_t.set_bins, arena_t.called, arena_t.configure,
            arena_memset, arena_of_machine, sizeof_arena_t]
      · simp only [bind_ok, pure_ok, Prod.mk.injEq] at hr
        obtain ⟨-, -, h0, -⟩ := hr
        exact absurd h0.symm hh
    · rename_i hT
      simp only [pure_ok, Prod.mk.injEq] at hr
      obtain ⟨rfl, rfl⟩ := hr
      refine ⟨rfl, rfl, ?_, ?_, rfl, rfl, rfl, rfl, ?_, fun h1 => absurd h1 hT⟩
      · simp [arena_t.set_bins, arena_t.called, arena_t.configure,
          arena_memset, arena_of_machine, poke]
      · simp [arena_t.set_bins, arena_t.called, arena_t.configure,
          arena_memset, arena_of_machine, poke]
      · simp [arena_t.set_bins, arena_t.called, arena_t.configure,
          arena_memset, arena_of_machine, sizeof_arena_t]
  clear hr
  obtain ⟨e1, e2, e3, e4, e5, e6, e7, e8, e9, e10⟩ := hfin
  refine ⟨⟨?_, ?_, ?_, ?_⟩, e1, e7, e10⟩
  · constructor
    · rw [e1]; exact hh
    · simp [e1]
    · rw [e1]; exact e4
    · simp [e2]
    · intro f hf
      simp only [Finset.mem_singleton] at hf
      subst hf
      rw [e3]
      refine ⟨Finset.mem_singleton_self _, Or.inr ⟨?_, ?_⟩⟩ <;>
        · intro y hy
          simp only [Finset.mem_singleton] at hy
          omega
    · simp
    · rintro x (hx | hx) hxs
      · simp only [Finset.mem_singleton] at hx
        exact absurd (hx.trans e1.symm) hxs
      · simp at hx
    · rintro x y (hx | hx) (hy | hy) hxy
      · simp only [Finset.mem_singleton] at hx hy
        omega
      · simp at hy
      · simp at hx
      · simp at hx
    · simp
    · simp [e4]
    · simp
    · simp
    · simp
    · simp
    · simp
    · rw [e1]; exact e9
    · simp only [ledger]; exact e5
  · intro x hx y hy hxs
    simp only [Finset.mem_singleton] at hx
    exact absurd (hx.trans e1.symm) hxs
  · constructor
    · simp
    · intro b; rw [e8]; rfl
    · simp
    · simp
    · simp
  · unfold page_config
    rw [e6]
    omega

/-! ## The circular free list is the set `F` -/

theorem csucc_iterate_mem {F : Finset Nat} {nx : Nat → Nat}
    (h : ∀ f ∈ F, csucc F f (nx f)) {f : Nat} (hf : f ∈ F) : ∀ k, nx^[k] f ∈ F
  | 0 => hf
  | k + 1 => by
    rw [Function.iterate_succ_apply']
    exact (h _ (csucc_iterate_mem h hf k)).1

theorem csucc_reach_le {F : Finset Nat} {nx : Nat → Nat} (h : ∀ f ∈ F, csucc F f (nx f)) :
    ∀ (n f x : Nat), f ∈ F → x ∈ F → f ≤ x →
      (F.filter (fun y => f < y ∧ y ≤ x)).card ≤ n → ∃ k, nx^[k] f = x := by
  intro n
  induction n with
  | zero =>
    intro f x hf hx hfx hc
    by_cases he : f = x
    · exact ⟨0, he⟩
    · have hm : x ∈ F.filter (fun y => f < y ∧ y ≤ x) := by
        simp only [Finset.mem_filter]; exact ⟨hx, by omega, le_refl _⟩
      have := Finset.card_pos.2 ⟨x, hm⟩
      omega
  | succ n ih =>
    intro f x hf hx hfx hc
    by_cases he : f = x
    · exact ⟨0, he⟩
    · obtain ⟨hnF, h1 | h1⟩ := h f hf
      · have hle : nx f ≤ x := h1.2 x hx (by omega)
        have hsub : F.filter (fun y => nx f < y ∧ y ≤ x) ⊂ F.filter (fun y => f < y ∧ y ≤ x) := by
          refine Finset.ssubset_iff_subset_ne.2 ⟨?_, ?_⟩
          · intro y hy
            simp only [Finset.mem_filter] at hy ⊢
            exact ⟨hy.1, by omega, hy.2.2⟩
          · intro heq
            have hm : nx f ∈ F.filter (fun y => f < y ∧ y ≤ x) := by
              simp only [Finset.mem_filter]; exact ⟨hnF, h1.1, hle⟩
            rw [← heq] at hm
            simp only [Finset.mem_filter] at hm
            omega
        have hcard := Finset.card_lt_card hsub
        obtain ⟨k, hk⟩ := ih (nx f) x hnF hx hle (by omega)
        exact ⟨k + 1, by rw [Function.iterate_succ_apply]; exact hk⟩
      · have := h1.1 x hx
        omega

/-- Every node of `F` is reached from any node of `F` by following `next`. -/
theorem csucc_reach {F : Finset Nat} {nx : Nat → Nat} (h : ∀ f ∈ F, csucc F f (nx f))
    {f x : Nat} (hf : f ∈ F) (hx : x ∈ F) : ∃ k, nx^[k] f = x := by
  have hne : F.Nonempty := ⟨f, hf⟩
  have hM := F.max'_mem hne
  obtain ⟨k1, hk1⟩ := csucc_reach_le h _ f (F.max' hne) hf hM (F.le_max' f hf) (le_refl _)
  obtain ⟨hnF, h1 | h1⟩ := h _ hM
  · have := F.le_max' _ hnF
    omega
  · obtain ⟨k2, hk2⟩ := csucc_reach_le h _ (nx (F.max' hne)) x hnF hx (h1.2 x hx) (le_refl _)
    refine ⟨k2 + (k1 + 1), ?_⟩
    rw [Function.iterate_add_apply, Function.iterate_succ_apply', hk1, hk2]

theorem wf.free_list {s : arena_t} {g : layout} (h : wf s g) (x : Nat) :
    x ∈ g.F ↔ ∃ k, s.next^[k] s.free = x := by
  constructor
  · intro hx
    exact csucc_reach h.succ h.free_F hx
  · rintro ⟨k, rfl⟩
    exact csucc_iterate_mem h.succ h.free_F k

/-! ## The blocks off the free list -/

theorem binned.sum_U {s : arena_t} {g : layout} {L : Finset Nat} {B : Nat → List Nat}
    (hb : binned s g L B) (f : Nat → Nat) :
    ∑ x ∈ g.U, f x = ∑ x ∈ L, f x
      + ∑ b ∈ Finset.range s.recycle_smaller_then_bytes, ((B b).map f).sum := by
  have hU : g.U = L ∪ (Finset.range s.recycle_smaller_then_bytes).biUnion
      (fun b => (B b).toFinset) := by
    ext x
    simp only [Finset.mem_union, Finset.mem_biUnion, Finset.mem_range, List.mem_toFinset]
    constructor
    · intro hx
      rcases hb.part x hx with h1 | ⟨b, h1⟩
      · exact Or.inl h1
      · exact Or.inr ⟨b, (hb.mem b x h1).2.2.2, h1⟩
    · rintro (h1 | ⟨b, -, h1⟩)
      · exact hb.live_U x h1
      · exact (hb.mem b x h1).1
  have hd : Disjoint L ((Finset.range s.recycle_smaller_then_bytes).biUnion
      (fun b => (B b).toFinset)) := by
    rw [Finset.disjoint_left]
    intro x hx hx'
    simp only [Finset.mem_biUnion, Finset.mem_range, List.mem_toFinset] at hx'
    obtain ⟨b, -, h1⟩ := hx'
    exact (hb.mem b x h1).2.1 hx
  rw [hU, Finset.sum_union hd, Finset.sum_biUnion]
  · congr 1
    refine Finset.sum_congr rfl (fun b _ => ?_)
    exact List.sum_toFinset f (hb.nodup b)
  · intro b _ b' _ hbb
    simp only [Function.onFun]
    rw [Finset.disjoint_left]
    intro x hx hx'
    simp only [List.mem_toFinset] at hx hx'
    have h1 := (hb.mem b x hx).2.2.1
    have h2 := (hb.mem b' x hx').2.2.1
    exact hbb (by omega)

theorem held.sum {L : Finset Nat} {live : List Nat} (h : held L live) (f : Nat → Nat) :
    (live.map (fun p => f (p - sizeof_node_t))).sum = ∑ x ∈ L, f x := by
  rw [← List.sum_toFinset _ h.1]
  refine Finset.sum_nbij' (fun p => p - sizeof_node_t) (fun x => x + sizeof_node_t) ?_ ?_ ?_ ?_ ?_
  · intro p hp
    simp only [List.mem_toFinset] at hp
    obtain ⟨hdr, hl, rfl⟩ := (h.2 p).1 hp
    simpa using hl
  · intro x hx
    simp only [List.mem_toFinset]
    exact (h.2 _).2 ⟨x, hx, rfl⟩
  · intro p hp
    simp only [List.mem_toFinset] at hp
    obtain ⟨hdr, hl, rfl⟩ := (h.2 p).1 hp
    simp
  · intro x _
    simp
  · intro p _
    rfl

/-- Conservation follows from the invariant. -/
theorem inv.conserved {s : arena_t} {g : layout} {L : Finset Nat} {B : Nat → List Nat}
    {live : List Nat} (hi : inv s g L B) (hl : held L live) : conserved s live := by
  refine ⟨g.F, B, g.P, hi.wf.free_list, hi.bn.chain, hi.wf.chain, ?_⟩
  rw [hl.sum s.size, ← hi.wf.total, hi.bn.sum_U s.size]
  omega

/-! ## The invariant along a sequence of calls -/

theorem step_inv {s s' : arena_t} {g : layout} {L : Finset Nat} {B : Nat → List Nat}
    {live live' : List Nat} {asserts : Bool} {fuel : Nat} {o : op}
    (hi : inv s g L B) (hl : held L live) (ha : o.admissible live = true)
    (hr : step asserts fuel s live o = .ok (s', live')) (hlog : regions_disjoint s'.log) :
    ∃ g' L' B', inv s' g' L' B' ∧ held L' live' ∧ same_config s s' := by
  cases o with
  | alloc n =>
    simp only [op.admissible, decide_eq_true_eq] at ha
    simp only [step, bind_ok, pure_ok, Prod.mk.injEq] at hr
    obtain ⟨⟨p, s1⟩, h1, rfl, rfl⟩ := hr
    obtain ⟨g', B', hcf, -, h0, hp⟩ := heap_alloc_sound hi ha h1 hlog
    by_cases hz : p = 0
    · exact ⟨g', L, B', h0 hz, by simpa [hz] using hl, hcf⟩
    · obtain ⟨hdr, rfl, hnl, hi', -⟩ := hp hz
      refine ⟨g', insert hdr L, B', hi', ?_, hcf⟩
      rw [if_neg hz]
      refine ⟨List.nodup_cons.2 ⟨fun hm => ?_, hl.1⟩, fun q => ?_⟩
      · obtain ⟨h', hl', he⟩ := (hl.2 _).1 hm
        have : hdr = h' := by omega
        exact hnl (this ▸ hl')
      · simp only [List.mem_cons, Finset.mem_insert, hl.2 q]
        constructor
        · rintro (rfl | ⟨h', hl', rfl⟩)
          · exact ⟨hdr, Or.inl rfl, rfl⟩
          · exact ⟨h', Or.inr hl', rfl⟩
        · rintro ⟨h', rfl | hl', rfl⟩
          · exact Or.inl rfl
          · exact Or.inr ⟨h', hl', rfl⟩
  | release p =>
    simp only [op.admissible, decide_eq_true_eq] at ha
    simp only [step, bind_ok, pure_ok, Prod.mk.injEq] at hr
    obtain ⟨s1, h1, rfl, rfl⟩ := hr
    have h0 : (0 : Nat) ∉ live := fun hm => by
      obtain ⟨h', -, he⟩ := (hl.2 0).1 hm
      unfold sizeof_node_t at he
      omega
    rcases ha with rfl | hm
    · simp only [heap_free, ne_eq, not_true_eq_false, if_false, pure_ok] at h1
      subst h1
      refine ⟨g, L, B, hi, ?_, same_config_refl _⟩
      rw [List.erase_of_not_mem h0]
      exact hl
    · obtain ⟨hdr, hL, rfl⟩ := (hl.2 p).1 hm
      obtain ⟨g', B', hi', -, hcf⟩ := heap_free_sound hi hL h1
      refine ⟨g', L.erase hdr, B', hi', ⟨hl.1.erase _, fun q => ?_⟩, hcf⟩
      rw [hl.1.mem_erase_iff, hl.2 q]
      simp only [Finset.mem_erase]
      constructor
      · rintro ⟨hne, h', hl', rfl⟩
        exact ⟨h', ⟨fun he => hne (by rw [he]), hl'⟩, rfl⟩
      · rintro ⟨h', ⟨hne, hl'⟩, rfl⟩
        exact ⟨fun he => hne (by unfold sizeof_node_t at he; omega), h', hl', rfl⟩
  | compact =>
    simp only [step, bind_ok, pure_ok, Prod.mk.injEq] at hr
    obtain ⟨s1, h1, rfl, rfl⟩ := hr
    obtain ⟨g', hi', -⟩ := heap_compact_sound hi h1
    exact ⟨g', L, fun _ => [], hi', hl, heap_compact_config h1⟩

theorem run_inv {asserts : Bool} {fuel : Nat} : ∀ {ops : List op} {s s' : arena_t} {g : layout}
    {L : Finset Nat} {B : Nat → List Nat} {live live' : List Nat},
    inv s g L B → held L live → admissible asserts fuel s live ops = true →
    run asserts fuel s live ops = .ok (s', live') → regions_disjoint s'.log →
    ∃ g' L' B', inv s' g' L' B' ∧ held L' live' ∧ same_config s s'
  | [], s, s', g, L, B, live, live', hi, hl, _, hr, _ => by
    simp only [run, Except.ok.injEq, Prod.mk.injEq] at hr
    obtain ⟨rfl, rfl⟩ := hr
    exact ⟨g, L, B, hi, hl, same_config_refl _⟩
  | o :: os, s, s', g, L, B, live, live', hi, hl, ha, hr, hlog => by
    simp only [run, bind_ok] at hr
    obtain ⟨⟨s1, live1⟩, h1, h2⟩ := hr
    simp only [admissible, h1, Bool.and_eq_true] at ha
    obtain ⟨l2, hl2⟩ := run_log h2
    have hlog1 : regions_disjoint s1.log := by
      rw [hl2] at hlog; exact regions_disjoint_prefix hlog
    obtain ⟨g1, L1, B1, hi1, hl1, hc1⟩ := step_inv hi hl ha.1 h1 hlog1
    obtain ⟨g2, L2, B2, hi2, hl2, hc2⟩ := run_inv hi1 hl1 ha.2 h2 hlog
    exact ⟨g2, L2, B2, hi2, hl2, same_config_trans hc1 hc2⟩

/-! ## Conservation of units -/

/-- C5.  Conservation: take an arena returned by `heap_create_ex` (non-null, page
size at least 4096 and below `2^64 - 16`) and any sequence of `heap_alloc`,
`heap_free` and `heap_compact` calls that return, every request being of at
most `2^64 - 48` bytes and every release being of null or of a pointer returned
by an earlier `heap_alloc` and not released since, the backing allocator having
handed out pairwise disjoint regions.  In the state reached the sizes in units
of the blocks on the circular free list, plus those of the blocks chained in the
recycle bins, plus those of the blocks the client holds, add up to the sum over
the ledgered pages of `pg->size - 2`. -/
theorem conservation_of_units (asserts debug : Bool) (fuel0 fuel : Nat) (m : machine)
    (pmin T h : Nat) (s0 s : arena_t) (ops : List op) (live : List Nat)
    (hc : heap_create_ex asserts debug fuel0 m pmin T = .ok (h, s0)) (hh : h ≠ 0)
    (hp : 4096 ≤ pmin) (hp2 : pmin < 2 ^ 64 - 16)
    (hadm : admissible asserts fuel s0 [] ops = true)
    (hrun : run asserts fuel s0 [] ops = .ok (s, live))
    (hlog : regions_disjoint s.log) : conserved s live := by
  obtain ⟨hi, -⟩ := heap_create_ex_inv hc hh hp hp2
  have hl : held ∅ [] := ⟨List.nodup_nil, fun p => by simp⟩
  obtain ⟨g, L, B, hi', hl', -⟩ := run_inv hi hl hadm hrun hlog
  exact hi'.conserved hl'

/-- C5 (witness): the client session on the arena of 4096 byte pages and
threshold 64, which ends with the client holding three blocks. -/
theorem conservation_of_units_witness :
    heap_create_ex true true 64 (fresh_machine [1000, 2000, 65536]) 4096 64
        = .ok (1000, client_start) ∧
      admissible true 64 client_start [] client_ops = true ∧
      run true 64 client_start [] client_ops = .ok (client_end, [69504, 68304, 69552]) ∧
      regions_disjoint client_end.log ∧
      conserved client_end [69504, 68304, 69552] :=
  ⟨rfl, by decide!, rfl, by decide!,
    conservation_of_units true true 64 64 (fresh_machine [1000, 2000, 65536]) 4096 64 1000
      client_start client_end client_ops [69504, 68304, 69552] rfl (by decide) (by decide)
      (by decide) (by decide!) rfl (by decide!)⟩

/-! ## A page request whose byte count wraps -/

theorem leak_walk_true {s : arena_t} : ∀ {fuel f : Nat} {b : Bool},
    leak_walk s fuel f true = .ok b → b = true
  | 0, _, _, h => by simp [leak_walk] at h
  | fuel + 1, f, b, h => by
    simp only [leak_walk, bind_ok, deref_ok] at h
    obtain ⟨-, -, leaks, h1, h2⟩ := h
    have hl : leaks = true := by
      split at h1
      · simp only [bind_ok] at h1
        obtain ⟨ma, -, h1⟩ := h1
        split at h1 <;> simp only [pure_ok] at h1 <;> exact h1.symm
      · simp only [pure_ok] at h1
        exact h1.symm
    subst hl
    split at h2
    · exact leak_walk_true h2
    · simp only [pure_ok] at h2
      exact h2.symm

/-- C1 (counterexample).  Two requests on one arena whose backing allocator hands out pairwise
disjoint regions: 32 bytes, returned at 69600 and kept (header 69584, three
units), then `2^64 - 31` bytes, for which null is returned.  Afterwards the
free list, entered at the sentinel 1000, holds at 65536 a block of `2^60 - 1`
units, which overlaps the block the client holds. -/
theorem wrapped_request_overlaps_live :
    outcome wrapped_request = .ok (69600, 0) ∧
      calls wrapped_request = .ok [call.alloc 80 1000, call.alloc 4112 65536,
        call.alloc 16 65520, call.alloc 16 0, call.alloc 16 0] ∧
      regions_disjoint (final_state wrapped_request).log ∧
      (final_state wrapped_request).free = 1000 ∧
      (final_state wrapped_request).next 1000 = 65536 ∧
      (final_state wrapped_request).size 65536 = 2 ^ 60 - 1 ∧
      (final_state wrapped_request).size 69584 = 3 ∧
      overlaps (final_state wrapped_request) 69584 65536 := by
  refine ⟨by decide!, by decide!, by decide!, by decide!, by decide!, by decide!, by decide!,
    by decide!⟩

/-- C9 (counterexample).  The block of 32 bytes of the run `wrapped_request` is released, so that every
allocation has been freed.  The compaction of `heap_destroy` leaves the state
as it is (there are no bins), the leak walk flags a leak, and for no fuel does
`heap_destroy` of a debug build return `true`. -/
theorem wrapped_request_false_leak :
    outcome wrapped_request = .ok (69600, 0) ∧
      heap_free true 64 (final_state wrapped_request) 69600 = .ok wrapped_request_freed ∧
      regions_disjoint wrapped_request_freed.log ∧
      (∀ fuel, heap_compact fuel wrapped_request_freed = .ok wrapped_request_freed) ∧
      leak_walk wrapped_request_freed 64 wrapped_request_freed.free false = .ok true ∧
      (∀ fuel s', heap_destroy true fuel wrapped_request_freed ≠ .ok (true, s')) := by
  have hc : ∀ fuel, heap_compact fuel wrapped_request_freed = .ok wrapped_request_freed :=
    fun fuel => rfl
  refine ⟨by decide!, rfl, by decide!, hc, by decide!, ?_⟩
  intro fuel s' h
  simp only [heap_destroy, hc, ok_bind, if_true, bind_ok, pure_ok, Prod.mk.injEq,
    Bool.not_eq_true'] at h
  obtain ⟨leaks, h1, -, -, rfl, -⟩ := h
  have e1 : wrapped_request_freed.free = 65552 := by decide!
  have e2 : wrapped_request_freed.size 65552 = 255 := by decide!
  have e3 : wrapped_request_freed.allocated = 65520 := by decide!
  have e4 : wrapped_request_freed.next 65520 = 65536 := by decide!
  have e5 : wrapped_request_freed.size 65536 = 2 ^ 60 - 1 := by decide!
  have e6 : wrapped_request_freed.next 65552 = 1000 := by decide!
  rw [e1] at h1
  cases fuel with
  | zero => simp [leak_walk] at h1
  | succ k =>
    simp only [leak_walk, e1, e2, e3, e6, bind_ok, deref_ok] at h1
    obtain ⟨-, -, leaks, h2, h3⟩ := h1
    have hl : leaks = true := by
      rw [if_pos (by decide)] at h2
      simp only [bind_ok] at h2
      obtain ⟨ma, hm, h2⟩ := h2
      have hma : ma = 65536 := by
        cases k with
        | zero => simp [ledger_find] at hm
        | succ j =>
          cases j with
          | zero => simp [ledger_find, sizeof_node_t, e4] at hm
          | succ i =>
            simp [ledger_find, sizeof_node_t, e4] at hm
            exact hm.symm
      subst hma
      rw [e5, if_pos (Or.inr (by unfold SIZE_T; decide))] at h2
      simp only [pure_ok] at h2
      exact h2.symm
    subst hl
    rw [if_pos (by decide)] at h3
    exact absurd (leak_walk_true h3) (by decide)

/-! ## The loops of `heap_destroy` -/

theorem ledger_find_total {s : arena_t} {t : Nat} : ∀ {P : List Nat} {h fuel : Nat},
    ledger s.next h P → P.length < fuel →
    ledger_find s t fuel h = .ok (if t ∈ P then t else 0)
  | [], h, fuel, hl, hf => by
    obtain ⟨k, rfl⟩ : ∃ k, fuel = k + 1 := ⟨fuel - 1, by simp at hf; omega⟩
    have h0 : h = 0 := hl
    subst h0
    simp [ledger_find]
  | pg :: l, h, fuel, hl, hf => by
    obtain ⟨k, rfl⟩ : ∃ k, fuel = k + 1 := ⟨fuel - 1, by simp at hf; omega⟩
    obtain ⟨h1, h2, h3⟩ := hl
    subst h1
    simp only [List.length_cons] at hf
    by_cases ht : h = t
    · subst ht
      simp [ledger_find]
    · have ih := ledger_find_total (t := t) h3 (by omega : l.length < k)
      have ht' : ¬ t = h := fun e => ht e.symm
      simp only [ledger_find, ne_eq, h2, not_false_eq_true, ht, and_self, if_true, ih,
        List.mem_cons, ht', false_or]

theorem release_pages_total : ∀ {P : List Nat} {s : arena_t} {fuel : Nat},
    ledger s.next s.allocated P → P.length < fuel →
    ∃ s', release_pages fuel s = .ok s' ∧ s'.log = s.log ++ P.map call.release ∧
      s'.bins = s.bins ∧ s'.self = s.self
  | [], s, fuel, hl, hf => by
    obtain ⟨k, rfl⟩ : ∃ k, fuel = k + 1 := ⟨fuel - 1, by simp at hf; omega⟩
    have h0 : s.allocated = 0 := hl
    exact ⟨s, by simp [release_pages, h0], by simp, rfl, rfl⟩
  | pg :: l, s, fuel, hl, hf => by
    obtain ⟨k, rfl⟩ : ∃ k, fuel = k + 1 := ⟨fuel - 1, by simp at hf; omega⟩
    obtain ⟨h1, h2, h3⟩ := hl
    simp only [List.length_cons] at hf
    have hl' : ledger ((that_free s s.allocated).set_allocated (s.next s.allocated)).next
        ((that_free s s.allocated).set_allocated (s.next s.allocated)).allocated l := by
      simpa [that_free, h1] using h3
    obtain ⟨s', e1, e2, e3, e4⟩ := release_pages_total hl' (by omega : l.length < k)
    refine ⟨s', ?_, ?_, ?_, ?_⟩
    · rw [release_pages, if_pos (by rw [h1]; exact h2)]
      exact e1
    · rw [e2]
      simp [that_free, h1]
    · rw [e3]; simp [that_free]
    · rw [e4]; simp [that_free]

/-- The leak walk from `f`, which is `d + 1` steps before the cursor: it returns,
and its flag is raised exactly when it came in raised or the test succeeds at
one of the nodes visited. -/
theorem leak_walk_spec {s : arena_t} {P : List Nat} (hl : ledger s.next s.allocated P) :
    ∀ (d f : Nat) (acc : Bool) (fuel : Nat),
      (∀ j, j ≤ d → s.next^[j] f ≠ 0) → s.next^[d + 1] f = s.free →
      (∀ j, 0 < j → j ≤ d → s.next^[j] f ≠ s.free) → d + P.length + 2 ≤ fuel →
      ∃ b, leak_walk s fuel f acc = .ok b ∧
        (b = true ↔ acc = true ∨ ∃ j, j ≤ d ∧ flagged s P (s.next^[j] f)) := by
  have hstep : ∀ (f : Nat) (acc : Bool) (k : Nat), P.length < k →
      ∃ b, (if s.size f > 0 then do
          let ma ← ledger_find s (f - sizeof_node_t) k s.allocated
          if ma = 0 ∨ s.size ma ≠ (s.size f + 2) % SIZE_T then pure true else pure acc
        else pure acc : Except fault Bool) = .ok b ∧ (b = true ↔ acc = true ∨ flagged s P f) := by
    intro f acc k hk
    by_cases hs : s.size f > 0
    · rw [if_pos hs, ledger_find_total hl hk, ok_bind]
      by_cases hm : f - sizeof_node_t ∈ P
      · have hne := ledger_ne_zero hl _ hm
        rw [if_pos hm]
        by_cases hz : s.size (f - sizeof_node_t) ≠ (s.size f + 2) % SIZE_T
        · rw [if_pos (Or.inr hz)]
          exact ⟨true, rfl, by simp [flagged, hs, hz]⟩
        · rw [if_neg (by rintro (h | h); exact hne h; exact hz h)]
          refine ⟨acc, rfl, ?_⟩
          simp only [flagged, hm, not_true_eq_false, false_or]
          constructor
          · exact fun h => Or.inl h
          · rintro (h | ⟨-, h⟩)
            · exact h
            · exact absurd h hz
      · rw [if_neg hm, if_pos (Or.inl rfl)]
        exact ⟨true, rfl, by simp [flagged, hs, hm]⟩
    · rw [if_neg hs]
      refine ⟨acc, rfl, ?_⟩
      simp only [flagged]
      constructor
      · exact fun h => Or.inl h
      · rintro (h | ⟨h, -⟩)
        · exact h
        · exact absurd h hs
  intro d
  induction d with
  | zero =>
    intro f acc fuel h0 hd _ hfuel
    obtain ⟨k, rfl⟩ : ∃ k, fuel = k + 1 := ⟨fuel - 1, by omega⟩
    obtain ⟨b, hb, hiff⟩ := hstep f acc k (by omega)
    have hf0 : f ≠ 0 := h0 0 (le_refl _)
    have hnf : s.next f = s.free := hd
    refine ⟨b, ?_, ?_⟩
    · simp only [leak_walk, deref_of_ne hf0, ok_bind, hb, hnf, ne_eq, not_true_eq_false,
        if_false]
      rfl
    · rw [hiff]
      constructor
      · rintro (h | h)
        · exact Or.inl h
        · exact Or.inr ⟨0, le_refl _, h⟩
      · rintro (h | ⟨j, hj, h⟩)
        · exact Or.inl h
        · obtain rfl : j = 0 := by omega
          exact Or.inr h
  | succ d ih =>
    intro f acc fuel h0 hd hne hfuel
    obtain ⟨k, rfl⟩ : ∃ k, fuel = k + 1 := ⟨fuel - 1, by omega⟩
    obtain ⟨b1, hb1, hiff1⟩ := hstep f acc k (by omega)
    have hf0 : f ≠ 0 := h0 0 (Nat.zero_le _)
    have hnf : s.next f ≠ s.free := hne 1 (by omega) (by omega)
    obtain ⟨b, hb, hiff⟩ := ih (s.next f) b1 k
      (fun j hj => by
        have := h0 (j + 1) (by omega)
        rwa [Function.iterate_succ_apply] at this)
      (by
        have := hd
        rwa [Function.iterate_succ_apply] at this)
      (fun j hj1 hj2 => by
        have := hne (j + 1) (by omega) (by omega)
        rwa [Function.iterate_succ_apply] at this)
      (by omega)
    refine ⟨b, ?_, ?_⟩
    · simp only [leak_walk, deref_of_ne hf0, ok_bind, hb1, if_pos hnf]
      exact hb
    · rw [hiff, hiff1]
      constructor
      · rintro ((h | h) | ⟨j, hj, h⟩)
        · exact Or.inl h
        · exact Or.inr ⟨0, Nat.zero_le _, h⟩
        · exact Or.inr ⟨j + 1, by omega, by rwa [Function.iterate_succ_apply]⟩
      · rintro (h | ⟨j, hj, h⟩)
        · exact Or.inl (Or.inl h)
        · cases j with
          | zero => exact Or.inl (Or.inr h)
          | succ i =>
            exact Or.inr ⟨i, by omega, by rwa [Function.iterate_succ_apply] at h⟩

/-! ## Pages seen by the leak walk -/

theorem wf.in_page_ne_self {s : arena_t} {g : layout} (h : wf s g) {pg x : Nat} (hp : pg ∈ g.P)
    (hx : in_page s pg x) : x ≠ s.self := by
  obtain ⟨h1, h2, -, -⟩ := hx
  have := h.pg_self pg hp
  omega

/-- A free block in a page none of whose blocks is off the free list is the
whole page. -/
theorem wf.whole_page {s : arena_t} {g : layout} (h : wf s g) (hc : coalesced s g) {pg f : Nat}
    (hp : pg ∈ g.P) (hf : f ∈ g.F) (hin : in_page s pg f)
    (hno : ∀ x ∈ g.U, ¬ in_page s pg x) : f = pg + 16 ∧ s.size f + 2 = s.size pg := by
  obtain ⟨h1, h2, h3, h4⟩ := hin
  have hfs : f ≠ s.self := h.in_page_ne_self hp ⟨h1, h2, h3, h4⟩
  have hf16 : f = pg + 16 := by
    by_contra hne
    have h32 : pg + 32 ≤ f := by omega
    obtain ⟨x, hx, hxs, hxu, hux⟩ := h.cover pg hp (f - 16) (by omega) (by omega) (by omega)
    obtain ⟨pg', hp', hin'⟩ := h.paged x hx hxs
    have hpe : pg = pg' := by
      obtain ⟨a1, a2, -, -⟩ := hin'
      exact h.page_eq hp hp' (z := f - 16) (by omega) (by omega) (by omega) (by omega)
    subst hpe
    obtain ⟨a1, a2, a3, a4⟩ := hin'
    have hd := h.disj x f hx (Or.inl hf) (by omega)
    have hxf : x + 16 * s.size x = f := by omega
    rcases hx with hxF | hxU
    · exact hc x hxF f hf hxs hxf
    · exact hno x hxU ⟨a1, a2, a3, a4⟩
  refine ⟨hf16, ?_⟩
  by_contra hne
  have hlt : f + 16 * s.size f + 32 ≤ pg + 16 * s.size pg := by omega
  obtain ⟨x, hx, hxs, hxu, hux⟩ := h.cover pg hp (f + 16 * s.size f) (by omega) (by omega)
    (by omega)
  have hxf : f < x := by
    by_contra hge
    have hxne : x ≠ f := by
      intro he
      rw [he] at hux
      omega
    have := h.disj x f hx (Or.inl hf) (by omega)
    omega
  have hd := h.disj f x (Or.inl hf) hx hxf
  have hxe : f + 16 * s.size f = x := by omega
  rcases hx with hxF | hxU
  · exact hc f hf x hxF hfs hxe
  · exact hno x hxU (h.adjacent_page (Or.inr hxU) hxs hp ⟨h1, h2, h3, h4⟩ hxe)

/-- A block that shares its page with another is not the whole page: the test
of the leak walk succeeds at it. -/
theorem wf.shared_page_flagged {s : arena_t} {g : layout} (h : wf s g) {pg f x : Nat}
    (hp : pg ∈ g.P) (hf : g.node f) (hfi : in_page s pg f) (hx : g.node x)
    (hxi : in_page s pg x) (hne : f ≠ x) : flagged s g.P f := by
  obtain ⟨h1, h2, h3, h4⟩ := hfi
  obtain ⟨a1, a2, a3, a4⟩ := hxi
  refine ⟨by omega, ?_⟩
  by_cases hm : f - sizeof_node_t ∈ g.P
  · right
    have hsz := h.pg_size _ hm
    have hsp := h.pg_size _ hp
    unfold sizeof_node_t at hm hsz ⊢
    have hpe : pg = f - 16 :=
      h.page_eq hp hm (z := f - 16) (by omega) (by omega) (by omega) (by omega)
    rw [← hpe]
    have hxf : f < x := by omega
    have hd := h.disj f x hf hx hxf
    unfold SIZE_T
    omega
  · exact Or.inl hm

theorem wf.within_in_page {s : arena_t} {g : layout} (h : wf s g) {pg x : Nat} (hp : pg ∈ g.P)
    (hx : g.node x) (hxs : x ≠ s.self) (hw : within s pg x) : in_page s pg x := by
  obtain ⟨pg', hp', a1, a2, a3, a4⟩ := h.paged x hx hxs
  unfold within sizeof_node_t at hw
  have hpe : pg = pg' := h.page_eq hp hp' (z := x) (by omega) (by omega) (by omega) (by omega)
  subst hpe
  exact ⟨a1, a2, a3, a4⟩

theorem wf.within_in_page_ptr {s : arena_t} {g : layout} (h : wf s g) {pg x : Nat}
    (hp : pg ∈ g.P) (hx : g.node x) (hxs : x ≠ s.self) (hw : within s pg (x + sizeof_node_t)) :
    in_page s pg x := by
  obtain ⟨pg', hp', a1, a2, a3, a4⟩ := h.paged x hx hxs
  unfold within sizeof_node_t at hw
  have hpe : pg = pg' :=
    h.page_eq hp hp' (z := x + 16) (by omega) (by omega) (by omega) (by omega)
  subst hpe
  exact ⟨a1, a2, a3, a4⟩

/-- The bins being empty, the test of the leak walk succeeds at a node of the
free list exactly when some page holds both a free block and a block of the
client. -/
theorem leak_iff_shared {s : arena_t} {g : layout} {L : Finset Nat} {B : Nat → List Nat}
    {live : List Nat} (hi : inv s g L B) (hU : g.U = L) (hl : held L live) :
    (∃ f ∈ g.F, flagged s g.P f) ↔
      ∃ pg ∈ g.P, (∃ f ∈ g.F, 0 < s.size f ∧ within s pg f) ∧ ∃ p ∈ live, within s pg p := by
  have h := hi.wf
  constructor
  · rintro ⟨f, hf, hpos, hfl⟩
    have hfs : f ≠ s.self := by
      intro he
      rw [he, h.self_size] at hpos
      omega
    obtain ⟨pg, hp, hin⟩ := h.paged f (Or.inl hf) hfs
    have hwf : within s pg f := by
      obtain ⟨a1, a2, a3, a4⟩ := hin
      unfold within sizeof_node_t
      omega
    refine ⟨pg, hp, ⟨f, hf, hpos, hwf⟩, ?_⟩
    by_contra hno
    have hno' : ∀ x ∈ g.U, ¬ in_page s pg x := by
      intro x hx hxi
      rw [hU] at hx
      refine hno ⟨x + sizeof_node_t, (hl.2 _).2 ⟨x, hx, rfl⟩, ?_⟩
      obtain ⟨a1, a2, a3, a4⟩ := hxi
      unfold within sizeof_node_t
      omega
    obtain ⟨e1, e2⟩ := h.whole_page hi.co hp hf hin hno'
    have hsp := h.pg_size _ hp
    rcases hfl with hfl | hfl
    · apply hfl
      have : f - sizeof_node_t = pg := by unfold sizeof_node_t; omega
      rw [this]
      exact hp
    · apply hfl
      have : f - sizeof_node_t = pg := by unfold sizeof_node_t; omega
      rw [this, ← e2]
      unfold SIZE_T
      omega
  · rintro ⟨pg, hp, ⟨f, hf, hpos, hwf⟩, p, hpl, hwp⟩
    have hfs : f ≠ s.self := by
      intro he
      rw [he, h.self_size] at hpos
      omega
    obtain ⟨hdr, hL, rfl⟩ := (hl.2 p).1 hpl
    have hdU : hdr ∈ g.U := by rw [hU]; exact hL
    have hds : hdr ≠ s.self := fun he => h.self_not_U (he ▸ hdU)
    have hin := h.within_in_page hp (Or.inl hf) hfs hwf
    have hin' := h.within_in_page_ptr hp (Or.inr hdU) hds hwp
    have hne : f ≠ hdr := fun he => h.FU f hf (he ▸ hdU)
    exact ⟨f, hf, h.shared_page_flagged hp (Or.inl hf) hin (Or.inr hdU) hin' hne⟩

/-! ## Fuel does not change what `heap_compact` returns -/

theorem heap_compact_bin_mono {i : Nat} : ∀ {fuel fuel' : Nat} {s s' : arena_t},
    fuel ≤ fuel' → heap_compact_bin i fuel s = .ok s' → heap_compact_bin i fuel' s = .ok s'
  | 0, _, _, _, _, h => by simp [heap_compact_bin] at h
  | fuel + 1, fuel', s, s', hle, h => by
    obtain ⟨k, rfl⟩ : ∃ k, fuel' = k + 1 := ⟨fuel' - 1, by omega⟩
    simp only [heap_compact_bin, bind_ok, bins_get_ok] at h ⊢
    obtain ⟨n, hn, h⟩ := h
    refine ⟨n, hn, ?_⟩
    split at h
    · rename_i h0
      rw [if_pos h0]
      exact h
    · rename_i h0
      rw [if_neg h0]
      simp only [bind_ok] at h ⊢
      obtain ⟨s1, h1, h2⟩ := h
      exact ⟨s1, arena_free_mono (by omega) h1, heap_compact_bin_mono (by omega) h2⟩

theorem heap_compact_loop_mono {fuel fuel' : Nat} (hle : fuel ≤ fuel') :
    ∀ {k i : Nat} {s s' : arena_t},
    heap_compact_loop fuel k i s = .ok s' → heap_compact_loop fuel' k i s = .ok s'
  | 0, _, _, _, h => by
    simpa only [heap_compact_loop] using h
  | k + 1, i, s, s', h => by
    simp only [heap_compact_loop, bind_ok] at h ⊢
    obtain ⟨s1, h1, h2⟩ := h
    refine ⟨s1, heap_compact_bin_mono hle h1, ?_⟩
    split at h2
    · cases h2
    · rename_i hi
      rw [if_neg hi]
      exact heap_compact_loop_mono hle h2

theorem heap_compact_mono {fuel fuel' : Nat} {s s' : arena_t} (hle : fuel ≤ fuel')
    (h : heap_compact fuel s = .ok s') : heap_compact fuel' s = .ok s' :=
  heap_compact_loop_mono hle h

/-! ## The period of the free list -/

theorem iterate_period {nx : Nat → Nat} {f d : Nat} (hd : nx^[d + 1] f = f) :
    ∀ k, ∃ j, j ≤ d ∧ nx^[j] f = nx^[k] f := by
  intro k
  induction k using Nat.strong_induction_on with
  | _ k ih =>
    by_cases hk : k ≤ d
    · exact ⟨k, hk, rfl⟩
    · obtain ⟨j, hj, he⟩ := ih (k - (d + 1)) (by omega)
      refine ⟨j, hj, ?_⟩
      rw [he]
      have : k = (k - (d + 1)) + (d + 1) := by omega
      conv_rhs => rw [this, Function.iterate_add_apply, hd]

/-! ## `heap_destroy` in a debug build -/

/-- Total correctness of `heap_destroy` (debug build) on a state that satisfies
the invariant and whose bins array exists if it is read: with enough fuel it
returns, the value is `false` exactly when, the bins having been emptied, some
page holds both a block of the free list and a block of the client, and the
pages of the ledger, the bins array and the control structure are released. -/
theorem heap_destroy_spec {s : arena_t} {g : layout} {L : Finset Nat} {B : Nat → List Nat}
    {live : List Nat} (hi : inv s g L B) (hl : held L live)
    (hb : s.recycle_smaller_then_bytes ≠ 0 → s.bins ≠ 0)
    (hint : s.recycle_smaller_then_bytes ≤ INT_MAX) :
    ∃ (N : Nat) (s1 : arena_t), ∀ fuel, N ≤ fuel → heap_compact fuel s = .ok s1 ∧
      ∃ r s', heap_destroy true fuel s = .ok (r, s') ∧
        (r = false ↔ ∃ k, flagged s1 g.P (s1.next^[k] s1.free)) ∧
        ((∃ k, flagged s1 g.P (s1.next^[k] s1.free)) ↔
          ∃ pg ∈ g.P, (∃ k, 0 < s1.size (s1.next^[k] s1.free) ∧
            within s1 pg (s1.next^[k] s1.free)) ∧ ∃ p ∈ live, within s1 pg p) ∧
        (∀ k, 16 * s1.size (s1.next^[k] s1.free) < 2 ^ 64) ∧
        s'.log = s.log ++ g.P.map call.release ++ [call.release s.bins, call.release s.self] := by
  obtain ⟨s1, h1⟩ := heap_compact_total hi hb hint (by omega : g.weight < g.weight + 1)
  obtain ⟨g1, i1, k1, -, hU⟩ := heap_compact_sound hi h1
  obtain ⟨kc, klog, -, -, kP, -, -⟩ := k1
  have w1 := i1.wf
  obtain ⟨k, hk⟩ := csucc_reach w1.succ (w1.succ _ w1.free_F).1 w1.free_F
  have hex : ∃ d, s1.next^[d + 1] s1.free = s1.free :=
    ⟨k, by rw [Function.iterate_succ_apply]; exact hk⟩
  have hd := Nat.find_spec hex
  have hmin : ∀ j, 0 < j → j ≤ Nat.find hex → s1.next^[j] s1.free ≠ s1.free := by
    intro j hj0 hj
    obtain ⟨i, rfl⟩ : ∃ i, j = i + 1 := ⟨j - 1, by omega⟩
    exact Nat.find_min hex (by omega)
  refine ⟨max (g.weight + 1) (Nat.find hex + g1.P.length + 2), s1, fun fuel hN => ?_⟩
  have hc := heap_compact_mono (le_trans (le_max_left _ _) hN) h1
  obtain ⟨b, hb1, hiff⟩ := leak_walk_spec w1.chain (Nat.find hex) s1.free false fuel
    (fun j _ h0 => w1.zero_not_F (h0 ▸ csucc_iterate_mem w1.succ w1.free_F j)) hd hmin
    (le_trans (le_max_right _ _) hN)
  obtain ⟨s2, e1, e2, e3, e4⟩ := release_pages_total w1.chain
    (show g1.P.length < fuel from by have := le_trans (le_max_right _ _) hN; omega)
  refine ⟨hc, !b, that_free (that_free s2 s2.bins) s2.self, ?_, ?_, ?_, ?_, ?_⟩
  · simp only [heap_destroy, hc, ok_bind, if_true, hb1, e1]
    rfl
  · have hb2 : b = true ↔ ∃ k, flagged s1 g1.P (s1.next^[k] s1.free) := by
      rw [hiff]
      constructor
      · rintro (h | ⟨j, -, hf⟩)
        · cases h
        · exact ⟨j, hf⟩
      · rintro ⟨k', hf⟩
        obtain ⟨j, hj, he⟩ := iterate_period hd k'
        exact Or.inr ⟨j, hj, by rw [he]; exact hf⟩
    rw [← kP, ← hb2]
    cases b <;> simp
  · rw [← kP]
    have hS := leak_iff_shared i1 hU hl
    constructor
    · rintro ⟨k', hf⟩
      obtain ⟨pg, hp, ⟨f, hf', h2, h3⟩, h4⟩ :=
        hS.1 ⟨_, csucc_iterate_mem w1.succ w1.free_F k', hf⟩
      obtain ⟨k2, rfl⟩ := (w1.free_list f).1 hf'
      exact ⟨pg, hp, ⟨k2, h2, h3⟩, h4⟩
    · rintro ⟨pg, hp, ⟨k', h2, h3⟩, h4⟩
      obtain ⟨f, hf, hfl⟩ :=
        hS.2 ⟨pg, hp, ⟨_, csucc_iterate_mem w1.succ w1.free_F k', h2, h3⟩, h4⟩
      obtain ⟨k2, rfl⟩ := (w1.free_list f).1 hf
      exact ⟨k2, hfl⟩
  · intro k'
    exact w1.size_lt (Or.inl (csucc_iterate_mem w1.succ w1.free_F k'))
  · simp only [that_free, arena_t.called_log_eq, arena_t.called_self_eq, e2, e3, e4, klog, kP,
      kc.1, kc.2.2.2, List.append_assoc, List.cons_append, List.nil_append]

/-- C8 (amended).  Leak detection in a debug build, on an arena returned by
`heap_create_ex` (page size at least 4096 and below `2^64 - 16`, threshold other
than 1 and at most `INT_MAX`) after any sequence of calls as in C5, the client
holding `live`: with enough fuel `heap_destroy` returns; the value is `false`
(a leak is flagged) exactly when, after its compaction, some ledgered page
holds both a block of the free list and a pointer of `live`, so an allocation
whose page has no free block left is not detected; and it releases every page
of the ledger, then the bins array and the control structure. -/
theorem leak_walk_flags_shared_pages (asserts debug : Bool) (fuel0 fuel1 : Nat) (m : machine)
    (pmin T h : Nat) (s0 s : arena_t) (ops : List op) (live : List Nat)
    (hc : heap_create_ex asserts debug fuel0 m pmin T = .ok (h, s0)) (hh : h ≠ 0)
    (hp : 4096 ≤ pmin) (hp2 : pmin < 2 ^ 64 - 16) (hT : T ≠ 1) (hT2 : T ≤ INT_MAX)
    (hadm : admissible asserts fuel1 s0 [] ops = true)
    (hrun : run asserts fuel1 s0 [] ops = .ok (s, live))
    (hlog : regions_disjoint s.log) :
    ∃ (P : List Nat) (N : Nat) (s1 : arena_t), ledger s.next s.allocated P ∧
      ∀ fuel, N ≤ fuel → heap_compact fuel s = .ok s1 ∧
        ∃ r s', heap_destroy true fuel s = .ok (r, s') ∧
          (r = false ↔ ∃ pg ∈ P, (∃ k, 0 < s1.size (s1.next^[k] s1.free) ∧
              within s1 pg (s1.next^[k] s1.free)) ∧ ∃ p ∈ live, within s1 pg p) ∧
          s'.log = s.log ++ P.map call.release
            ++ [call.release s.bins, call.release s.self] := by
  obtain ⟨hi, -, hT0, hbins⟩ := heap_create_ex_inv hc hh hp hp2
  have hl : held ∅ [] := ⟨List.nodup_nil, fun p => by simp⟩
  obtain ⟨g, L, B, hi', hl', hcf⟩ := run_inv hi hl hadm hrun hlog
  have hTs : s.recycle_smaller_then_bytes = T := by rw [hcf.2.2.1, hT0]
  obtain ⟨N, s1, hN⟩ := heap_destroy_spec hi' hl'
    (fun h0 => by
      rw [hcf.2.2.2]
      exact hbins (by rw [hTs] at h0; omega))
    (by rw [hTs]; exact hT2)
  refine ⟨g.P, N, s1, hi'.wf.chain, fun fuel hf => ?_⟩
  obtain ⟨h1, r, s', h2, h3, h4, -, h5⟩ := hN fuel hf
  exact ⟨h1, r, s', h2, h3.trans h4, h5⟩

/-- C8 (witness): the client session on the arena of 4096 byte pages and
threshold 64, at the end of which the client holds three blocks of the one
page. -/
theorem leak_walk_flags_shared_pages_witness :
    heap_create_ex true true 64 (fresh_machine [1000, 2000, 65536]) 4096 64
        = .ok (1000, client_start) ∧
      admissible true 64 client_start [] client_ops = true ∧
      run true 64 client_start [] client_ops = .ok (client_end, [69504, 68304, 69552]) ∧
      regions_disjoint client_end.log ∧
      outcome (heap_destroy true 64 client_end) = .ok false ∧
      ∃ (P : List Nat) (N : Nat) (s1 : arena_t), ledger client_end.next client_end.allocated P ∧
        ∀ fuel, N ≤ fuel → heap_compact fuel client_end = .ok s1 ∧
          ∃ r s', heap_destroy true fuel client_end = .ok (r, s') ∧
            (r = false ↔ ∃ pg ∈ P, (∃ k, 0 < s1.size (s1.next^[k] s1.free) ∧
                within s1 pg (s1.next^[k] s1.free)) ∧
              ∃ p ∈ [69504, 68304, 69552], within s1 pg p) ∧
            s'.log = client_end.log ++ P.map call.release
              ++ [call.release client_end.bins, call.release client_end.self] :=
  ⟨rfl, by decide!, rfl, by decide!, by decide!,
    leak_walk_flags_shared_pages true true 64 64 (fresh_machine [1000, 2000, 65536]) 4096 64
      1000 client_start client_end client_ops [69504, 68304, 69552] rfl (by decide) (by decide)
      (by decide) (by decide) (by decide) (by decide!) rfl (by decide!)⟩

/-! ## Blocks do not overlap -/

theorem wf.not_overlaps {s : arena_t} {g : layout} (h : wf s g) {x y : Nat} (hx : g.node x)
    (hy : g.node y) (hne : x ≠ y) : ¬ overlaps s x y := by
  unfold overlaps sizeof_node_t
  rcases Nat.lt_or_gt_of_ne hne with hlt | hlt
  · have := h.disj x y hx hy hlt
    omega
  · have := h.disj y x hy hx hlt
    omega

/-- C1 (amended).  On an arena returned by `heap_create_ex` (page size at least
4096 and below `2^64 - 16`), after any sequence of `heap_alloc`, `heap_free` and
`heap_compact` calls that return, every request being of at most `2^64 - 48`
bytes and every release being of null or of a pointer returned by an earlier
`heap_alloc` and not released since, the backing allocator having handed out
pairwise disjoint regions: the pointers the client holds are pairwise distinct,
the blocks behind them are pairwise disjoint, and each is disjoint from every
block of the free list and from every block chained in a recycle bin. -/
theorem live_blocks_disjoint (asserts debug : Bool) (fuel0 fuel1 : Nat) (m : machine)
    (pmin T h : Nat) (s0 s : arena_t) (ops : List op) (live : List Nat)
    (hc : heap_create_ex asserts debug fuel0 m pmin T = .ok (h, s0)) (hh : h ≠ 0)
    (hp : 4096 ≤ pmin) (hp2 : pmin < 2 ^ 64 - 16)
    (hadm : admissible asserts fuel1 s0 [] ops = true)
    (hrun : run asserts fuel1 s0 [] ops = .ok (s, live))
    (hlog : regions_disjoint s.log) :
    live.Nodup ∧
      (∀ p ∈ live, ∀ q ∈ live, p ≠ q →
        ¬ overlaps s (p - sizeof_node_t) (q - sizeof_node_t)) ∧
      (∀ p ∈ live, ∀ k, ¬ overlaps s (p - sizeof_node_t) (s.next^[k] s.free)) ∧
      ∃ B : Nat → List Nat, (∀ b, ledger s.next (s.bin b) (B b)) ∧
        ∀ p ∈ live, ∀ b, ∀ x ∈ B b, ¬ overlaps s (p - sizeof_node_t) x := by
  obtain ⟨hi, -⟩ := heap_create_ex_inv hc hh hp hp2
  have hl : held ∅ [] := ⟨List.nodup_nil, fun p => by simp⟩
  obtain ⟨g, L, B, hi', hl', -⟩ := run_inv hi hl hadm hrun hlog
  have w := hi'.wf
  have hhdr : ∀ p ∈ live, p - sizeof_node_t ∈ L ∧ p = p - sizeof_node_t + sizeof_node_t := by
    intro p hpl
    obtain ⟨hdr, hL, rfl⟩ := (hl'.2 p).1 hpl
    simpa using hL
  refine ⟨hl'.1, fun p hpl q hql hne => ?_, fun p hpl k => ?_, B, hi'.bn.chain,
    fun p hpl b x hx => ?_⟩
  · obtain ⟨h1, h2⟩ := hhdr p hpl
    obtain ⟨h3, h4⟩ := hhdr q hql
    exact w.not_overlaps (Or.inr (hi'.bn.live_U _ h1)) (Or.inr (hi'.bn.live_U _ h3))
      (fun he => hne (by rw [h2, h4, he]))
  · obtain ⟨h1, -⟩ := hhdr p hpl
    have hF := csucc_iterate_mem w.succ w.free_F k
    exact w.not_overlaps (Or.inr (hi'.bn.live_U _ h1)) (Or.inl hF)
      (fun he => w.FU _ hF (he ▸ hi'.bn.live_U _ h1))
  · obtain ⟨h1, -⟩ := hhdr p hpl
    obtain ⟨hU, hnL, -⟩ := hi'.bn.mem b x hx
    exact w.not_overlaps (Or.inr (hi'.bn.live_U _ h1)) (Or.inr hU)
      (fun he => hnL (he ▸ h1))

/-- C1 (witness): the client session on the arena of 4096 byte pages and
threshold 64, which ends with the client holding three blocks. -/
theorem live_blocks_disjoint_witness :
    heap_create_ex true true 64 (fresh_machine [1000, 2000, 65536]) 4096 64
        = .ok (1000, client_start) ∧
      admissible true 64 client_start [] client_ops = true ∧
      run true 64 client_start [] client_ops = .ok (client_end, [69504, 68304, 69552]) ∧
      regions_disjoint client_end.log ∧
      [69504, 68304, 69552].Nodup ∧
      (∀ p ∈ [69504, 68304, 69552], ∀ q ∈ [69504, 68304, 69552], p ≠ q →
        ¬ overlaps client_end (p - sizeof_node_t) (q - sizeof_node_t)) ∧
      (∀ p ∈ [69504, 68304, 69552], ∀ k,
        ¬ overlaps client_end (p - sizeof_node_t) (client_end.next^[k] client_end.free)) ∧
      ∃ B : Nat → List Nat, (∀ b, ledger client_end.next (client_end.bin b) (B b)) ∧
        ∀ p ∈ [69504, 68304, 69552], ∀ b, ∀ x ∈ B b,
          ¬ overlaps client_end (p - sizeof_node_t) x :=
  ⟨rfl, by decide!, rfl, by decide!,
    live_blocks_disjoint true true 64 64 (fresh_machine [1000, 2000, 65536]) 4096 64 1000
      client_start client_end client_ops [69504, 68304, 69552] rfl (by decide) (by decide)
      (by decide) (by decide!) rfl (by decide!)⟩

/-! ## No false leak report -/

/-- C9 (amended).  On an arena returned by `heap_create_ex` (page size at least
4096 and below `2^64 - 16`, threshold other than 1 and at most `INT_MAX`), after
any sequence of calls as in C1 (requests of at most `2^64 - 48` bytes) at the end
of which the client holds nothing: with enough fuel `heap_destroy` of a debug
build returns `true`, no leak being flagged, and after its compaction every
block of the free list with units starts one unit after a page header of the
ledger whose size is that of the block plus two. -/
theorem no_leak_when_all_freed (asserts debug : Bool) (fuel0 fuel1 : Nat) (m : machine)
    (pmin T h : Nat) (s0 s : arena_t) (ops : List op)
    (hc : heap_create_ex asserts debug fuel0 m pmin T = .ok (h, s0)) (hh : h ≠ 0)
    (hp : 4096 ≤ pmin) (hp2 : pmin < 2 ^ 64 - 16) (hT : T ≠ 1) (hT2 : T ≤ INT_MAX)
    (hadm : admissible asserts fuel1 s0 [] ops = true)
    (hrun : run asserts fuel1 s0 [] ops = .ok (s, []))
    (hlog : regions_disjoint s.log) :
    ∃ (P : List Nat) (N : Nat) (s1 : arena_t), ledger s.next s.allocated P ∧
      ∀ fuel, N ≤ fuel → heap_compact fuel s = .ok s1 ∧
        (∃ s', heap_destroy true fuel s = .ok (true, s')) ∧
        ∀ k, 0 < s1.size (s1.next^[k] s1.free) →
          s1.next^[k] s1.free - sizeof_node_t ∈ P ∧
          s1.size (s1.next^[k] s1.free - sizeof_node_t) = s1.size (s1.next^[k] s1.free) + 2 := by
  obtain ⟨hi, -, hT0, hbins⟩ := heap_create_ex_inv hc hh hp hp2
  have hl : held ∅ [] := ⟨List.nodup_nil, fun p => by simp⟩
  obtain ⟨g, L, B, hi', hl', hcf⟩ := run_inv hi hl hadm hrun hlog
  have hTs : s.recycle_smaller_then_bytes = T := by rw [hcf.2.2.1, hT0]
  obtain ⟨N, s1, hN⟩ := heap_destroy_spec hi' hl'
    (fun h0 => by
      rw [hcf.2.2.2]
      exact hbins (by rw [hTs] at h0; omega))
    (by rw [hTs]; exact hT2)
  refine ⟨g.P, N, s1, hi'.wf.chain, fun fuel hf => ?_⟩
  obtain ⟨h1, r, s', h2, h3, h4, h5, -⟩ := hN fuel hf
  have hno : ¬ ∃ k, flagged s1 g.P (s1.next^[k] s1.free) := by
    rw [h4]
    rintro ⟨pg, -, -, p, hp', -⟩
    simp at hp'
  have hr : r = true := by
    cases r with
    | true => rfl
    | false => exact absurd (h3.1 rfl) hno
  subst hr
  refine ⟨h1, ⟨s', h2⟩, fun k hk => ?_⟩
  have hnk : ¬ flagged s1 g.P (s1.next^[k] s1.free) := fun hf' => hno ⟨k, hf'⟩
  have hsz := h5 k
  unfold flagged at hnk
  have hmod : (s1.size (s1.next^[k] s1.free) + 2) % SIZE_T
      = s1.size (s1.next^[k] s1.free) + 2 := by
    unfold SIZE_T
    omega
  rw [hmod] at hnk
  by_contra hcon
  apply hnk
  refine ⟨hk, ?_⟩
  by_cases hm : s1.next^[k] s1.free - sizeof_node_t ∈ g.P
  · right
    intro he
    exact hcon ⟨hm, he⟩
  · exact Or.inl hm

/-- C9 (witness): the session `settled_ops` on the arena of 4096 byte pages and
threshold 64, at the end of which every block has been released. -/
theorem no_leak_when_all_freed_witness :
    heap_create_ex true true 64 (fresh_machine [1000, 2000, 65536]) 4096 64
        = .ok (1000, client_start) ∧
      admissible true 64 client_start [] settled_ops = true ∧
      run true 64 client_start [] settled_ops = .ok (settled_end, []) ∧
      regions_disjoint settled_end.log ∧
      outcome (heap_destroy true 64 settled_end) = .ok true ∧
      ∃ (P : List Nat) (N : Nat) (s1 : arena_t), ledger settled_end.next settled_end.allocated P ∧
        ∀ fuel, N ≤ fuel → heap_compact fuel settled_end = .ok s1 ∧
          (∃ s', heap_destroy true fuel settled_end = .ok (true, s')) ∧
          ∀ k, 0 < s1.size (s1.next^[k] s1.free) →
            s1.next^[k] s1.free - sizeof_node_t ∈ P ∧
            s1.size (s1.next^[k] s1.free - sizeof_node_t)
              = s1.size (s1.next^[k] s1.free) + 2 :=
  ⟨rfl, by decide!, rfl, by decide!, by decide!,
    no_leak_when_all_freed true true 64 64 (fresh_machine [1000, 2000, 65536]) 4096 64
      1000 client_start settled_end settled_ops rfl (by decide) (by decide)
      (by decide) (by decide) (by decide) (by decide!) rfl (by decide!)⟩

/-! ## Invariants of the reachable states -/

/-- The states reached from `heap_create_ex` by admissible calls satisfy the
invariant, with the configuration the arena was created with. -/
theorem reachable_inv {asserts debug : Bool} {fuel0 fuel : Nat} {m : machine}
    {pmin T h : Nat} {s0 s : arena_t} {ops : List op} {live : List Nat}
    (hc : heap_create_ex asserts debug fuel0 m pmin T = .ok (h, s0)) (hh : h ≠ 0)
    (hp : 4096 ≤ pmin) (hp2 : pmin < 2 ^ 64 - 16)
    (hadm : admissible asserts fuel s0 [] ops = true)
    (hrun : run asserts fuel s0 [] ops = .ok (s, live))
    (hlog : regions_disjoint s.log) :
    ∃ g L B, inv s g L B ∧ held L live ∧ s.self = h ∧ s.recycle_smaller_then_bytes = T ∧
      (1 < T → s.bins ≠ 0) := by
  obtain ⟨hi, hs0, hT0, hbins⟩ := heap_create_ex_inv hc hh hp hp2
  have hl : held ∅ [] := ⟨List.nodup_nil, fun p => by simp⟩
  obtain ⟨g, L, B, hi', hl', hcf⟩ := run_inv hi hl hadm hrun hlog
  exact ⟨g, L, B, hi', hl', by rw [hcf.1, hs0], by rw [hcf.2.2.1, hT0],
    fun h1 => by rw [hcf.2.2.2]; exact hbins h1⟩

theorem wf.sentinel_list {s : arena_t} {g : layout} (h : wf s g) (x : Nat) :
    x ∈ g.F ↔ ∃ k, s.next^[k] s.self = x := by
  constructor
  · intro hx
    exact csucc_reach h.succ h.self_F hx
  · rintro ⟨k, rfl⟩
    exact csucc_iterate_mem h.succ h.self_F k

/-- C14.  Address order of the free list, in every state reached from an arena
returned by `heap_create_ex` by a sequence of calls as in C5.  `F` being the
set of nodes reached from the sentinel by following `next`: the successor of a
node is the next higher node of `F`, or the lowest node of `F` when the node
is the highest; exactly one node has a successor that is not above it; no two
nodes of `F` overlap; and no block of the list ends where its successor
starts. -/
theorem free_list_address_order (asserts debug : Bool) (fuel0 fuel1 : Nat) (m : machine)
    (pmin T h : Nat) (s0 s : arena_t) (ops : List op) (live : List Nat)
    (hc : heap_create_ex asserts debug fuel0 m pmin T = .ok (h, s0)) (hh : h ≠ 0)
    (hp : 4096 ≤ pmin) (hp2 : pmin < 2 ^ 64 - 16)
    (hadm : admissible asserts fuel1 s0 [] ops = true)
    (hrun : run asserts fuel1 s0 [] ops = .ok (s, live))
    (hlog : regions_disjoint s.log) :
    ∃ F : Finset Nat,
      (∀ x, x ∈ F ↔ ∃ k, s.next^[k] s.self = x) ∧
      (∀ f ∈ F, (f < s.next f ∧ ∀ y ∈ F, f < y → s.next f ≤ y) ∨
        ((∀ y ∈ F, y ≤ f) ∧ ∀ y ∈ F, s.next f ≤ y)) ∧
      (∃ f, (f ∈ F ∧ s.next f ≤ f) ∧ ∀ f', f' ∈ F ∧ s.next f' ≤ f' → f' = f) ∧
      (∀ x ∈ F, ∀ y ∈ F, x ≠ y → ¬ overlaps s x y) ∧
      (∀ x ∈ F, 0 < s.size x → x + s.size x * sizeof_node_t ≠ s.next x) := by
  obtain ⟨g, L, B, hi, -, -⟩ := reachable_inv hc hh hp hp2 hadm hrun hlog
  have w := hi.wf
  refine ⟨g.F, w.sentinel_list, fun f hf => (w.succ f hf).2, ?_, ?_, ?_⟩
  · have hne : g.F.Nonempty := ⟨_, w.self_F⟩
    have hM := g.F.max'_mem hne
    refine ⟨g.F.max' hne, ⟨hM, ?_⟩, ?_⟩
    · obtain ⟨hn, h1 | h1⟩ := w.succ _ hM
      · have := g.F.le_max' _ hn
        omega
      · exact h1.2 _ hM
    · rintro f' ⟨hf', hle⟩
      obtain ⟨hn, h1 | h1⟩ := w.succ _ hf'
      · omega
      · exact le_antisymm (g.F.le_max' _ hf') (h1.1 _ hM)
  · intro x hx y hy hne
    exact w.not_overlaps (Or.inl hx) (Or.inl hy) hne
  · intro x hx hpos he
    have hxs : x ≠ s.self := by
      intro e
      rw [e, w.self_size] at hpos
      omega
    refine hi.co x hx _ (w.succ x hx).1 hxs ?_
    rw [← he]
    unfold sizeof_node_t
    omega

/-- C14 (witness): the client session on the arena of 4096 byte pages and
threshold 64. -/
theorem free_list_address_order_witness :
    heap_create_ex true true 64 (fresh_machine [1000, 2000, 65536]) 4096 64
        = .ok (1000, client_start) ∧
      admissible true 64 client_start [] client_ops = true ∧
      run true 64 client_start [] client_ops = .ok (client_end, [69504, 68304, 69552]) ∧
      regions_disjoint client_end.log ∧
      ∃ F : Finset Nat,
        (∀ x, x ∈ F ↔ ∃ k, client_end.next^[k] client_end.self = x) ∧
        (∀ f ∈ F, (f < client_end.next f ∧ ∀ y ∈ F, f < y → client_end.next f ≤ y) ∨
          ((∀ y ∈ F, y ≤ f) ∧ ∀ y ∈ F, client_end.next f ≤ y)) ∧
        (∃ f, (f ∈ F ∧ client_end.next f ≤ f) ∧
          ∀ f', f' ∈ F ∧ client_end.next f' ≤ f' → f' = f) ∧
        (∀ x ∈ F, ∀ y ∈ F, x ≠ y → ¬ overlaps client_end x y) ∧
        (∀ x ∈ F, 0 < client_end.size x →
          x + client_end.size x * sizeof_node_t ≠ client_end.next x) :=
  ⟨rfl, by decide!, rfl, by decide!,
    free_list_address_order true true 64 64 (fresh_machine [1000, 2000, 65536]) 4096 64 1000
      client_start client_end client_ops [69504, 68304, 69552] rfl (by decide) (by decide)
      (by decide) (by decide!) rfl (by decide!)⟩

/-- C15.  Sentinel and cursor, in every state reached from an arena returned by
`heap_create_ex` by a sequence of calls as in C5: the sentinel is the node at
the address of the arena, its size is 0, it is on the circular list (it is
reached from the cursor by following `next`), it is not a block of the client,
and the cursor is a node of the list (it is reached from the sentinel). -/
theorem sentinel_and_cursor (asserts debug : Bool) (fuel0 fuel1 : Nat) (m : machine)
    (pmin T h : Nat) (s0 s : arena_t) (ops : List op) (live : List Nat)
    (hc : heap_create_ex asserts debug fuel0 m pmin T = .ok (h, s0)) (hh : h ≠ 0)
    (hp : 4096 ≤ pmin) (hp2 : pmin < 2 ^ 64 - 16)
    (hadm : admissible asserts fuel1 s0 [] ops = true)
    (hrun : run asserts fuel1 s0 [] ops = .ok (s, live))
    (hlog : regions_disjoint s.log) :
    s.self = h ∧ s.size s.self = 0 ∧ (∃ k, s.next^[k] s.free = s.self) ∧
      (∃ k, s.next^[k] s.self = s.free) ∧ ∀ p ∈ live, p - sizeof_node_t ≠ s.self := by
  obtain ⟨g, L, B, hi, hl, hself, -⟩ := reachable_inv hc hh hp hp2 hadm hrun hlog
  have w := hi.wf
  refine ⟨hself, w.self_size, (w.free_list _).1 w.self_F, (w.sentinel_list _).1 w.free_F,
    fun p hpl he => ?_⟩
  obtain ⟨hdr, hL, rfl⟩ := (hl.2 p).1 hpl
  have hU := hi.bn.live_U _ hL
  simp only [Nat.add_sub_cancel] at he
  exact w.self_not_U (he ▸ hU)

/-- C15 (witness): the client session on the arena of 4096 byte pages and
threshold 64. -/
theorem sentinel_and_cursor_witness :
    heap_create_ex true true 64 (fresh_machine [1000, 2000, 65536]) 4096 64
        = .ok (1000, client_start) ∧
      admissible true 64 client_start [] client_ops = true ∧
      run true 64 client_start [] client_ops = .ok (client_end, [69504, 68304, 69552]) ∧
      regions_disjoint client_end.log ∧
      client_end.self = 1000 ∧ client_end.size client_end.self = 0 ∧
      (∃ k, client_end.next^[k] client_end.free = client_end.self) ∧
      (∃ k, client_end.next^[k] client_end.self = client_end.free) ∧
      ∀ p ∈ [69504, 68304, 69552], p - sizeof_node_t ≠ client_end.self :=
  ⟨rfl, by decide!, rfl, by decide!,
    sentinel_and_cursor true true 64 64 (fresh_machine [1000, 2000, 65536]) 4096 64 1000
      client_start client_end client_ops [69504, 68304, 69552] rfl (by decide) (by decide)
      (by decide) (by decide!) rfl (by decide!)⟩

/-- C19.  Free blocks and pages, in every state reached from an arena returned
by `heap_create_ex` by a sequence of calls as in C5 (the backing allocator
having handed out pairwise disjoint regions), `P` being the ledger of pages:
every block of the free list with units lies in the usable part of exactly one
page of `P` (after its header, one unit short of its end); no block that lies
in a page ends at the sentinel; and a block of one page never ends where a
block of another page starts, however the pages lie in memory. -/
theorem free_blocks_within_pages (asserts debug : Bool) (fuel0 fuel1 : Nat) (m : machine)
    (pmin T h : Nat) (s0 s : arena_t) (ops : List op) (live : List Nat)
    (hc : heap_create_ex asserts debug fuel0 m pmin T = .ok (h, s0)) (hh : h ≠ 0)
    (hp : 4096 ≤ pmin) (hp2 : pmin < 2 ^ 64 - 16)
    (hadm : admissible asserts fuel1 s0 [] ops = true)
    (hrun : run asserts fuel1 s0 [] ops = .ok (s, live))
    (hlog : regions_disjoint s.log) :
    ∃ P : List Nat, ledger s.next s.allocated P ∧
      (∀ k, 0 < s.size (s.next^[k] s.free) →
        ∃ pg, (pg ∈ P ∧ in_page s pg (s.next^[k] s.free)) ∧
          ∀ pg', pg' ∈ P ∧ in_page s pg' (s.next^[k] s.free) → pg' = pg) ∧
      (∀ pg ∈ P, ∀ x, in_page s pg x → x + s.size x * sizeof_node_t ≠ s.self) ∧
      (∀ pg ∈ P, ∀ pg' ∈ P, pg ≠ pg' → ∀ x y, in_page s pg x → in_page s pg' y →
        x + s.size x * sizeof_node_t ≠ y) := by
  obtain ⟨g, L, B, hi, -, -⟩ := reachable_inv hc hh hp hp2 hadm hrun hlog
  have w := hi.wf
  refine ⟨g.P, w.chain, fun k hpos => ?_, fun pg hpg x hx => ?_,
    fun pg hpg pg' hpg' hne x y hx hy => ?_⟩
  · have hF := csucc_iterate_mem w.succ w.free_F k
    have hs : s.next^[k] s.free ≠ s.self := by
      intro e
      rw [e, w.self_size] at hpos
      omega
    obtain ⟨pg, hpg, hin⟩ := w.paged _ (Or.inl hF) hs
    refine ⟨pg, ⟨hpg, hin⟩, ?_⟩
    rintro pg' ⟨hpg', hin'⟩
    obtain ⟨a1, a2, -, -⟩ := hin
    obtain ⟨b1, b2, -, -⟩ := hin'
    exact w.page_eq hpg' hpg (z := s.next^[k] s.free) (by omega) (by omega) (by omega) (by omega)
  · obtain ⟨a1, a2, -, -⟩ := hx
    have := w.pg_self pg hpg
    unfold sizeof_node_t
    omega
  · obtain ⟨a1, a2, -, a4⟩ := hx
    obtain ⟨b1, b2, -, b4⟩ := hy
    unfold sizeof_node_t
    rcases Nat.lt_or_gt_of_ne hne with hlt | hlt
    · have := w.pg_disj pg hpg pg' hpg' hlt
      omega
    · have := w.pg_disj pg' hpg' pg hpg hlt
      omega

/-- C19 (witness): the client session on the arena of 4096 byte pages and
threshold 64. -/
theorem free_blocks_within_pages_witness :
    heap_create_ex true true 64 (fresh_machine [1000, 2000, 65536]) 4096 64
        = .ok (1000, client_start) ∧
      admissible true 64 client_start [] client_ops = true ∧
      run true 64 client_start [] client_ops = .ok (client_end, [69504, 68304, 69552]) ∧
      regions_disjoint client_end.log ∧
      ∃ P : List Nat, ledger client_end.next client_end.allocated P ∧
        (∀ k, 0 < client_end.size (client_end.next^[k] client_end.free) →
          ∃ pg, (pg ∈ P ∧ in_page client_end pg (client_end.next^[k] client_end.free)) ∧
            ∀ pg', pg' ∈ P ∧ in_page client_end pg' (client_end.next^[k] client_end.free) →
              pg' = pg) ∧
        (∀ pg ∈ P, ∀ x, in_page client_end pg x →
          x + client_end.size x * sizeof_node_t ≠ client_end.self) ∧
        (∀ pg ∈ P, ∀ pg' ∈ P, pg ≠ pg' → ∀ x y, in_page client_end pg x →
          in_page client_end pg' y → x + client_end.size x * sizeof_node_t ≠ y) :=
  ⟨rfl, by decide!, rfl, by decide!,
    free_blocks_within_pages true true 64 64 (fresh_machine [1000, 2000, 65536]) 4096 64 1000
      client_start client_end client_ops [69504, 68304, 69552] rfl (by decide) (by decide)
      (by decide) (by decide!) rfl (by decide!)⟩

/-! ## Threshold 1 and requests of 0 bytes -/

/-- C20 (failing input).  A request of 0 bytes on a fresh arena: the unit count
is 0, `arena_alloc` hands out a bare header of one unit, and the
`assert(n->size > 1)` reached from the assertion at the end of `heap_alloc`
fails; with asserts compiled out the pointer 69632 is returned, the header
before it having size 1. -/
theorem zero_request_assert_fails :
    outcome (zero_request true) = .error .assert_failed ∧
      outcome (zero_request false) = .ok (69632, 1) := by
  refine ⟨by decide!, by decide!⟩

/-- C18 (failing input).  Threshold 1: `heap_create_ex` succeeds with one call
to the backing allocator, for the control structure, and leaves `bins` null;
`heap_alloc` of 0 bytes (unit-rounded size 0, below the threshold) and
`heap_destroy` then read `bins[0]`. -/
theorem threshold_one_bins_never_allocated :
    outcome (small_arena true 1 [65536]) = .ok 1000 ∧
      calls (small_arena true 1 [65536]) = .ok [call.alloc 80 1000] ∧
      threshold_one_arena.recycle_smaller_then_bytes = 1 ∧
      threshold_one_arena.bins = 0 ∧
      outcome (heap_alloc true 64 threshold_one_arena 0) = .error .null_deref ∧
      outcome (heap_alloc false 64 threshold_one_arena 0) = .error .null_deref ∧
      outcome (heap_destroy true 64 threshold_one_arena) = .error .null_deref := by
  refine ⟨by decide!, by decide!, by decide!, by decide!, by decide!, by decide!, by decide!⟩

/-- C11 (failing input).  On the arena of threshold 1 `heap_compact` reads
`bins[0]` through the null `bins`: it returns for no fuel. -/
theorem threshold_one_compact_null_deref :
    outcome (small_arena true 1 [65536]) = .ok 1000 ∧
      heap_compact 64 threshold_one_arena = .error .null_deref ∧
      ∀ fuel s', heap_compact fuel threshold_one_arena ≠ .ok s' := by
  refine ⟨by decide!, rfl, fun fuel s' h => ?_⟩
  have hT : threshold_one_arena.recycle_smaller_then_bytes = 1 := by decide!
  have hb : threshold_one_arena.bins = 0 := by decide!
  cases fuel with
  | zero =>
    simp [heap_compact, hT, heap_compact_loop, heap_compact_bin, bind, Except.bind] at h
  | succ k =>
    simp [heap_compact, hT, heap_compact_loop, heap_compact_bin, bins_get, deref, hb, bind,
      Except.bind] at h

/-! ## The search of `arena_free` within one circuit -/

theorem csucc_reach_le_bound {F : Finset Nat} {nx : Nat → Nat}
    (h : ∀ f ∈ F, csucc F f (nx f)) :
    ∀ (n f x : Nat), f ∈ F → x ∈ F → f ≤ x →
      (F.filter (fun y => f < y ∧ y ≤ x)).card ≤ n → ∃ k, k ≤ n ∧ nx^[k] f = x := by
  intro n
  induction n with
  | zero =>
    intro f x hf hx hfx hc
    by_cases he : f = x
    · exact ⟨0, le_refl _, he⟩
    · have hm : x ∈ F.filter (fun y => f < y ∧ y ≤ x) := by
        simp only [Finset.mem_filter]; exact ⟨hx, by omega, le_refl _⟩
      have := Finset.card_pos.2 ⟨x, hm⟩
      omega
  | succ n ih =>
    intro f x hf hx hfx hc
    by_cases he : f = x
    · exact ⟨0, Nat.zero_le _, he⟩
    · obtain ⟨hnF, h1 | h1⟩ := h f hf
      · have hle : nx f ≤ x := h1.2 x hx (by omega)
        have hsub : F.filter (fun y => nx f < y ∧ y ≤ x) ⊂ F.filter (fun y => f < y ∧ y ≤ x) := by
          refine Finset.ssubset_iff_subset_ne.2 ⟨?_, ?_⟩
          · intro y hy
            simp only [Finset.mem_filter] at hy ⊢
            exact ⟨hy.1, by omega, hy.2.2⟩
          · intro heq
            have hm : nx f ∈ F.filter (fun y => f < y ∧ y ≤ x) := by
              simp only [Finset.mem_filter]; exact ⟨hnF, h1.1, hle⟩
            rw [← heq] at hm
            simp only [Finset.mem_filter] at hm
            omega
        have hcard := Finset.card_lt_card hsub
        obtain ⟨k, hkn, hk⟩ := ih (nx f) x hnF hx hle (by omega)
        exact ⟨k + 1, by omega, by rw [Function.iterate_succ_apply]; exact hk⟩
      · have := h1.1 x hx
        omega

/-- Every node of `F` is reached from any node of `F` in fewer steps than `F`
has nodes. -/
theorem csucc_reach_lt {F : Finset Nat} {nx : Nat → Nat} (h : ∀ f ∈ F, csucc F f (nx f))
    {f x : Nat} (hf : f ∈ F) (hx : x ∈ F) : ∃ k, k < F.card ∧ nx^[k] f = x := by
  by_cases hfx : f ≤ x
  · obtain ⟨k, hk, he⟩ := csucc_reach_le_bound h _ f x hf hx hfx (le_refl _)
    refine ⟨k, ?_, he⟩
    have hsub : F.filter (fun y => f < y ∧ y ≤ x) ⊆ F.erase f := by
      intro y hy
      simp only [Finset.mem_filter] at hy
      exact Finset.mem_erase.2 ⟨by omega, hy.1⟩
    have h1 := Finset.card_le_card hsub
    have h2 := Finset.card_erase_of_mem hf
    have h3 : 0 < F.card := Finset.card_pos.2 ⟨f, hf⟩
    omega
  · have hne : F.Nonempty := ⟨f, hf⟩
    have hM := F.max'_mem hne
    obtain ⟨k1, hk1, he1⟩ :=
      csucc_reach_le_bound h _ f (F.max' hne) hf hM (F.le_max' f hf) (le_refl _)
    obtain ⟨hnF, h1 | h1⟩ := h _ hM
    · have := F.le_max' _ hnF
      omega
    · obtain ⟨k2, hk2, he2⟩ :=
        csucc_reach_le_bound h _ (nx (F.max' hne)) x hnF hx (h1.2 x hx) (le_refl _)
      refine ⟨k2 + (k1 + 1), ?_, ?_⟩
      · have hd : Disjoint (F.filter (fun y => f < y ∧ y ≤ F.max' hne))
            (insert (nx (F.max' hne)) (F.filter (fun y => nx (F.max' hne) < y ∧ y ≤ x))) := by
          rw [Finset.disjoint_left]
          intro y hy hy'
          simp only [Finset.mem_filter, Finset.mem_insert] at hy hy'
          have hmx := h1.2 x hx
          rcases hy' with e | e
          · omega
          · omega
        have hsub : F.filter (fun y => f < y ∧ y ≤ F.max' hne) ∪
            insert (nx (F.max' hne)) (F.filter (fun y => nx (F.max' hne) < y ∧ y ≤ x))
              ⊆ F.erase f := by
          intro y hy
          simp only [Finset.mem_union, Finset.mem_filter, Finset.mem_insert] at hy
          have hmx := h1.2 x hx
          refine Finset.mem_erase.2 ⟨?_, ?_⟩
          · rcases hy with e | e | e
            · omega
            · omega
            · omega
          · rcases hy with e | e | e
            · exact e.1
            · rw [e]; exact hnF
            · exact e.1
        have hc := Finset.card_le_card hsub
        rw [Finset.card_union_of_disjoint hd, Finset.card_insert_of_not_mem (by
          simp only [Finset.mem_filter]
          omega)] at hc
        have h2 := Finset.card_erase_of_mem hf
        have h3 : 0 < F.card := Finset.card_pos.2 ⟨f, hf⟩
        omega
      · rw [Function.iterate_add_apply, Function.iterate_succ_apply', he1, he2]

/-- The pair of neighbours that encloses an address is unique. -/
theorem between_unique {F : Finset Nat} {nx : Nat → Nat} (h : ∀ f ∈ F, csucc F f (nx f))
    {a g g' : Nat} (hg : g ∈ F) (hg' : g' ∈ F) (hb : between a g (nx g))
    (hb' : between a g' (nx g')) : g' = g := by
  have hn := (h g hg).1
  have hn' := (h g' hg').1
  rcases between_position (h g hg) hb with ⟨a1, a2, a3⟩ | ⟨a1, a2, a3⟩
  · rcases between_position (h g' hg') hb' with ⟨b1, b2, b3⟩ | ⟨b1, b2, b3⟩
    · have c1 := a3 g' hg'
      have c2 := b3 g hg
      omega
    · have c1 := b1 _ hn
      have c2 := b2 g hg
      omega
  · rcases between_position (h g' hg') hb' with ⟨b1, b2, b3⟩ | ⟨b1, b2, b3⟩
    · have c1 := a1 _ hn'
      have c2 := a2 g' hg'
      omega
    · exact le_antisymm (a1 g' hg') (b1 g hg)

theorem arena_free_find_reach {s : arena_t} {F : Finset Nat} {a g : Nat}
    (hs : ∀ f ∈ F, csucc F f (s.next f)) (h0 : 0 ∉ F) (hg : g ∈ F)
    (hb : between a g (s.next g)) :
    ∀ (k f fuel : Nat), f ∈ F → s.next^[k] f = g → k < fuel →
      arena_free_find s a fuel f (s.next f) = .ok (g, s.next g) := by
  intro k
  induction k with
  | zero =>
    intro f fuel _ he hk
    obtain ⟨j, rfl⟩ : ∃ j, fuel = j + 1 := ⟨fuel - 1, by omega⟩
    have hfg : f = g := he
    subst hfg
    rw [arena_free_find_succ]
    exact if_pos hb
  | succ k ih =>
    intro f fuel hf he hk
    obtain ⟨j, rfl⟩ : ∃ j, fuel = j + 1 := ⟨fuel - 1, by omega⟩
    rw [arena_free_find_succ]
    by_cases ht : (f < a ∧ a < s.next f) ∨ (s.next f ≤ f ∧ (f < a ∨ a < s.next f))
    · have hfg : f = g := between_unique hs hg hf hb ht
      subst hfg
      rw [if_pos ht]
    · rw [if_neg ht]
      have hn := (hs f hf).1
      have hn0 : s.next f ≠ 0 := fun e => h0 (e ▸ hn)
      rw [deref_of_ne hn0, ok_bind]
      exact ih (s.next f) j hn (by rwa [Function.iterate_succ_apply] at he) (by omega)

/-- C16.  The search loop of `arena_free` on a list in address order (the
successor of a node of `F` is the next higher node, or the lowest after the
highest; no node is null), from any cursor `f0` of the list, for an address `a`
that is not a node of the list: there is exactly one pair of neighbours
`g`, `next g` that passes the exit test, that is, encloses `a` in the wrapping
address order, and the loop returns that pair as soon as its fuel allows as
many tests as the list has nodes, one circuit. -/
theorem arena_free_find_one_circuit (s : arena_t) (F : Finset Nat) (a f0 : Nat)
    (hs : ∀ f ∈ F, csucc F f (s.next f)) (h0 : 0 ∉ F) (ha : a ∉ F) (hf : f0 ∈ F) :
    ∃ g ∈ F, between a g (s.next g) ∧
      (∀ g' ∈ F, between a g' (s.next g') → g' = g) ∧
      ∀ fuel, F.card ≤ fuel → arena_free_find s a fuel f0 (s.next f0) = .ok (g, s.next g) := by
  obtain ⟨g, hg, -, hb⟩ := arena_free_find_total s F a hs h0 ha
    ((F.filter (fun x => f0 ≤ x)).card + F.card + 1) f0 hf (by omega)
  refine ⟨g, hg, hb, fun g' hg' hb' => between_unique hs hg hg' hb hb', fun fuel hfuel => ?_⟩
  obtain ⟨k, hk, he⟩ := csucc_reach_lt hs hf hg
  exact arena_free_find_reach hs h0 hg hb k f0 fuel hf he (by omega)

/-- C16 (witness): the free list at the end of the client session, whose nodes
are 1000, 65552, 69312 and 69584, the cursor being 65552, and the header 69488
of a block of the client. -/
theorem arena_free_find_one_circuit_witness :
    (∀ f ∈ ({1000, 65552, 69312, 69584} : Finset Nat),
        csucc {1000, 65552, 69312, 69584} f (client_end.next f)) ∧
      (0 : Nat) ∉ ({1000, 65552, 69312, 69584} : Finset Nat) ∧
      (69488 : Nat) ∉ ({1000, 65552, 69312, 69584} : Finset Nat) ∧
      (65552 : Nat) ∈ ({1000, 65552, 69312, 69584} : Finset Nat) ∧
      ∃ g ∈ ({1000, 65552, 69312, 69584} : Finset Nat),
        between 69488 g (client_end.next g) ∧
        (∀ g' ∈ ({1000, 65552, 69312, 69584} : Finset Nat),
          between 69488 g' (client_end.next g') → g' = g) ∧
        ∀ fuel, ({1000, 65552, 69312, 69584} : Finset Nat).card ≤ fuel →
          arena_free_find client_end 69488 fuel 65552 (client_end.next 65552)
            = .ok (g, client_end.next g) :=
  ⟨by decide!, by decide, by decide, by decide,
    arena_free_find_one_circuit client_end {1000, 65552, 69312, 69584} 69488 65552
      (by decide!) (by decide) (by decide) (by decide)⟩

/-! ## The block `arena_alloc` takes -/

theorem arena_alloc_search_succ_eq (nu fuel : Nat) (s : arena_t) (prev p : Nat) :
    arena_alloc_search nu (fuel + 1) s prev p =
      (deref p >>= fun _ =>
        if s.size p < nu then
          if p = s.free then
            (arena_alloc_pages fuel s nu >>= fun r =>
              if r.1 = 0 then pure (none, r.2)
              else arena_alloc_search nu fuel r.2 r.1 (r.2.next r.1))
          else arena_alloc_search nu fuel s p (s.next p)
        else pure (some (prev, p), s)) := rfl

/-- The search of `arena_alloc` stops at the first node, in list order after
`prev`, that has `nu` units, as long as it meets it before the cursor. -/
theorem arena_alloc_search_first_fit {s : arena_t} {nu : Nat} :
    ∀ (j prev fuel : Nat),
      (∀ i, i < j → s.size (s.next^[i + 1] prev) < nu ∧ s.next^[i + 1] prev ≠ s.free) →
      nu ≤ s.size (s.next^[j + 1] prev) → (∀ i, i ≤ j → s.next^[i + 1] prev ≠ 0) → j < fuel →
      arena_alloc_search nu fuel s prev (s.next prev)
        = .ok (some (s.next^[j] prev, s.next^[j + 1] prev), s) := by
  intro j
  induction j with
  | zero =>
    intro prev fuel _ hfit hnz hfuel
    obtain ⟨k, rfl⟩ : ∃ k, fuel = k + 1 := ⟨fuel - 1, by omega⟩
    have h0 : s.next prev ≠ 0 := hnz 0 (le_refl _)
    have hf : ¬ s.size (s.next prev) < nu := by
      have : nu ≤ s.size (s.next prev) := hfit
      omega
    rw [arena_alloc_search_succ_eq, deref_of_ne h0, ok_bind, if_neg hf]
    rfl
  | succ j ih =>
    intro prev fuel hsmall hfit hnz hfuel
    obtain ⟨k, rfl⟩ : ∃ k, fuel = k + 1 := ⟨fuel - 1, by omega⟩
    have h0 : s.next prev ≠ 0 := hnz 0 (Nat.zero_le _)
    obtain ⟨hlt, hne⟩ := hsmall 0 (Nat.succ_pos _)
    have hlt' : s.size (s.next prev) < nu := hlt
    have hne' : s.next prev ≠ s.free := hne
    rw [arena_alloc_search_succ_eq, deref_of_ne h0, ok_bind, if_pos hlt', if_neg hne']
    have key := ih (s.next prev) k
      (fun i hi => by
        have := hsmall (i + 1) (by omega)
        rwa [Function.iterate_succ_apply] at this)
      (by rwa [Function.iterate_succ_apply] at hfit)
      (fun i hi => by
        have := hnz (i + 1) (by omega)
        rwa [Function.iterate_succ_apply] at this)
      (by omega)
    rw [key]
    rfl

/-- The state `arena_alloc` leaves when the first node that fits is met before
the cursor: the node unlinked, or the block cut from its end. -/
theorem arena_alloc_first_fit_eq (s : arena_t) (n j : Nat)
    (hnz : ∀ i, i ≤ j + 1 → s.next^[i] s.free ≠ 0)
    (hsmall : ∀ i, i < j → s.size (s.next^[i + 1] s.free) < number_of_units n + 1 ∧
      s.next^[i + 1] s.free ≠ s.free)
    (hfit : number_of_units n + 1 ≤ s.size (s.next^[j + 1] s.free))
    (hsz : s.size (s.next^[j + 1] s.free) < SIZE_T) (fuel : Nat) (hfuel : j < fuel) :
    (s.size (s.next^[j + 1] s.free) = number_of_units n + 1 →
      arena_alloc fuel s n = .ok (s.next^[j + 1] s.free + sizeof_node_t,
        ((s.set_next (s.next^[j] s.free) (s.next (s.next^[j + 1] s.free))).set_free
          (s.next^[j] s.free)).set_next (s.next^[j + 1] s.free) 0)) ∧
    (number_of_units n + 1 < s.size (s.next^[j + 1] s.free) →
      arena_alloc fuel s n = .ok (s.next^[j + 1] s.free
          + 16 * (s.size (s.next^[j + 1] s.free) - (number_of_units n + 1)) + sizeof_node_t,
        (((s.set_size (s.next^[j + 1] s.free)
            (s.size (s.next^[j + 1] s.free) - (number_of_units n + 1))).set_size
          (s.next^[j + 1] s.free
            + 16 * (s.size (s.next^[j + 1] s.free) - (number_of_units n + 1)))
          (number_of_units n + 1)).set_free (s.next^[j] s.free)).set_next
          (s.next^[j + 1] s.free
            + 16 * (s.size (s.next^[j + 1] s.free) - (number_of_units n + 1))) 0)) := by
  have hu := number_of_units_lt n
  have hnu : (number_of_units n + 1) % SIZE_T = number_of_units n + 1 := by
    unfold SIZE_T; omega
  have hf0 : s.free ≠ 0 := hnz 0 (Nat.zero_le _)
  have hsearch : arena_alloc_search (number_of_units n + 1) fuel s s.free (s.next s.free)
      = .ok (some (s.next^[j] s.free, s.next^[j + 1] s.free), s) :=
    arena_alloc_search_first_fit j s.free fuel hsmall hfit (fun i hi => hnz (i + 1) (by omega))
      hfuel
  have hp0 : s.next^[j + 1] s.free ≠ 0 := hnz (j + 1) (le_refl _)
  have hprev0 : s.next^[j] s.free ≠ 0 := hnz j (by omega)
  clear hnz hsmall
  generalize s.next^[j + 1] s.free = p at *
  generalize s.next^[j] s.free = prev at *
  refine ⟨fun hex => ?_, fun hlt => ?_⟩
  · simp only [arena_alloc, hnu, deref_of_ne hf0, ok_bind, hsearch, if_pos hex,
      deref_of_ne hprev0]
    rfl
  · have hex : ¬ s.size p = number_of_units n + 1 := by omega
    have hsub : (s.size p + SIZE_T - (number_of_units n + 1)) % SIZE_T
        = s.size p - (number_of_units n + 1) := by
      unfold SIZE_T at hsz ⊢
      omega
    have hq0 : p + 16 * (s.size p - (number_of_units n + 1)) ≠ 0 := by omega
    simp only [arena_alloc, hnu, deref_of_ne hf0, ok_bind, hsearch, if_neg hex, hsub,
      arena_t.set_size_size_eq, poke_same, ptr_add, deref_of_ne hq0]
    rfl

/-- The block `arena_alloc` takes when a node fits before the cursor is met.
Let `p`, the node `j + 1` steps
after the cursor, be the first node in list order after the cursor that has
`nu = number_of_units n + 1` units, met before the search is back at the cursor
(the nodes on the way are not null and sizes are `size_t` values), and let
`prev` be its predecessor.  With fuel for `j + 1` tests `arena_alloc` returns,
without calling the backing allocator, and leaves the cursor at `prev`.  If the
size of `p` is `nu`, it returns the address after the header of `p`, the `next`
of `prev` is the former `next` of `p`, and no size and no other `next` than
that of `p` has changed.  If the size is larger, it returns the address after
the header of a block `q` of `nu` units that ends where `p` ended, the size of
`p` is reduced by `nu`, and no other size and no `next` other than that of `q`
has changed. -/
theorem arena_alloc_fit_post (s : arena_t) (n j : Nat)
    (hnz : ∀ i, i ≤ j + 1 → s.next^[i] s.free ≠ 0)
    (hsmall : ∀ i, i < j → s.size (s.next^[i + 1] s.free) < number_of_units n + 1 ∧
      s.next^[i + 1] s.free ≠ s.free)
    (hfit : number_of_units n + 1 ≤ s.size (s.next^[j + 1] s.free))
    (hsz : s.size (s.next^[j + 1] s.free) < SIZE_T) (fuel : Nat) (hfuel : j < fuel) :
    ∃ a s', arena_alloc fuel s n = .ok (a, s') ∧ s'.free = s.next^[j] s.free ∧
      s'.log = s.log ∧ s'.that = s.that ∧
      (s.size (s.next^[j + 1] s.free) = number_of_units n + 1 →
        a = s.next^[j + 1] s.free + sizeof_node_t ∧
        (s.next^[j] s.free ≠ s.next^[j + 1] s.free →
          s'.next (s.next^[j] s.free) = s.next (s.next^[j + 1] s.free)) ∧
        (∀ x, s'.size x = s.size x) ∧
        (∀ x, x ≠ s.next^[j] s.free → x ≠ s.next^[j + 1] s.free → s'.next x = s.next x)) ∧
      (number_of_units n + 1 < s.size (s.next^[j + 1] s.free) →
        ∃ q, q = s.next^[j + 1] s.free
            + (s.size (s.next^[j + 1] s.free) - (number_of_units n + 1)) * sizeof_node_t ∧
          a = q + sizeof_node_t ∧
          q + (number_of_units n + 1) * sizeof_node_t
            = s.next^[j + 1] s.free + s.size (s.next^[j + 1] s.free) * sizeof_node_t ∧
          s'.size (s.next^[j + 1] s.free)
            = s.size (s.next^[j + 1] s.free) - (number_of_units n + 1) ∧
          s'.size q = number_of_units n + 1 ∧
          (∀ x, x ≠ s.next^[j + 1] s.free → x ≠ q → s'.size x = s.size x) ∧
          (∀ x, x ≠ q → s'.next x = s.next x)) := by
  have hu := number_of_units_lt n
  have hnu : (number_of_units n + 1) % SIZE_T = number_of_units n + 1 := by
    unfold SIZE_T; omega
  have hf0 : s.free ≠ 0 := hnz 0 (Nat.zero_le _)
  have hsearch : arena_alloc_search (number_of_units n + 1) fuel s s.free (s.next s.free)
      = .ok (some (s.next^[j] s.free, s.next^[j + 1] s.free), s) :=
    arena_alloc_search_first_fit j s.free fuel hsmall hfit (fun i hi => hnz (i + 1) (by omega))
      hfuel
  have hp0 : s.next^[j + 1] s.free ≠ 0 := hnz (j + 1) (le_refl _)
  have hprev0 : s.next^[j] s.free ≠ 0 := hnz j (by omega)
  clear hnz hsmall
  generalize s.next^[j + 1] s.free = p at *
  generalize s.next^[j] s.free = prev at *
  by_cases hex : s.size (p) = number_of_units n + 1
  · refine ⟨p + sizeof_node_t,
      ((s.set_next (prev) (s.next (p))).set_free
        (prev)).set_next (p) 0, ?_, rfl, rfl, rfl, ?_, ?_⟩
    · simp only [arena_alloc, hnu, deref_of_ne hf0, ok_bind, hsearch, if_pos hex,
        deref_of_ne hprev0]
      rfl
    · intro _
      refine ⟨rfl, fun hne => ?_, fun x => rfl, fun x hx1 hx2 => ?_⟩
      · simp [poke, hne]
      · simp [poke, hx1, hx2]
    · intro hlt
      omega
  · have hlt : number_of_units n + 1 < s.size (p) := by omega
    have hsub : (s.size (p) + SIZE_T - (number_of_units n + 1)) % SIZE_T
        = s.size (p) - (number_of_units n + 1) := by
      unfold SIZE_T at hsz ⊢
      omega
    have hq0 : p
        + (s.size (p) - (number_of_units n + 1)) * sizeof_node_t ≠ 0 := by
      omega
    refine ⟨p
        + (s.size (p) - (number_of_units n + 1)) * sizeof_node_t
        + sizeof_node_t,
      (((s.set_size (p)
          (s.size (p) - (number_of_units n + 1))).set_size
        (p
          + (s.size (p) - (number_of_units n + 1)) * sizeof_node_t)
        (number_of_units n + 1)).set_free (prev)).set_next
        (p
          + (s.size (p) - (number_of_units n + 1)) * sizeof_node_t) 0,
      ?_, rfl, rfl, rfl, fun he => absurd he hex, fun _ => ?_⟩
    · simp only [arena_alloc, hnu, deref_of_ne hf0, ok_bind, hsearch, if_neg hex, hsub,
        arena_t.set_size_size_eq, poke_same, deref_of_ne hq0]
      rfl
    · have hqp : p
          + (s.size (p) - (number_of_units n + 1)) * sizeof_node_t
          ≠ p := by
        unfold sizeof_node_t
        omega
      refine ⟨_, rfl, rfl, ?_, ?_, ?_, fun x hx1 hx2 => ?_, fun x hx => ?_⟩
      · unfold sizeof_node_t
        omega
      · simp [poke, hqp.symm]
      · simp [poke]
      · simp [poke, hx1, hx2]
      · simp [poke, hx]

theorem arena_alloc_search_some {nu : Nat} : ∀ {fuel : Nat} {s s' : arena_t}
    {prev p prev' p' : Nat}, arena_alloc_search nu fuel s prev p = .ok (some (prev', p'), s') →
    nu ≤ s'.size p'
  | 0, _, _, _, _, _, _, h => by simp [arena_alloc_search] at h
  | fuel + 1, s, s', prev, p, prev', p', h => by
    rw [arena_alloc_search_succ_eq] at h
    simp only [bind_ok, deref_ok] at h
    obtain ⟨-, -, h⟩ := h
    split at h
    · split at h
      · simp only [bind_ok] at h
        obtain ⟨r1, -, h⟩ := h
        split at h
        · simp only [pure_ok, Prod.mk.injEq] at h
          exact absurd h.1 (by simp)
        · exact arena_alloc_search_some h
      · exact arena_alloc_search_some h
    · rename_i hge
      simp only [pure_ok, Prod.mk.injEq, Option.some.injEq] at h
      obtain ⟨⟨-, rfl⟩, rfl⟩ := h
      omega

/-- What `arena_alloc` does with the node `p` at which its search ends, in the
state `t0` the search has left (the state of the call, or the state after the
growth the search went through). -/
theorem arena_alloc_post {t t' : arena_t} {n fuel a : Nat}
    (hr : arena_alloc fuel t n = .ok (a, t')) (ha : a ≠ 0) :
    ∃ (t0 : arena_t) (prev p : Nat),
      arena_alloc_search (number_of_units n + 1) fuel t t.free (t.next t.free)
        = .ok (some (prev, p), t0) ∧
      number_of_units n + 1 ≤ t0.size p ∧ t'.free = prev ∧ t'.log = t0.log ∧
      (t0.size p = number_of_units n + 1 →
        a = p + sizeof_node_t ∧ (prev ≠ p → t'.next prev = t0.next p) ∧
        (∀ x, t'.size x = t0.size x) ∧
        (∀ x, x ≠ prev → x ≠ p → t'.next x = t0.next x)) ∧
      (number_of_units n + 1 < t0.size p → t0.size p < SIZE_T →
        ∃ q, q = p + (t0.size p - (number_of_units n + 1)) * sizeof_node_t ∧
          a = q + sizeof_node_t ∧
          t'.size p = t0.size p - (number_of_units n + 1) ∧
          t'.size q = number_of_units n + 1 ∧
          (∀ x, x ≠ p → x ≠ q → t'.size x = t0.size x) ∧
          (∀ x, x ≠ q → t'.next x = t0.next x)) := by
  have hu := number_of_units_lt n
  have hnu : (number_of_units n + 1) % SIZE_T = number_of_units n + 1 := by
    unfold SIZE_T; omega
  simp only [arena_alloc, hnu, bind_ok, deref_ok] at hr
  obtain ⟨-, -, ⟨r, t0⟩, hs, hr⟩ := hr
  simp only at hr
  split at hr
  · simp only [pure_ok, Prod.mk.injEq] at hr
    exact absurd hr.1.symm ha
  · rename_i prev p
    have hfit := arena_alloc_search_some hs
    refine ⟨t0, prev, p, hs, hfit, ?_⟩
    split at hr
    · rename_i hex
      simp only [bind_ok, pure_ok, deref_ok, Prod.mk.injEq] at hr
      obtain ⟨-, -, rfl, rfl⟩ := hr
      refine ⟨rfl, rfl, fun _ => ⟨rfl, fun hne => ?_, fun x => rfl, fun x hx1 hx2 => ?_⟩,
        fun hlt => absurd hex (by omega)⟩
      · simp [poke, hne]
      · simp [poke, hx1, hx2]
    · rename_i hex
      simp only [bind_ok, pure_ok, deref_ok, Prod.mk.injEq, arena_t.set_size_size_eq,
        poke_same] at hr
      obtain ⟨-, -, rfl, rfl⟩ := hr
      refine ⟨rfl, rfl, fun he => absurd he hex, fun hlt hsz => ?_⟩
      have hsub : (t0.size p + SIZE_T - (number_of_units n + 1)) % SIZE_T
          = t0.size p - (number_of_units n + 1) := by
        unfold SIZE_T at hsz ⊢
        omega
      rw [hsub]
      have hqp : p + (t0.size p - (number_of_units n + 1)) * sizeof_node_t ≠ p := by
        unfold sizeof_node_t
        omega
      refine ⟨_, rfl, rfl, ?_, ?_, fun x hx1 hx2 => ?_, fun x hx => ?_⟩
      · simp [poke, hqp.symm]
      · simp [poke]
      · simp [poke, hx1, hx2]
      · simp [poke, hx]

/-- C17.  Split postcondition of `arena_alloc`.  Let `p`, the node `j + 1` steps
after the cursor, be the first node in list order after the cursor that has
`nu = number_of_units n + 1` units, met before the search is back at the cursor
(the nodes on the way are not null and sizes are `size_t` values), and let
`prev` be its predecessor.  With fuel for `j + 1` tests `arena_alloc` returns,
without calling the backing allocator, and leaves the cursor at `prev`.  If the
size of `p` is `nu`, it returns the address after the header of `p`, the `next`
of `prev` is the former `next` of `p`, and no size and no other `next` than
that of `p` has changed.  If the size is larger, it returns the address after
the header of a block `q` of `nu` units that ends where `p` ended, the size of
`p` is reduced by `nu`, and no other size and no `next` other than that of `q`
has changed.  The same holds, whatever the state `t` of the call, of any
non-null result with respect to the pair `prev`, `p` at which the search ended
and the state `t0` it left, growth included. -/
theorem arena_alloc_first_fit (s : arena_t) (n j : Nat)
    (hnz : ∀ i, i ≤ j + 1 → s.next^[i] s.free ≠ 0)
    (hsmall : ∀ i, i < j → s.size (s.next^[i + 1] s.free) < number_of_units n + 1 ∧
      s.next^[i + 1] s.free ≠ s.free)
    (hfit : number_of_units n + 1 ≤ s.size (s.next^[j + 1] s.free))
    (hsz : s.size (s.next^[j + 1] s.free) < SIZE_T) (fuel : Nat) (hfuel : j < fuel) :
    (∃ a s', arena_alloc fuel s n = .ok (a, s') ∧ s'.free = s.next^[j] s.free ∧
      s'.log = s.log ∧ s'.that = s.that ∧
      (s.size (s.next^[j + 1] s.free) = number_of_units n + 1 →
        a = s.next^[j + 1] s.free + sizeof_node_t ∧
        (s.next^[j] s.free ≠ s.next^[j + 1] s.free →
          s'.next (s.next^[j] s.free) = s.next (s.next^[j + 1] s.free)) ∧
        (∀ x, s'.size x = s.size x) ∧
        (∀ x, x ≠ s.next^[j] s.free → x ≠ s.next^[j + 1] s.free → s'.next x = s.next x)) ∧
      (number_of_units n + 1 < s.size (s.next^[j + 1] s.free) →
        ∃ q, q = s.next^[j + 1] s.free
            + (s.size (s.next^[j + 1] s.free) - (number_of_units n + 1)) * sizeof_node_t ∧
          a = q + sizeof_node_t ∧
          q + (number_of_units n + 1) * sizeof_node_t
            = s.next^[j + 1] s.free + s.size (s.next^[j + 1] s.free) * sizeof_node_t ∧
          s'.size (s.next^[j + 1] s.free)
            = s.size (s.next^[j + 1] s.free) - (number_of_units n + 1) ∧
          s'.size q = number_of_units n + 1 ∧
          (∀ x, x ≠ s.next^[j + 1] s.free → x ≠ q → s'.size x = s.size x) ∧
          (∀ x, x ≠ q → s'.next x = s.next x))) ∧
    ∀ (t t' : arena_t) (fuel' a' : Nat), arena_alloc fuel' t n = .ok (a', t') → a' ≠ 0 →
      ∃ (t0 : arena_t) (prev p : Nat),
        arena_alloc_search (number_of_units n + 1) fuel' t t.free (t.next t.free)
          = .ok (some (prev, p), t0) ∧
        number_of_units n + 1 ≤ t0.size p ∧ t'.free = prev ∧ t'.log = t0.log ∧
        (t0.size p = number_of_units n + 1 →
          a' = p + sizeof_node_t ∧ (prev ≠ p → t'.next prev = t0.next p) ∧
          (∀ x, t'.size x = t0.size x) ∧
          (∀ x, x ≠ prev → x ≠ p → t'.next x = t0.next x)) ∧
        (number_of_units n + 1 < t0.size p → t0.size p < SIZE_T →
          ∃ q, q = p + (t0.size p - (number_of_units n + 1)) * sizeof_node_t ∧
            a' = q + sizeof_node_t ∧
            t'.size p = t0.size p - (number_of_units n + 1) ∧
            t'.size q = number_of_units n + 1 ∧
            (∀ x, x ≠ p → x ≠ q → t'.size x = t0.size x) ∧
            (∀ x, x ≠ q → t'.next x = t0.next x)) :=
  ⟨arena_alloc_fit_post s n j hnz hsmall hfit hsz fuel hfuel,
    fun _ _ _ _ hr ha => arena_alloc_post hr ha⟩

/-- C17 (witness): the state at the end of the client session and a request of
2000 bytes, 126 units: the nodes after the cursor 65552 have 11, 3 and 0 units,
and the cursor itself, met after three steps, has 171. -/
theorem arena_alloc_first_fit_witness :
    (∀ i, i ≤ 3 + 1 → client_end.next^[i] client_end.free ≠ 0) ∧
      (∀ i, i < 3 → client_end.size (client_end.next^[i + 1] client_end.free)
          < number_of_units 2000 + 1 ∧
        client_end.next^[i + 1] client_end.free ≠ client_end.free) ∧
      number_of_units 2000 + 1 ≤ client_end.size (client_end.next^[3 + 1] client_end.free) ∧
      client_end.size (client_end.next^[3 + 1] client_end.free) < SIZE_T ∧
      ∃ a s', arena_alloc 4 client_end 2000 = .ok (a, s') ∧
        s'.free = client_end.next^[3] client_end.free ∧
        s'.log = client_end.log ∧ s'.that = client_end.that ∧
        (client_end.size (client_end.next^[3 + 1] client_end.free) = number_of_units 2000 + 1 →
          a = client_end.next^[3 + 1] client_end.free + sizeof_node_t ∧
          (client_end.next^[3] client_end.free ≠ client_end.next^[3 + 1] client_end.free →
            s'.next (client_end.next^[3] client_end.free)
              = client_end.next (client_end.next^[3 + 1] client_end.free)) ∧
          (∀ x, s'.size x = client_end.size x) ∧
          (∀ x, x ≠ client_end.next^[3] client_end.free →
            x ≠ client_end.next^[3 + 1] client_end.free → s'.next x = client_end.next x)) ∧
        (number_of_units 2000 + 1 < client_end.size (client_end.next^[3 + 1] client_end.free) →
          ∃ q, q = client_end.next^[3 + 1] client_end.free
              + (client_end.size (client_end.next^[3 + 1] client_end.free)
                - (number_of_units 2000 + 1)) * sizeof_node_t ∧
            a = q + sizeof_node_t ∧
            q + (number_of_units 2000 + 1) * sizeof_node_t
              = client_end.next^[3 + 1] client_end.free
                + client_end.size (client_end.next^[3 + 1] client_end.free) * sizeof_node_t ∧
            s'.size (client_end.next^[3 + 1] client_end.free)
              = client_end.size (client_end.next^[3 + 1] client_end.free)
                - (number_of_units 2000 + 1) ∧
            s'.size q = number_of_units 2000 + 1 ∧
            (∀ x, x ≠ client_end.next^[3 + 1] client_end.free → x ≠ q →
              s'.size x = client_end.size x) ∧
            (∀ x, x ≠ q → s'.next x = client_end.next x)) :=
  ⟨by decide!, by decide!, by decide!, by decide!,
    (arena_alloc_first_fit client_end 2000 3 (by decide!) (by decide!) (by decide!)
      (by decide!) 4 (by decide)).1⟩

/-! ## Fuel does not change what `arena_alloc` returns -/

theorem arena_alloc_pages_mono {fuel fuel' : Nat} {s : arena_t} {nu : Nat}
    {r : Nat × arena_t} (hle : fuel ≤ fuel') (h : arena_alloc_pages fuel s nu = .ok r) :
    arena_alloc_pages fuel' s nu = .ok r := by
  simp only [arena_alloc_pages] at h ⊢
  generalize (if nu < s.parent_min_alloc_in_bytes / sizeof_node_t
    then s.parent_min_alloc_in_bytes / sizeof_node_t else nu) = nu' at h ⊢
  by_cases h0 : (that_alloc s ((nu' + 1) * sizeof_node_t % SIZE_T)).1 = 0
  · rw [if_pos h0] at h ⊢
    exact h
  · rw [if_neg h0] at h ⊢
    simp only [bind_ok] at h ⊢
    obtain ⟨s1, h1, h2⟩ := h
    exact ⟨s1, arena_free_mono hle h1, h2⟩

theorem arena_alloc_search_mono {nu : Nat} : ∀ {fuel fuel' : Nat} {s : arena_t} {prev p : Nat}
    {r : Option (Nat × Nat) × arena_t}, fuel ≤ fuel' →
    arena_alloc_search nu fuel s prev p = .ok r → arena_alloc_search nu fuel' s prev p = .ok r
  | 0, _, _, _, _, _, _, h => by simp [arena_alloc_search] at h
  | fuel + 1, fuel', s, prev, p, r, hle, h => by
    obtain ⟨k, rfl⟩ : ∃ k, fuel' = k + 1 := ⟨fuel' - 1, by omega⟩
    rw [arena_alloc_search_succ_eq] at h ⊢
    simp only [bind_ok, deref_ok] at h ⊢
    obtain ⟨u, hu, h⟩ := h
    refine ⟨u, hu, ?_⟩
    split at h
    · rename_i h1
      rw [if_pos h1]
      split at h
      · rename_i h2
        rw [if_pos h2]
        simp only [bind_ok] at h ⊢
        obtain ⟨r1, hr1, h⟩ := h
        refine ⟨r1, arena_alloc_pages_mono (by omega) hr1, ?_⟩
        split at h
        · rename_i h3
          rw [if_pos h3]
          exact h
        · rename_i h3
          rw [if_neg h3]
          exact arena_alloc_search_mono (by omega) h
      · rename_i h2
        rw [if_neg h2]
        exact arena_alloc_search_mono (by omega) h
    · rename_i h1
      rw [if_neg h1]
      exact h

theorem arena_alloc_mono {fuel fuel' : Nat} {s : arena_t} {n : Nat} {r : Nat × arena_t}
    (hle : fuel ≤ fuel') (h : arena_alloc fuel s n = .ok r) : arena_alloc fuel' s n = .ok r := by
  simp only [arena_alloc, bind_ok] at h ⊢
  obtain ⟨u, hu, r1, hr1, h⟩ := h
  exact ⟨u, hu, r1, arena_alloc_search_mono hle hr1, h⟩

/-! ## No growth while a block of the list fits -/

/-- On a circular list one node of which has `nu` units, `arena_alloc` returns a
block without calling the backing allocator. -/
theorem arena_alloc_no_growth {t : arena_t} {d n : Nat}
    (hper : t.next^[d + 1] t.free = t.free)
    (hmin : ∀ i, 0 < i → i ≤ d → t.next^[i] t.free ≠ t.free)
    (hnz : ∀ i, t.next^[i] t.free ≠ 0)
    (hsz : ∀ i, t.size (t.next^[i] t.free) < SIZE_T)
    (hfit : ∃ i, number_of_units n + 1 ≤ t.size (t.next^[i] t.free))
    {fuel a : Nat} {t' : arena_t} (hr : arena_alloc fuel t n = .ok (a, t')) :
    t'.log = t.log ∧ t'.that = t.that ∧ a ≠ 0 := by
  have hex : ∃ i, i ≤ d ∧ number_of_units n + 1 ≤ t.size (t.next^[i + 1] t.free) := by
    obtain ⟨k, hk⟩ := hfit
    obtain ⟨j, hj, he⟩ := iterate_period hper k
    rw [← he] at hk
    cases j with
    | zero =>
      refine ⟨d, le_refl _, ?_⟩
      rw [hper]
      exact hk
    | succ i => exact ⟨i, by omega, hk⟩
  have hP : ∃ i, number_of_units n + 1 ≤ t.size (t.next^[i + 1] t.free) := by
    obtain ⟨i, -, hi⟩ := hex
    exact ⟨i, hi⟩
  have hj := Nat.find_spec hP
  have hjd : Nat.find hP ≤ d := by
    obtain ⟨i, hid, hi⟩ := hex
    exact le_trans (Nat.find_min' hP hi) hid
  obtain ⟨e1, e2⟩ := arena_alloc_first_fit_eq t n (Nat.find hP)
    (fun i _ => hnz i)
    (fun i hi => ⟨by have := Nat.find_min hP hi; omega, hmin (i + 1) (by omega) (by omega)⟩)
    hj (hsz _) (max fuel (Nat.find hP + 1)) (by omega)
  have h6 := arena_alloc_mono (le_max_left fuel (Nat.find hP + 1)) hr
  rcases Nat.eq_or_lt_of_le hj with he | hl
  · rw [e1 he.symm] at h6
    simp only [Except.ok.injEq, Prod.mk.injEq] at h6
    obtain ⟨rfl, rfl⟩ := h6
    refine ⟨rfl, rfl, ?_⟩
    unfold sizeof_node_t
    omega
  · rw [e2 hl] at h6
    simp only [Except.ok.injEq, Prod.mk.injEq] at h6
    obtain ⟨rfl, rfl⟩ := h6
    refine ⟨rfl, rfl, ?_⟩
    unfold sizeof_node_t
    omega

/-- The free list of a well-formed state is circular. -/
theorem wf.circular {s : arena_t} {g : layout} (h : wf s g) :
    ∃ d, s.next^[d + 1] s.free = s.free ∧ (∀ i, 0 < i → i ≤ d → s.next^[i] s.free ≠ s.free) ∧
      (∀ i, s.next^[i] s.free ≠ 0) ∧ ∀ i, s.size (s.next^[i] s.free) < SIZE_T := by
  obtain ⟨k, hk⟩ := csucc_reach h.succ (h.succ _ h.free_F).1 h.free_F
  have hex : ∃ d, s.next^[d + 1] s.free = s.free :=
    ⟨k, by rw [Function.iterate_succ_apply]; exact hk⟩
  refine ⟨Nat.find hex, Nat.find_spec hex, fun i hi0 hi => ?_, fun i h0 => ?_, fun i => ?_⟩
  · obtain ⟨j, rfl⟩ : ∃ j, i = j + 1 := ⟨i - 1, by omega⟩
    exact Nat.find_min hex (by omega)
  · exact h.zero_not_F (h0 ▸ csucc_iterate_mem h.succ h.free_F i)
  · have := h.size_lt (Or.inl (csucc_iterate_mem h.succ h.free_F i))
    unfold SIZE_T
    omega

theorem wf.alloc_no_growth {s : arena_t} {g : layout} (h : wf s g) {n : Nat}
    (hfit : ∃ i, number_of_units n + 1 ≤ s.size (s.next^[i] s.free))
    {fuel a : Nat} {s' : arena_t} (hr : arena_alloc fuel s n = .ok (a, s')) :
    s'.log = s.log ∧ s'.that = s.that ∧ a ≠ 0 := by
  obtain ⟨d, h1, h2, h3, h4⟩ := h.circular
  exact arena_alloc_no_growth h1 h2 h3 h4 hfit hr

/-- The block `arena_free` has put on the list is, whole, part of the cursor
block or of its successor. -/
theorem freed_fit (s : arena_t) {a f : Nat} (hfa : f ≠ a) :
    s.size a ≤ (freed s a f).size (freed s a f).free ∨
      s.size a ≤ (freed s a f).size ((freed s a f).next (freed s a f).free) := by
  have haf : a ≠ f := fun e => hfa e.symm
  simp only [freed]
  split_ifs <;> simp [poke, hfa, haf]
  omega

/-! ## Growth is a last resort -/

/-- The two paths of `heap_alloc`: out of a bin, or through `arena_alloc`, a
second time after `heap_compact` if the first attempt returned null. -/
theorem heap_alloc_cases {asserts : Bool} {fuel : Nat} {s s' : arena_t} {n p : Nat}
    (h : heap_alloc asserts fuel s n = .ok (p, s')) :
    (number_of_units n * sizeof_node_t % SIZE_T < s.recycle_smaller_then_bytes ∧
        s'.log = s.log ∧ p ≠ 0) ∨
      ∃ a s1, arena_alloc fuel s n = .ok (a, s1) ∧
        ((a ≠ 0 ∧ p = a ∧ s' = s1) ∨
          (a = 0 ∧ ∃ s3, heap_compact fuel s1 = .ok s3 ∧ arena_alloc fuel s3 n = .ok (p, s'))) := by
  simp only [heap_alloc, bind_ok] at h
  obtain ⟨slow, hslow, h⟩ := h
  split at h
  · right
    simp only [bind_ok] at h
    obtain ⟨⟨a, s1⟩, h1, ⟨a2, s2⟩, h2, h3⟩ := h
    have hfin : a2 = p ∧ s2 = s' := by
      simp only at h3
      split at h3
      · simp only [bind_ok, pure_ok, Prod.mk.injEq] at h3
        obtain ⟨-, -, -, -, h⟩ := h3
        exact h
      · simp only [pure_ok, Prod.mk.injEq] at h3
        exact h3
    obtain ⟨rfl, rfl⟩ := hfin
    refine ⟨a, s1, h1, ?_⟩
    simp only at h2
    split at h2
    · rename_i ha0
      simp only [bind_ok] at h2
      obtain ⟨s3, h4, h5⟩ := h2
      exact Or.inr ⟨ha0, s3, h4, h5⟩
    · rename_i ha0
      simp only [pure_ok, Prod.mk.injEq] at h2
      obtain ⟨rfl, rfl⟩ := h2
      exact Or.inl ⟨ha0, rfl, rfl⟩
  · left
    rename_i hns
    split at hslow
    · simp only [pure_ok] at hslow
      exact absurd hslow.symm hns
    · rename_i hT
      simp only [bind_ok, bins_get_ok, pure_ok, deref_ok, c_assert_ok, Prod.mk.injEq] at h
      obtain ⟨n0, -, -, -, -, -, rfl, rfl⟩ := h
      refine ⟨by omega, rfl, ?_⟩
      unfold sizeof_node_t
      omega

/-- `heap_alloc` on a well-formed state one block of whose list fits does not
call the backing allocator and returns a block. -/
theorem wf.heap_alloc_no_growth {s : arena_t} {g : layout} (hw : wf s g) {n : Nat}
    (hfit : ∃ i, number_of_units n + 1 ≤ s.size (s.next^[i] s.free))
    {asserts : Bool} {fuel p : Nat} {s' : arena_t}
    (hr : heap_alloc asserts fuel s n = .ok (p, s')) : s'.log = s.log ∧ p ≠ 0 := by
  rcases heap_alloc_cases hr with ⟨-, h1, h2⟩ | ⟨a, s1, h1, h2⟩
  · exact ⟨h1, h2⟩
  · obtain ⟨e1, -, e3⟩ := hw.alloc_no_growth hfit h1
    rcases h2 with ⟨-, rfl, rfl⟩ | ⟨ha0, -⟩
    · exact ⟨e1, e3⟩
    · exact absurd ha0 e3

/-- A block released through `heap_free` at or above the threshold is, whole,
part of the cursor block or of its successor. -/
theorem heap_free_leaves_fit {s : arena_t} {g : layout} {L : Finset Nat} {B : Nat → List Nat}
    (hi : inv s g L B) {hdr u : Nat} (hl : hdr ∈ L) (hu : u + 3 ≤ 2 ^ 60)
    (hsz : s.size hdr = u + 1) (hT : s.recycle_smaller_then_bytes ≤ u * sizeof_node_t)
    {asserts : Bool} {fuel : Nat} {s' : arena_t}
    (hr : heap_free asserts fuel s (hdr + sizeof_node_t) = .ok s') :
    s'.log = s.log ∧ ∃ g', wf s' g' ∧
      (u + 1 ≤ s'.size s'.free ∨ u + 1 ≤ s'.size (s'.next s'.free)) := by
  have w := hi.wf
  have hU := hi.bn.live_U hdr hl
  have hp : hdr + sizeof_node_t ≠ 0 := by unfold sizeof_node_t; omega
  have hsub : hdr + sizeof_node_t - sizeof_node_t = hdr := by omega
  have hbytes : ((u + 1 + SIZE_T - 1) % SIZE_T * sizeof_node_t) % SIZE_T = u * sizeof_node_t := by
    unfold SIZE_T sizeof_node_t
    omega
  simp only [heap_free, if_pos hp, heap_alloc_usable_size, bind_ok, deref_ok, c_assert_ok,
    pure_ok, hsub, hsz, hbytes] at hr
  obtain ⟨b, ⟨-, -, -, -, rfl⟩, hr⟩ := hr
  rw [if_pos (show u * sizeof_node_t ≥ s.recycle_smaller_then_bytes from hT)] at hr
  obtain ⟨f, hfF, hb, he⟩ := arena_free_eq w hU
    (show 2 * g.F.card < max fuel (2 * g.F.card + 1) from by omega)
  have hm := arena_free_mono (le_max_left fuel (2 * g.F.card + 1)) hr
  rw [he] at hm
  simp only [Except.ok.injEq] at hm
  subst hm
  obtain ⟨g', w', -, -, -, -⟩ := wf_freed w hi.co hU hfF hb
  have hfa : f ≠ hdr := fun e => w.FU _ hfF (e ▸ hU)
  refine ⟨(freed_frame s hdr f).2.2.1, g', w', ?_⟩
  have := freed_fit s hfa
  rw [hsz] at this
  exact this

/-- C12.  Growth is a last resort.  First, on any circular list (the cursor is
met again after `d + 1` steps and not before, no node is null, sizes are
`size_t` values) one node of which has `nu = number_of_units n + 1` units,
`arena_alloc` returns a block without calling the backing allocator: the
allocator is called only after a circuit that found no fit, at the start of
`arena_alloc` and again after each growth, where the search restarts at the
cursor.  Then, in a state `s` reached as in C5: a `heap_alloc` that has called
the backing allocator found no node of the list of `s` with `nu` units; and
when `heap_alloc` of `n` bytes (at most `2^64 - 48`, unit-rounded size at or
above the threshold) has returned a block, that block is released and `n` bytes
are requested again, neither the release nor the second `heap_alloc` calls the
backing allocator, and the second `heap_alloc` returns a block. -/
theorem growth_is_last_resort (asserts debug : Bool) (fuel0 fuel1 : Nat) (m : machine)
    (pmin T h : Nat) (s0 s : arena_t) (ops : List op) (live : List Nat)
    (hc : heap_create_ex asserts debug fuel0 m pmin T = .ok (h, s0)) (hh : h ≠ 0)
    (hp : 4096 ≤ pmin) (hp2 : pmin < 2 ^ 64 - 16)
    (hadm : admissible asserts fuel1 s0 [] ops = true)
    (hrun : run asserts fuel1 s0 [] ops = .ok (s, live))
    (hlog : regions_disjoint s.log) :
    (∀ (t : arena_t) (d n : Nat), t.next^[d + 1] t.free = t.free →
      (∀ i, 0 < i → i ≤ d → t.next^[i] t.free ≠ t.free) → (∀ i, t.next^[i] t.free ≠ 0) →
      (∀ i, t.size (t.next^[i] t.free) < SIZE_T) →
      (∃ i, number_of_units n + 1 ≤ t.size (t.next^[i] t.free)) →
      ∀ (fuel a : Nat) (t' : arena_t), arena_alloc fuel t n = .ok (a, t') →
        t'.log = t.log ∧ a ≠ 0) ∧
    (∀ (b : Bool) (n fuel p : Nat) (s' : arena_t), heap_alloc b fuel s n = .ok (p, s') →
      s'.log ≠ s.log → ∀ k, s.size (s.next^[k] s.free) < number_of_units n + 1) ∧
    (∀ (b : Bool) (n fuel fuel' fuel'' p q : Nat) (s1 s2 s3 : arena_t), n ≤ 2 ^ 64 - 48 →
      s.recycle_smaller_then_bytes ≤ number_of_units n * sizeof_node_t →
      heap_alloc b fuel s n = .ok (p, s1) → p ≠ 0 → regions_disjoint s1.log →
      heap_free b fuel' s1 p = .ok s2 → heap_alloc b fuel'' s2 n = .ok (q, s3) →
      s2.log = s1.log ∧ s3.log = s1.log ∧ q ≠ 0) := by
  obtain ⟨g, L, B, hi, -, -⟩ := reachable_inv hc hh hp hp2 hadm hrun hlog
  refine ⟨?_, ?_, ?_⟩
  · intro t d n h1 h2 h3 h4 h5 fuel a t' hr
    obtain ⟨e1, -, e3⟩ := arena_alloc_no_growth h1 h2 h3 h4 h5 hr
    exact ⟨e1, e3⟩
  · intro b n fuel p s' hr hne k
    by_contra hk
    exact hne (hi.wf.heap_alloc_no_growth ⟨k, by omega⟩ hr).1
  · intro b n fuel fuel' fuel'' p q s1 s2 s3 hn hT h1 hp0 hlog1 h2 h3
    obtain ⟨g1, B1, hcf, -, -, hpos⟩ := heap_alloc_sound hi hn h1 hlog1
    obtain ⟨hdr, rfl, -, hi1, hsz⟩ := hpos hp0
    obtain ⟨hu, -⟩ := number_of_units_le hn
    obtain ⟨e1, g2, w2, hfit⟩ := heap_free_leaves_fit hi1 (Finset.mem_insert_self _ _) hu hsz
      (by rw [hcf.2.2.1]; exact hT) h2
    have hfit' : ∃ i, number_of_units n + 1 ≤ s2.size (s2.next^[i] s2.free) := by
      rcases hfit with hf | hf
      · exact ⟨0, hf⟩
      · exact ⟨1, hf⟩
    obtain ⟨e2, e3⟩ := w2.heap_alloc_no_growth hfit' h3
    exact ⟨e1, by rw [e2, e1], e3⟩

/-- C12 (witness): the fresh arena of 4096 byte pages and threshold 64, on which
200 bytes are requested, released and requested again. -/
theorem growth_is_last_resort_witness :
    heap_create_ex true true 64 (fresh_machine [1000, 2000, 65536]) 4096 64
        = .ok (1000, client_start) ∧
      admissible true 64 client_start [] [] = true ∧
      run true 64 client_start [] [] = .ok (client_start, []) ∧
      regions_disjoint client_start.log ∧
      heap_alloc true 64 client_start 200 = .ok (69424, cycle_alloc) ∧
      heap_free true 64 cycle_alloc 69424 = .ok cycle_free ∧
      heap_alloc true 64 cycle_free 200 = .ok (69424, cycle_again) ∧
      cycle_alloc.log ≠ client_start.log ∧
      (∀ k, client_start.size (client_start.next^[k] client_start.free)
        < number_of_units 200 + 1) ∧
      cycle_free.log = cycle_alloc.log ∧ cycle_again.log = cycle_alloc.log ∧ (69424 : Nat) ≠ 0 :=
  have key := growth_is_last_resort true true 64 64 (fresh_machine [1000, 2000, 65536]) 4096 64
    1000 client_start client_start [] [] rfl (by decide) (by decide) (by decide) (by decide!)
    rfl (by decide!)
  have hne : cycle_alloc.log ≠ client_start.log := by decide!
  have hcyc := key.2.2 true 200 64 64 64 69424 69424 cycle_alloc cycle_free cycle_again
    (by decide) (by decide!) rfl (by decide) (by decide!) rfl rfl
  ⟨rfl, by decide!, rfl, by decide!, rfl, rfl, rfl, hne,
    key.2.1 true 200 64 69424 cycle_alloc rfl hne, hcyc.1, hcyc.2.1, hcyc.2.2⟩

/-! ## The free block a request is cut from -/

/-- On a circular list one node of which fits, the index of the first node
after the cursor that fits. -/
theorem first_fit_index {t : arena_t} {d nu : Nat}
    (hper : t.next^[d + 1] t.free = t.free)
    (hmin : ∀ i, 0 < i → i ≤ d → t.next^[i] t.free ≠ t.free)
    (hfit : ∃ i, nu ≤ t.size (t.next^[i] t.free)) :
    ∃ j, (∀ i, i < j → t.size (t.next^[i + 1] t.free) < nu ∧ t.next^[i + 1] t.free ≠ t.free) ∧
      nu ≤ t.size (t.next^[j + 1] t.free) := by
  have hex : ∃ i, i ≤ d ∧ nu ≤ t.size (t.next^[i + 1] t.free) := by
    obtain ⟨k, hk⟩ := hfit
    obtain ⟨j, hj, he⟩ := iterate_period hper k
    rw [← he] at hk
    cases j with
    | zero =>
      refine ⟨d, le_refl _, ?_⟩
      rw [hper]
      exact hk
    | succ i => exact ⟨i, by omega, hk⟩
  have hP : ∃ i, nu ≤ t.size (t.next^[i + 1] t.free) := by
    obtain ⟨i, -, hi⟩ := hex
    exact ⟨i, hi⟩
  have hjd : Nat.find hP ≤ d := by
    obtain ⟨i, hid, hi⟩ := hex
    exact le_trans (Nat.find_min' hP hi) hid
  exact ⟨Nat.find hP,
    fun i hi => ⟨by have := Nat.find_min hP hi; omega, hmin (i + 1) (by omega) (by omega)⟩,
    Nat.find_spec hP⟩

/-- `arena_alloc` on a well-formed state, when the block handed out lies in the
free block `p` that fits: either `p` has exactly the units needed and leaves
the list, or the block is cut from the end of `p`. -/
theorem wf.arena_alloc_from {s : arena_t} {g : layout} (h : wf s g) (hc : coalesced s g)
    {p n : Nat} (hp : p ∈ g.F) (hfit : number_of_units n + 1 ≤ s.size p)
    {fuel a : Nat} {s' : arena_t} (hr : arena_alloc fuel s n = .ok (a, s'))
    (ha1 : p + 16 ≤ a) (ha2 : a < p + 16 * s.size p + 16) :
    s'.self = s.self ∧
    ((s.size p = number_of_units n + 1 ∧ a = p + 16 ∧
        wf s' ⟨g.F.erase p, insert p g.U, g.P⟩ ∧
        coalesced s' ⟨g.F.erase p, insert p g.U, g.P⟩ ∧ s'.size = s.size) ∨
      (number_of_units n + 1 < s.size p ∧
        a = p + 16 * (s.size p - (number_of_units n + 1)) + 16 ∧
        wf s' ⟨g.F, insert (p + 16 * (s.size p - (number_of_units n + 1))) g.U, g.P⟩ ∧
        coalesced s' ⟨g.F, insert (p + 16 * (s.size p - (number_of_units n + 1))) g.U, g.P⟩ ∧
        p + 16 * (s.size p - (number_of_units n + 1)) ∉ g.U ∧
        ∀ z, s'.size z = if z = p + 16 * (s.size p - (number_of_units n + 1))
          then number_of_units n + 1
          else if z = p then s.size p - (number_of_units n + 1) else s.size z)) := by
  obtain ⟨d, h1, h2, h3, h4⟩ := h.circular
  obtain ⟨k, hk⟩ := (h.free_list p).1 hp
  obtain ⟨j, hsmall, hfj⟩ := first_fit_index h1 h2
    (show ∃ i, number_of_units n + 1 ≤ s.size (s.next^[i] s.free) from
      ⟨k, by rw [hk]; exact hfit⟩)
  obtain ⟨e1, e2⟩ := arena_alloc_first_fit_eq s n j (fun i _ => h3 i) hsmall hfj (h4 _)
    (max fuel (j + 1)) (by omega)
  have hm := arena_alloc_mono (le_max_left fuel (j + 1)) hr
  have hprevF := csucc_iterate_mem h.succ h.free_F j
  have hpF' := csucc_iterate_mem h.succ h.free_F (j + 1)
  have hnext : s.next (s.next^[j] s.free) = s.next^[j + 1] s.free := by
    rw [Function.iterate_succ_apply']
  have hps' : s.next^[j + 1] s.free ≠ s.self := by
    intro he
    rw [he, h.self_size] at hfj
    omega
  have hszp' := h.size_lt (Or.inl hpF')
  generalize s.next^[j + 1] s.free = p' at *
  generalize s.next^[j] s.free = prev at *
  rcases Nat.eq_or_lt_of_le hfj with hex | hlt
  · rw [e1 hex.symm] at hm
    simp only [Except.ok.injEq, Prod.mk.injEq] at hm
    obtain ⟨rfl, rfl⟩ := hm
    have hpp : p' = p := by
      by_contra hne
      unfold sizeof_node_t at ha1 ha2
      rcases Nat.lt_or_gt_of_ne hne with hlt | hlt
      · have := h.disj p' p (Or.inl hpF') (Or.inl hp) hlt
        omega
      · have := h.disj p p' (Or.inl hp) (Or.inl hpF') hlt
        omega
    subst hpp
    obtain ⟨w2, c2⟩ := wf_unlink h hc hprevF hp hps' hnext
      (show ∀ z, (((s.set_next prev (s.next p')).set_free prev).set_next p' 0).next z = _
        from by intro z; simp only [arena_t.set_next_next_eq, arena_t.set_free_next_eq, poke])
      rfl rfl rfl rfl rfl
    exact ⟨rfl, Or.inl ⟨hex.symm, rfl, w2, c2, rfl⟩⟩
  · rw [e2 hlt] at hm
    simp only [Except.ok.injEq, Prod.mk.injEq] at hm
    obtain ⟨rfl, rfl⟩ := hm
    have hpp : p' = p := by
      by_contra hne
      unfold sizeof_node_t at ha1 ha2
      rcases Nat.lt_or_gt_of_ne hne with hl | hl
      · have := h.disj p' p (Or.inl hpF') (Or.inl hp) hl
        omega
      · have := h.disj p p' (Or.inl hp) (Or.inl hpF') hl
        omega
    subst hpp
    obtain ⟨w2, c2, hqU⟩ := wf_split h hc hp hps'
      (by omega : 1 ≤ number_of_units n + 1) hlt hprevF
      (show ∀ z, ((((s.set_size p' (s.size p' - (number_of_units n + 1))).set_size
        (p' + 16 * (s.size p' - (number_of_units n + 1)))
        (number_of_units n + 1)).set_free prev).set_next
        (p' + 16 * (s.size p' - (number_of_units n + 1))) 0).size z = _
        from by intro z; simp only [arena_t.set_next_size_eq, arena_t.set_free_size_eq,
            arena_t.set_size_size_eq, poke])
      (by intro z; simp only [arena_t.set_next_next_eq, arena_t.set_free_next_eq,
            arena_t.set_size_next_eq, poke])
      rfl rfl rfl rfl
    refine ⟨rfl, Or.inr ⟨hlt, rfl, w2, c2, hqU, fun z => ?_⟩⟩
    simp only [arena_t.set_next_size_eq, arena_t.set_free_size_eq, arena_t.set_size_size_eq,
      poke]

/-! ## A coalesced free list is determined by the blocks off the list -/

theorem csucc_unique {F : Finset Nat} {f n n' : Nat} (h : csucc F f n) (h' : csucc F f n') :
    n = n' := by
  obtain ⟨hn, h1 | h1⟩ := h
  · obtain ⟨hn', h2 | h2⟩ := h'
    · have := h1.2 n' hn' h2.1
      have := h2.2 n hn h1.1
      omega
    · have := h2.1 n hn
      omega
  · obtain ⟨hn', h2 | h2⟩ := h'
    · have := h1.1 n' hn'
      omega
    · have := h1.2 n' hn'
      have := h2.2 n hn
      omega

/-- Two well-formed and coalesced states with the same pages and the same
blocks off the list: every node of the list of the first is a node of the list
of the second, with the same size. -/
theorem canonical_half {s t : arena_t} {g g' : layout} (hs : wf s g) (cs : coalesced s g)
    (ht : wf t g') (ct : coalesced t g') (hU : g'.U = g.U) (hP : g'.P = g.P)
    (hsU : ∀ x ∈ g.U, t.size x = s.size x) (hsP : ∀ pg ∈ g.P, t.size pg = s.size pg)
    (hself : t.self = s.self) : ∀ x ∈ g.F, x ∈ g'.F ∧ t.size x = s.size x := by
  intro x hx
  by_cases hxs : x = s.self
  · subst hxs
    refine ⟨hself ▸ ht.self_F, ?_⟩
    rw [hs.self_size, ← hself, ht.self_size]
  obtain ⟨pg, hpg, i1, i2, i3, i4⟩ := hs.paged x (Or.inl hx) hxs
  have hpg' : pg ∈ g'.P := by rw [hP]; exact hpg
  have hSt := hsP pg hpg
  -- the node of `t` that covers the first unit of `x`
  obtain ⟨y, hy, hyt, hyx, hxy⟩ := ht.cover pg hpg' x i1 (by rw [hSt]; omega) i3
  have hyF : y ∈ g'.F := by
    rcases hy with hyF | hyU
    · exact hyF
    · exfalso
      rw [hU] at hyU
      have e := hsU y hyU
      rw [e] at hxy
      by_cases hyx' : y < x
      · have := hs.disj y x (Or.inr hyU) (Or.inl hx) hyx'
        omega
      · have : y = x := by omega
        exact hs.FU x hx (this ▸ hyU)
  obtain ⟨pgy, hpgy, j1, j2, j3, j4⟩ := ht.paged y (Or.inl hyF) hyt
  have hpe : pg = pgy := ht.page_eq hpg' hpgy (z := x) (by omega) (by rw [hSt]; omega)
    (by omega) (by omega)
  subst hpe
  have hyx2 : y = x := by
    by_contra hne
    have hlt : y < x := by omega
    obtain ⟨z, hz, hzs, hzu, huz⟩ := hs.cover pg hpg (x - 16) (by omega) (by omega) (by omega)
    obtain ⟨pgz, hpgz, k1, k2, k3, k4⟩ := hs.paged z hz hzs
    have hpe : pg = pgz := hs.page_eq hpg hpgz (z := x - 16) (by omega) (by omega)
      (by omega) (by omega)
    subst hpe
    have hd := hs.disj z x hz (Or.inl hx) (by omega)
    have hzx : z + 16 * s.size z = x := by omega
    rcases hz with hzF | hzU
    · exact cs z hzF x hx hzs hzx
    · have hzU' : z ∈ g'.U := by rw [hU]; exact hzU
      have e := hsU z hzU
      have hzy : z = y := by
        by_contra hne'
        rcases Nat.lt_or_gt_of_ne hne' with hl | hl
        · have := ht.disj z y (Or.inr hzU') (Or.inl hyF) hl
          omega
        · have := ht.disj y z (Or.inl hyF) (Or.inr hzU') hl
          omega
      exact ht.FU y hyF (hzy ▸ hzU')
  subst hyx2
  refine ⟨hyF, ?_⟩
  have hxt : y ≠ t.self := hyt
  by_contra hne
  rcases Nat.lt_or_gt_of_ne hne with hlt | hlt
  · -- the block of `t` is shorter: the node of `t` after it lies inside the block of `s`
    obtain ⟨w, hw, hws, hwu, huw⟩ := ht.cover pg hpg' (y + 16 * t.size y) (by omega)
      (by rw [hSt]; omega) (by omega)
    have hyw : y < w := by
      by_contra hge
      have hwne : w ≠ y := by
        intro e
        rw [e] at huw
        omega
      have := ht.disj w y hw (Or.inl hyF) (by omega)
      omega
    have hd := ht.disj y w (Or.inl hyF) hw hyw
    have hwe : y + 16 * t.size y = w := by omega
    rcases hw with hwF | hwU
    · exact ct y hyF w hwF hxt hwe
    · rw [hU] at hwU
      have := hs.disj y w (Or.inl hx) (Or.inr hwU) hyw
      omega
  · -- the block of `t` is longer: the node of `s` after the block lies inside it
    obtain ⟨z, hz, hzs, hzu, huz⟩ := hs.cover pg hpg (y + 16 * s.size y) (by omega)
      (by rw [hSt] at j2; omega) (by omega)
    have hyz : y < z := by
      by_contra hge
      have hzne : z ≠ y := by
        intro e
        rw [e] at huz
        omega
      have := hs.disj z y hz (Or.inl hx) (by omega)
      omega
    have hd := hs.disj y z (Or.inl hx) hz hyz
    have hze : y + 16 * s.size y = z := by omega
    rcases hz with hzF | hzU
    · exact cs y hx z hzF hxs hze
    · have hzU' : z ∈ g'.U := by rw [hU]; exact hzU
      have := ht.disj y z (Or.inl hyF) (Or.inr hzU') hyz
      omega

/-- Two well-formed and coalesced states with the same pages and the same
blocks off the list have the same free list. -/
theorem canonical {s t : arena_t} {g g' : layout} (hs : wf s g) (cs : coalesced s g)
    (ht : wf t g') (ct : coalesced t g') (hU : g'.U = g.U) (hP : g'.P = g.P)
    (hsU : ∀ x ∈ g.U, t.size x = s.size x) (hsP : ∀ pg ∈ g.P, t.size pg = s.size pg)
    (hself : t.self = s.self) : same_free_list s t := by
  have h1 := canonical_half hs cs ht ct hU hP hsU hsP hself
  have h2 := canonical_half ht ct hs cs hU.symm hP.symm
    (fun x hx => (hsU x (hU ▸ hx)).symm) (fun pg hp => (hsP pg (hP ▸ hp)).symm) hself.symm
  have hF : g'.F = g.F := by
    ext x
    exact ⟨fun hx => (h2 x hx).1, fun hx => (h1 x hx).1⟩
  refine ⟨fun x => ?_, fun k => ?_⟩
  · rw [← ht.free_list x, ← hs.free_list x, hF]
  · have hx := csucc_iterate_mem hs.succ hs.free_F k
    refine ⟨(h1 _ hx).2, ?_⟩
    have c1 := hs.succ _ hx
    have c2 := ht.succ _ (h1 _ hx).1
    rw [hF] at c2
    exact csucc_unique c2 c1

/-- Two blocks off the list are released one after the other: with enough fuel
both calls return, the state is well formed and coalesced, and the other
blocks off the list and the page headers are untouched. -/
theorem free_two {t : arena_t} {g : layout} (h : wf t g) (hc : coalesced t g) {x y : Nat}
    (hx : x ∈ g.U) (hy : y ∈ g.U) (hxy : x ≠ y) {fuel : Nat}
    (hfuel : 2 * (g.F.card + 1) < fuel) :
    ∃ t1 t2 g2, arena_free fuel t (x + sizeof_node_t) = .ok t1 ∧
      arena_free fuel t1 (y + sizeof_node_t) = .ok t2 ∧ wf t2 g2 ∧ coalesced t2 g2 ∧
      g2.U = (g.U.erase x).erase y ∧ g2.P = g.P ∧ t2.self = t.self ∧
      (∀ z ∈ g2.U, t2.size z = t.size z) ∧ ∀ pg ∈ g.P, t2.size pg = t.size pg := by
  obtain ⟨t1, g1, e1, w1, c1, hU1, hP1, hF1, hfr1, hx1⟩ :=
    arena_free_spec h hc hx (show 2 * g.F.card < fuel from by omega)
  have hcard : g1.F.card ≤ g.F.card + 1 :=
    le_trans (Finset.card_le_card hF1) (Finset.card_insert_le _ _)
  have hy1 : y ∈ g1.U := by
    rw [hU1]
    exact Finset.mem_erase.2 ⟨fun e => hxy e.symm, hy⟩
  obtain ⟨t2, g2, e2, w2, c2, hU2, hP2, hF2, hfr2, hx2⟩ :=
    arena_free_spec w1 c1 hy1 (show 2 * g1.F.card < fuel from by omega)
  refine ⟨t1, t2, g2, e1, e2, w2, c2, by rw [hU2, hU1], by rw [hP2, hP1],
    by rw [hfr2.1.1, hfr1.1.1], fun z hz => ?_, fun pg hpg => ?_⟩
  · rw [hU2] at hz
    obtain ⟨hzy, hz1⟩ := Finset.mem_erase.1 hz
    have hz0 := hz1
    rw [hU1] at hz0
    obtain ⟨hzx, hzU⟩ := Finset.mem_erase.1 hz0
    have a1 : z ∉ insert y g1.F := by
      simp only [Finset.mem_insert, not_or]
      exact ⟨hzy, fun hf => w1.FU z hf hz1⟩
    have a2 : z ∉ insert x g.F := by
      simp only [Finset.mem_insert, not_or]
      exact ⟨hzx, fun hf => h.FU z hf hzU⟩
    rw [(hx2 z a1).2, (hx1 z a2).2]
  · have hpg1 : pg ∈ g1.P := by rw [hP1]; exact hpg
    have n1 := (w1.page_not_node hpg1).1
    have n0 := (h.page_not_node hpg).1
    have a1 : pg ∉ insert y g1.F := by
      simp only [Finset.mem_insert, not_or]
      exact ⟨fun e => n1 (Or.inr (e ▸ hy1)), fun hf => n1 (Or.inl hf)⟩
    have a2 : pg ∉ insert x g.F := by
      simp only [Finset.mem_insert, not_or]
      exact ⟨fun e => n0 (Or.inr (e ▸ hx)), fun hf => n0 (Or.inl hf)⟩
    rw [(hx2 pg a1).2, (hx1 pg a2).2]

/-! ## Coalescing undoes splitting -/

/-- Two blocks cut one after the other from the free block `p` of a well-formed
and coalesced state, and released in the order `x`, `y`: the free list is again
that of the state before the two allocations. -/
theorem release_pair {s t : arena_t} {g g2 : layout} (hs : wf s g) (cs : coalesced s g)
    (ht : wf t g2) (ct : coalesced t g2) {x y : Nat} (hx : x ∈ g2.U) (hy : y ∈ g2.U)
    (hxy : x ≠ y) (hU : (g2.U.erase x).erase y = g.U) (hP : g2.P = g.P)
    (hself : t.self = s.self) (hcard : g2.F.card ≤ g.F.card)
    (hsz : ∀ z, z ∈ g.U ∨ z ∈ g.P → t.size z = s.size z)
    {fuel : Nat} (hfuel : 2 * (g.F.card + 1) < fuel) :
    ∃ t1 t2, arena_free fuel t (x + sizeof_node_t) = .ok t1 ∧
      arena_free fuel t1 (y + sizeof_node_t) = .ok t2 ∧ same_free_list s t2 := by
  obtain ⟨t1, t2, g4, e1, e2, w4, c4, hU4, hP4, hself4, hsU4, hsP4⟩ :=
    free_two ht ct hx hy hxy (show 2 * (g2.F.card + 1) < fuel from by omega)
  refine ⟨t1, t2, e1, e2, ?_⟩
  refine canonical hs cs w4 c4 (by rw [hU4, hU]) (by rw [hP4, hP]) (fun z hz => ?_)
    (fun pg hpg => ?_) (by rw [hself4, hself])
  · rw [hsU4 z (by rw [hU4, hU]; exact hz)]
    exact hsz z (Or.inl hz)
  · rw [hsP4 pg (by rw [hP]; exact hpg)]
    exact hsz pg (Or.inr hpg)

/-- C13.  Coalescing is order-independent and undoes splitting.  In a state `s`
reached as in C5 let `p`, a node of the free list, have at least the units of a
request of `n1` bytes plus those of a request of `n2` bytes, and let two
successive `arena_alloc` calls have returned `a` and `b`, cut one after the
other from the end of `p` (so `b` ends where `a` starts).  Then, with enough
fuel, `arena_free` of `a` then `b`, and of `b` then `a`, return, and in both
final states the free list is that of `s`: the same nodes with the same sizes
and successors, `p` spanning its original extent. -/
theorem coalescing_undoes_splitting (asserts debug : Bool) (fuel0 fuel1 : Nat) (m : machine)
    (pmin T h : Nat) (s0 s : arena_t) (ops : List op) (live : List Nat)
    (hc : heap_create_ex asserts debug fuel0 m pmin T = .ok (h, s0)) (hh : h ≠ 0)
    (hp : 4096 ≤ pmin) (hp2 : pmin < 2 ^ 64 - 16)
    (hadm : admissible asserts fuel1 s0 [] ops = true)
    (hrun : run asserts fuel1 s0 [] ops = .ok (s, live))
    (hlog : regions_disjoint s.log)
    (k n1 n2 a b fuel2 fuel3 : Nat) (s1 s2 : arena_t)
    (hfit : number_of_units n1 + 1 + (number_of_units n2 + 1) ≤ s.size (s.next^[k] s.free))
    (h1 : arena_alloc fuel2 s n1 = .ok (a, s1)) (h2 : arena_alloc fuel3 s1 n2 = .ok (b, s2))
    (ha : a = s.next^[k] s.free
      + (s.size (s.next^[k] s.free) - (number_of_units n1 + 1)) * sizeof_node_t
      + sizeof_node_t)
    (hb : b = s.next^[k] s.free
      + (s.size (s.next^[k] s.free) - (number_of_units n1 + 1) - (number_of_units n2 + 1))
        * sizeof_node_t
      + sizeof_node_t) :
    ∃ N, ∀ fuel, N ≤ fuel → ∃ sa sab sb sba,
      arena_free fuel s2 a = .ok sa ∧ arena_free fuel sa b = .ok sab ∧
      arena_free fuel s2 b = .ok sb ∧ arena_free fuel sb a = .ok sba ∧
      same_free_list s sab ∧ same_free_list s sba := by
  obtain ⟨g, L, B, hi, -, -⟩ := reachable_inv hc hh hp hp2 hadm hrun hlog
  have w := hi.wf
  have c := hi.co
  have hpF := csucc_iterate_mem w.succ w.free_F k
  generalize s.next^[k] s.free = p at *
  unfold sizeof_node_t at ha hb
  have hpU : p ∉ g.U := w.FU p hpF
  -- the first block
  obtain ⟨hself1, hcase1⟩ := w.arena_alloc_from c hpF (n := n1) (by omega) h1 (by omega)
    (by omega)
  rcases hcase1 with ⟨hex, -⟩ | ⟨hlt1, ha', w1, c1, hq1U, hsz1⟩
  · omega
  have hq1p : p + 16 * (s.size p - (number_of_units n1 + 1)) ≠ p := by omega
  have hsp1 : s1.size p = s.size p - (number_of_units n1 + 1) := by
    rw [hsz1 p, if_neg (fun e => hq1p e.symm), if_pos rfl]
  generalize hq1 : p + 16 * (s.size p - (number_of_units n1 + 1)) = q1 at *
  -- the second block
  have hpF1 : p ∈ (⟨g.F, insert q1 g.U, g.P⟩ : layout).F := hpF
  obtain ⟨hself2, hcase2⟩ := w1.arena_alloc_from c1 hpF1 (n := n2) (by rw [hsp1]; omega) h2
    (by omega) (by rw [hsp1]; omega)
  have key : ∃ g2 y, wf s2 g2 ∧ coalesced s2 g2 ∧ g2.U = insert y (insert q1 g.U) ∧
      y ∉ insert q1 g.U ∧ g2.P = g.P ∧ g2.F.card ≤ g.F.card ∧ b = y + 16 ∧
      ∀ z, z ≠ p → z ≠ q1 → z ≠ y → s2.size z = s.size z := by
    rcases hcase2 with ⟨hex2, hb', w2, c2, hsz2⟩ | ⟨hlt2, hb', w2, c2, hq2U, hsz2⟩
    · refine ⟨_, p, w2, c2, rfl, ?_, rfl, Finset.card_erase_le, hb', fun z z1 z2 _ => ?_⟩
      · simp only [Finset.mem_insert, not_or]
        exact ⟨fun e => hq1p e.symm, hpU⟩
      · rw [hsz2, hsz1 z, if_neg z2, if_neg z1]
    · refine ⟨_, _, w2, c2, rfl, hq2U, rfl, le_refl _, hb', fun z z1 z2 z3 => ?_⟩
      rw [hsz2 z, if_neg z3, if_neg z1, hsz1 z, if_neg z2, if_neg z1]
  obtain ⟨g2, y, w2, c2, hU2, hyU, hP2, hcard, hb', hsz2⟩ := key
  have hyq : y ≠ q1 := fun e => hyU (e ▸ Finset.mem_insert_self _ _)
  have hyU' : y ∉ g.U := fun e => hyU (Finset.mem_insert_of_mem e)
  have hq1g2 : q1 ∈ g2.U := by rw [hU2]; exact Finset.mem_insert_of_mem (Finset.mem_insert_self _ _)
  have hyg2 : y ∈ g2.U := by rw [hU2]; exact Finset.mem_insert_self _ _
  have hUa : (g2.U.erase q1).erase y = g.U := by
    rw [hU2]
    ext z
    simp only [Finset.mem_erase, Finset.mem_insert]
    constructor
    · rintro ⟨z1, z2, z3 | z3 | z3⟩
      · exact absurd z3 z1
      · exact absurd z3 z2
      · exact z3
    · intro hz
      exact ⟨fun e => hyU' (e ▸ hz), fun e => hq1U (e ▸ hz), Or.inr (Or.inr hz)⟩
  have hUb : (g2.U.erase y).erase q1 = g.U := by
    rw [hU2]
    ext z
    simp only [Finset.mem_erase, Finset.mem_insert]
    constructor
    · rintro ⟨z1, z2, z3 | z3 | z3⟩
      · exact absurd z3 z2
      · exact absurd z3 z1
      · exact z3
    · intro hz
      exact ⟨fun e => hq1U (e ▸ hz), fun e => hyU' (e ▸ hz), Or.inr (Or.inr hz)⟩
  have hszUP : ∀ z, z ∈ g.U ∨ z ∈ g.P → s2.size z = s.size z := by
    intro z hz
    refine hsz2 z ?_ ?_ ?_
    · rintro rfl
      rcases hz with hz | hz
      · exact hpU hz
      · exact (w.page_not_node hz).1 (Or.inl hpF)
    · rintro rfl
      rcases hz with hz | hz
      · exact hq1U hz
      · exact (w2.page_not_node (hP2 ▸ hz)).1 (Or.inr hq1g2)
    · rintro rfl
      rcases hz with hz | hz
      · exact hyU' hz
      · exact (w2.page_not_node (hP2 ▸ hz)).1 (Or.inr hyg2)
  refine ⟨2 * (g.F.card + 1) + 1, fun fuel hfuel => ?_⟩
  obtain ⟨sa, sab, e1, e2, e3⟩ := release_pair w c w2 c2 hq1g2 hyg2 (fun e => hyq e.symm) hUa hP2
    (by rw [hself2, hself1]) hcard hszUP (show 2 * (g.F.card + 1) < fuel from by omega)
  obtain ⟨sb, sba, e4, e5, e6⟩ := release_pair w c w2 c2 hyg2 hq1g2 hyq hUb hP2
    (by rw [hself2, hself1]) hcard hszUP (show 2 * (g.F.card + 1) < fuel from by omega)
  have haq : a = q1 + sizeof_node_t := by unfold sizeof_node_t; omega
  have hby : b = y + sizeof_node_t := hb'
  rw [haq, hby]
  exact ⟨sa, sab, sb, sba, e1, e2, e4, e5, e3, e6⟩

/-- C13 (witness): at the end of the client session the node after the cursor,
69312, has 11 units; requests of 32 and 48 bytes cut 3 and 4 units from its
end, at 69456 and 69392. -/
theorem coalescing_undoes_splitting_witness :
    heap_create_ex true true 64 (fresh_machine [1000, 2000, 65536]) 4096 64
        = .ok (1000, client_start) ∧
      admissible true 64 client_start [] client_ops = true ∧
      run true 64 client_start [] client_ops = .ok (client_end, [69504, 68304, 69552]) ∧
      regions_disjoint client_end.log ∧
      number_of_units 32 + 1 + (number_of_units 48 + 1)
        ≤ client_end.size (client_end.next^[1] client_end.free) ∧
      arena_alloc 64 client_end 32 = .ok (69456, carve_one) ∧
      arena_alloc 64 carve_one 48 = .ok (69392, carve_two) ∧
      ∃ N, ∀ fuel, N ≤ fuel → ∃ sa sab sb sba,
        arena_free fuel carve_two 69456 = .ok sa ∧ arena_free fuel sa 69392 = .ok sab ∧
        arena_free fuel carve_two 69392 = .ok sb ∧ arena_free fuel sb 69456 = .ok sba ∧
        same_free_list client_end sab ∧ same_free_list client_end sba :=
  ⟨rfl, by decide!, rfl, by decide!, by decide!, rfl, rfl,
    coalescing_undoes_splitting true true 64 64 (fresh_machine [1000, 2000, 65536]) 4096 64
      1000 client_start client_end client_ops [69504, 68304, 69552] rfl (by decide) (by decide)
      (by decide) (by decide!) rfl (by decide!) 1 32 48 69456 69392 64 64 carve_one carve_two
      (by decide!) rfl rfl (by decide!) (by decide!)⟩

/-! ## `heap_compact` is complete and idempotent when the bins exist -/

theorem heap_compact_bin_empty {s : arena_t} {i fuel : Nat} (hb : s.bins ≠ 0)
    (he : s.bin i = 0) : heap_compact_bin i (fuel + 1) s = .ok s := by
  simp only [heap_compact_bin, bins_get_of_ne hb, ok_bind, he, if_true]
  rfl

theorem heap_compact_loop_empty {s : arena_t} {fuel : Nat} (he : ∀ b, s.bin b = 0) :
    ∀ (k i : Nat), (k ≠ 0 → s.bins ≠ 0) → i + k ≤ INT_MAX →
      heap_compact_loop (fuel + 1) k i s = .ok s
  | 0, _, _, _ => rfl
  | k + 1, i, hb, hi => by
    have hb' : s.bins ≠ 0 := hb (Nat.succ_ne_zero _)
    simp only [heap_compact_loop, heap_compact_bin_empty hb' (he i), ok_bind]
    rw [if_neg (by omega)]
    exact heap_compact_loop_empty he k (i + 1) (fun _ => hb') (by omega)

/-- On a state whose bins array exists if it is read (threshold at most
`INT_MAX`): with enough fuel `heap_compact` returns, every bin is then empty,
every block that was in a bin lies within a block of the free list, and a
second `heap_compact` returns the same state. -/
theorem heap_compact_idempotent {s : arena_t} {g : layout} {L : Finset Nat}
    {B : Nat → List Nat} (hi : inv s g L B)
    (hb : s.recycle_smaller_then_bytes ≠ 0 → s.bins ≠ 0)
    (hint : s.recycle_smaller_then_bytes ≤ INT_MAX) :
    ∃ (N : Nat) (s1 : arena_t), ∀ fuel, N ≤ fuel → heap_compact fuel s = .ok s1 ∧
      (∀ b, s1.bin b = 0) ∧ heap_compact fuel s1 = .ok s1 ∧
      ∀ b, ∀ x ∈ B b, ∃ k, s1.next^[k] s1.free ≤ x ∧
        x + 16 * s.size x ≤ s1.next^[k] s1.free + 16 * s1.size (s1.next^[k] s1.free) := by
  obtain ⟨s1, h1⟩ := heap_compact_total hi hb hint (by omega : g.weight < g.weight + 1)
  obtain ⟨g1, i1, k1, -, hU⟩ := heap_compact_sound hi h1
  obtain ⟨kc, -, -, -, kP, kL, kpg⟩ := k1
  have w := hi.wf
  have w1 := i1.wf
  have hempty : ∀ b, s1.bin b = 0 := fun b => i1.bn.chain b
  refine ⟨g.weight + 1, s1, fun fuel hfuel => ⟨heap_compact_mono hfuel h1, hempty, ?_, ?_⟩⟩
  · obtain ⟨j, rfl⟩ : ∃ j, fuel = j + 1 := ⟨fuel - 1, by omega⟩
    exact heap_compact_loop_empty hempty _ 0
      (fun h0 => by rw [kc.2.2.2]; exact hb (by rw [← kc.2.2.1]; exact h0))
      (by rw [kc.2.2.1]; omega)
  · intro b x hx
    obtain ⟨hxU, hxL, -, -⟩ := hi.bn.mem b x hx
    have hxs : x ≠ s.self := fun e => w.self_not_U (e ▸ hxU)
    obtain ⟨pg, hpg, j1, j2, j3, j4⟩ := w.paged x (Or.inr hxU) hxs
    have hpg1 : pg ∈ g1.P := by rw [kP]; exact hpg
    have hS := (kpg pg hpg).2
    obtain ⟨y, hy, hys, hyx, hxy⟩ := w1.cover pg hpg1 x j1 (by rw [hS]; omega) j3
    have hyF : y ∈ g1.F := by
      rcases hy with hyF | hyU
      · exact hyF
      · exfalso
        rw [hU] at hyU
        have e := (kL y hyU).2
        rw [e] at hxy
        have hyU0 := hi.bn.live_U y hyU
        by_cases hlt : y < x
        · have := w.disj y x (Or.inr hyU0) (Or.inr hxU) hlt
          omega
        · have : y = x := by omega
          exact hxL (this ▸ hyU)
    obtain ⟨k, hk⟩ := (w1.free_list y).1 hyF
    refine ⟨k, by rw [hk]; exact hyx, ?_⟩
    rw [hk]
    by_contra hlt
    obtain ⟨pgy, hpgy, m1, m2, m3, m4⟩ := w1.paged y (Or.inl hyF) hys
    have hpe : pg = pgy := w1.page_eq hpg1 hpgy (z := x) (by omega) (by rw [hS]; omega)
      (by omega) (by omega)
    subst hpe
    obtain ⟨v, hv, hvs, hvu, huv⟩ := w1.cover pg hpg1 (y + 16 * s1.size y) (by omega)
      (by rw [hS]; omega) (by omega)
    have hyv : y < v := by
      by_contra hge
      have hne : v ≠ y := by
        intro e
        rw [e] at huv
        omega
      have := w1.disj v y hv (Or.inl hyF) (by omega)
      omega
    have hd := w1.disj y v (Or.inl hyF) hv hyv
    have hve : y + 16 * s1.size y = v := by omega
    rcases hv with hvF | hvU
    · exact i1.co y hyF v hvF hys hve
    · rw [hU] at hvU
      have hvU0 := hi.bn.live_U v hvU
      have := w.disj x v (Or.inr hxU) (Or.inr hvU0) (by omega)
      omega

end Heap
